import Mathlib

/-!
# FrangiXiaoSheetnessFunctor

A verification development for `Utilities/ITK/itkFrangiXiaoSheetnessFunctor.h`:
the per-voxel sheetness measure computed from the gradient magnitude and the
three Hessian eigenvalues.

## Number model

The functor computes in `RealType` (a C++ `double`).  A value of the embedding
is a number of an ordered field `R`, one of the two infinities, or NaN, and the
operations follow IEEE 754 on these four shapes.  Zero carries no sign: the
comparisons of `Evaluate` do not see the sign of a zero, and every zero divisor
of `Evaluate` is `2.0 * m * m`, whose sign is positive in IEEE arithmetic too,
so a nonzero number divided by zero takes the sign of the numerator.

The method is embedded twice.

* `Evaluate64` is the method as the machine runs it.  Every arithmetic
  operation (`add64`, `sub64`, `mul64`, `div64`) and the two library calls
  (`exp64`, `sqrt64`) return the exact result rounded to binary64 by `round64`:
  to the nearest number with a 53-bit significand, ties to the even significand,
  with gradual underflow below `2⁻¹⁰²²` and overflow to an infinity from
  `2¹⁰²⁴` on.  The sort, `std::fabs`, the unary minus and the comparisons are
  exact on binary64 numbers and are shared with `Evaluate`.  The operations are
  taken one by one in the order of the source (no fused multiply-add, no
  extended precision), and `std::exp` is taken as correctly rounded like
  `std::sqrt`.  The eigenvalues, the gradient magnitude and the parameters are
  numbers of `R`; the machine passes binary64 numbers (`IsDouble`), and the
  concrete inputs below are binary64 numbers, except the constructor's
  `kappa = 0.8`, which the first operation that reads it rounds.
* `Evaluate` is the same method with every operation exact on numbers: no
  rounding, no overflow and no underflow.  It keeps the special values that a
  division by zero creates.  The properties of the early exits, of the guard, of
  the worked scenario over the reals and of the NaN created by `beta = 0` are
  stated on it.

The definitions are generic in the field `R` and in the two library functions
`exp` and `sqrt` on it, so they run on any field with decidable order and a
floor function.  The theorems are stated over the real numbers with `Real.exp`
and `Real.sqrt`.
-/

namespace FrangiXiaoSheetness

/-- The type `RealType` of the functor: a number, plus or minus infinity, or NaN. -/
inductive RealType (R : Type) where
  | fin (x : R)
  | pinf
  | ninf
  | nan
  deriving DecidableEq

namespace RealType

variable {R : Type} [LinearOrderedField R]

/-- Unary minus. -/
def neg : RealType R → RealType R
  | fin x => fin (-x)
  | pinf => ninf
  | ninf => pinf
  | nan => nan

/-- Addition: opposite infinities give NaN. -/
def add : RealType R → RealType R → RealType R
  | fin x, fin y => fin (x + y)
  | fin _, pinf => pinf
  | fin _, ninf => ninf
  | pinf, fin _ => pinf
  | pinf, pinf => pinf
  | pinf, ninf => nan
  | ninf, fin _ => ninf
  | ninf, ninf => ninf
  | ninf, pinf => nan
  | nan, _ => nan
  | _, nan => nan

/-- Subtraction. -/
def sub (a b : RealType R) : RealType R := add a (neg b)

/-- An infinity with the sign of `x`, NaN when `x` is zero and `zeroNaN` is set,
else the infinity `s` itself at zero. -/
def signedInf (s : RealType R) (x : R) (zeroNaN : Bool) : RealType R :=
  if x = 0 then (if zeroNaN then nan else s)
  else if 0 < x then s else neg s

/-- Multiplication: infinity times zero is NaN. -/
def mul : RealType R → RealType R → RealType R
  | fin x, fin y => fin (x * y)
  | fin x, pinf => signedInf pinf x true
  | fin x, ninf => signedInf ninf x true
  | pinf, fin y => signedInf pinf y true
  | ninf, fin y => signedInf ninf y true
  | pinf, pinf => pinf
  | pinf, ninf => ninf
  | ninf, pinf => ninf
  | ninf, ninf => pinf
  | nan, _ => nan
  | _, nan => nan

/-- Division: `0/0` and `inf/inf` are NaN, a nonzero number over zero is the
infinity with the sign of the numerator, a number over an infinity is zero. -/
def div : RealType R → RealType R → RealType R
  | fin x, fin y => if y = 0 then signedInf pinf x true else fin (x / y)
  | fin _, pinf => fin 0
  | fin _, ninf => fin 0
  | pinf, fin y => signedInf pinf y false
  | ninf, fin y => signedInf ninf y false
  | pinf, pinf => nan
  | pinf, ninf => nan
  | ninf, pinf => nan
  | ninf, ninf => nan
  | nan, _ => nan
  | _, nan => nan

/-- The function `std::exp`, from the exponential `e` of the field: `exp(-inf)` is
zero. -/
def exp (e : R → R) : RealType R → RealType R
  | fin x => fin (e x)
  | pinf => pinf
  | ninf => fin 0
  | nan => nan

/-- The function `std::sqrt`, from the square root `s` of the field: NaN below
zero. -/
def sqrt (s : R → R) : RealType R → RealType R
  | fin x => if x < 0 then nan else fin (s x)
  | pinf => pinf
  | ninf => nan
  | nan => nan

/-- The function `std::fabs`. -/
def fabs : RealType R → RealType R
  | fin x => fin |x|
  | pinf => pinf
  | ninf => pinf
  | nan => nan

/-- The comparison `a < b`: false as soon as one side is NaN. -/
def lt : RealType R → RealType R → Bool
  | fin x, fin y => decide (x < y)
  | fin _, pinf => true
  | ninf, fin _ => true
  | ninf, pinf => true
  | _, _ => false

/-- A value is finite when it is a number. -/
def isFinite : RealType R → Bool
  | fin _ => true
  | _ => false

instance : Neg (RealType R) := ⟨neg⟩
instance : Add (RealType R) := ⟨add⟩
instance : Sub (RealType R) := ⟨sub⟩
instance : Mul (RealType R) := ⟨mul⟩
instance : Div (RealType R) := ⟨div⟩

end RealType

open RealType

variable {R : Type} [LinearOrderedField R]

/-- Modelled from the spec: `Functor::AbsLessCompare` of `itkComparisonOperators.h`,
which is not part of the sources at hand: `a` comes before `b` when its absolute
value is strictly smaller. -/
def AbsLessCompare (a b : R) : Bool := decide (|a| < |b|)

/-- One step of the insertion sort: `val` goes in front of the first element
it compares less than. -/
def linearInsert (comp : R → R → Bool) (val : R) : List R → List R
  | [] => [val]
  | x :: xs => if comp val x then val :: x :: xs else x :: linearInsert comp val xs

/-- The call `std::sort(first, last, comp)` on a short range: an insertion sort
that takes the elements from left to right. -/
def sort (comp : R → R → Bool) (a : List R) : List R :=
  a.foldl (fun acc val => linearInsert comp val acc) []

/-- Modelled from the spec: the constant `itk::Math::eps` of `itkMath.h`, which is
not part of the sources at hand: the machine epsilon of a `double`, `2^-52`. -/
def eps : R := 1 / 2 ^ 52

/-- The member variables of the functor. -/
structure FrangiXiaoSheetnessFunctor (R : Type) where
  m_Alpha : R
  m_Beta : R
  m_C : R
  m_Kappa : R
  m_BrightObject : Bool

/-- The constructor: the values suggested in the paper, bright objects. -/
def FrangiXiaoSheetnessFunctor.New : FrangiXiaoSheetnessFunctor R :=
  { m_Alpha := 1 / 2, m_Beta := 1 / 2, m_C := 1, m_Kappa := 8 / 10, m_BrightObject := true }

/-- Modelled from the spec: the value that `itkSetClampMacro(name, type, min, max)`
of `itkMacro.h` stores, a macro that is not part of the sources at hand: the
argument, raised to `min` when below it and lowered to `max` when above it. -/
def setClamp (min max _arg : R) : R :=
  if _arg < min then min else if max < _arg then max else _arg

/-- Modelled from the spec: `NumericTraits<double>::max()`, the largest finite
`double`, `(2^53 - 1) * 2^971`. -/
def doubleMax : R := (2 ^ 53 - 1) * 2 ^ 971

/-- The setter `SetAlpha`, declared by `itkSetClampMacro( Alpha, double, 0.0, max )`. -/
def SetAlpha (self : FrangiXiaoSheetnessFunctor R) (_arg : R) : FrangiXiaoSheetnessFunctor R :=
  { self with m_Alpha := setClamp 0 doubleMax _arg }

/-- The setter `SetBeta`, declared by `itkSetClampMacro( Beta, double, 0.0, max )`. -/
def SetBeta (self : FrangiXiaoSheetnessFunctor R) (_arg : R) : FrangiXiaoSheetnessFunctor R :=
  { self with m_Beta := setClamp 0 doubleMax _arg }

/-- The setter `SetC`, declared by `itkSetClampMacro( C, double, 0.0, max )`. -/
def SetC (self : FrangiXiaoSheetnessFunctor R) (_arg : R) : FrangiXiaoSheetnessFunctor R :=
  { self with m_C := setClamp 0 doubleMax _arg }

/-- The setter `SetKappa`, declared by `itkSetClampMacro( Kappa, double, 0.0, max )`. -/
def SetKappa (self : FrangiXiaoSheetnessFunctor R) (_arg : R) : FrangiXiaoSheetnessFunctor R :=
  { self with m_Kappa := setClamp 0 doubleMax _arg }

/-- The setter `SetBrightObject`, declared by `itkSetMacro( BrightObject, bool )`. -/
def SetBrightObject (self : FrangiXiaoSheetnessFunctor R) (_arg : Bool) :
    FrangiXiaoSheetnessFunctor R :=
  { self with m_BrightObject := _arg }

/-- The method `Evaluate(gMag, eigenValues)` with every operation exact on
numbers; `Evaluate64` is the same method with every operation rounded to
binary64.  The array of eigenvalues is a list read at the indices 0, 1 and 2;
`exp` and `sqrt` are the exponential and the square root of the field, lifted
to `RealType` by `RealType.exp` and `RealType.sqrt`. -/
def Evaluate (exp sqrt : R → R) (self : FrangiXiaoSheetnessFunctor R)
    (gMag : R) (eigenValues : List R) : RealType R :=
  let sortedEigenValues := sort AbsLessCompare eigenValues
  let l1 := fabs (fin (sortedEigenValues.getD 0 0))
  let l2 := fabs (fin (sortedEigenValues.getD 1 0))
  let l3 := fabs (fin (sortedEigenValues.getD 2 0))
  let gradientMagnitude : RealType R := fin gMag
  let eigenValuesSum : RealType R :=
    fin (eigenValues.getD 0 0 + eigenValues.getD 1 0 + eigenValues.getD 2 0)
  let reject :=
    if self.m_BrightObject then lt (fin 0) eigenValuesSum else lt eigenValuesSum (fin 0)
  if reject then fin 0
  else if lt l2 (fin eps) || lt l3 (fin eps) then fin 0
  else
    let Ra := l2 / l3
    let Rb := l1 / RealType.sqrt sqrt (l2 * l3)
    let S := RealType.sqrt sqrt (l1 * l1 + l2 * l2 + l3 * l3)
    let sheetness := RealType.exp exp (-(Ra * Ra) / (fin 2 * fin self.m_Alpha * fin self.m_Alpha))
    let sheetness :=
      sheetness * RealType.exp exp (-(Rb * Rb) / (fin 2 * fin self.m_Beta * fin self.m_Beta))
    let sheetness :=
      sheetness * (fin 1 - RealType.exp exp (-(S * S) / (fin 2 * fin self.m_C * fin self.m_C)))
    let sheetness :=
      sheetness * RealType.exp exp (fin (-1) * fin self.m_Kappa * (gradientMagnitude / l3))
    sheetness

/-! ## Definitions used to state the properties -/

/-- The smallest of the three absolute values. -/
def absMin (e0 e1 e2 : R) : R := min (min |e0| |e1|) |e2|

/-- The median of the three absolute values. -/
def absMed (e0 e1 e2 : R) : R := max (min |e0| |e1|) (min (max |e0| |e1|) |e2|)

/-- The largest of the three absolute values. -/
def absMax (e0 e1 e2 : R) : R := max (max |e0| |e1|) |e2|

/-- The value that `Evaluate` computes once the two early exits are passed, from
the three absolute values `l1`, `l2`, `l3`: the statements from `Ra` to the
final product, unchanged. -/
def sheetnessOf (exp sqrt : R → R) (self : FrangiXiaoSheetnessFunctor R)
    (gMag l1 l2 l3 : R) : RealType R :=
  RealType.exp exp (-(fin l2 / fin l3 * (fin l2 / fin l3))
      / (fin 2 * fin self.m_Alpha * fin self.m_Alpha))
    * RealType.exp exp
      (-(fin l1 / RealType.sqrt sqrt (fin l2 * fin l3) * (fin l1 / RealType.sqrt sqrt (fin l2 * fin l3)))
        / (fin 2 * fin self.m_Beta * fin self.m_Beta))
    * (fin 1 - RealType.exp exp
      (-(RealType.sqrt sqrt (fin l1 * fin l1 + fin l2 * fin l2 + fin l3 * fin l3)
          * RealType.sqrt sqrt (fin l1 * fin l1 + fin l2 * fin l2 + fin l3 * fin l3))
        / (fin 2 * fin self.m_C * fin self.m_C)))
    * RealType.exp exp (fin (-1) * fin self.m_Kappa * (fin gMag / fin l3))

/-- The polarity test of `Evaluate`: the sum of the eigenvalues has the sign
that the functor rejects. -/
def rejected (self : FrangiXiaoSheetnessFunctor R) (e0 e1 e2 : R) : Bool :=
  if self.m_BrightObject then decide (0 < e0 + e1 + e2) else decide (e0 + e1 + e2 < 0)

/-- The sign of the eigenvalue sum is compatible with the polarity of the
functor: not positive for bright objects, not negative for dark ones. -/
def SignCompatible (self : FrangiXiaoSheetnessFunctor R) (e0 e1 e2 : R) : Prop :=
  (self.m_BrightObject = true → e0 + e1 + e2 ≤ 0) ∧
    (self.m_BrightObject = false → 0 ≤ e0 + e1 + e2)

/-- One exponential gate of `Evaluate`: `std::exp( - x / ( 2.0 * m * m ) )`. -/
def expGate (exp : R → R) (x m : R) : RealType R :=
  RealType.exp exp (-(fin x) / (fin 2 * fin m * fin m))

/-- One call of a setter of the functor, with its argument. -/
inductive SetterCall (R : Type) where
  | setAlpha (v : R)
  | setBeta (v : R)
  | setC (v : R)
  | setKappa (v : R)
  | setBrightObject (b : Bool)

/-- The functor after one setter call. -/
def applyCall (self : FrangiXiaoSheetnessFunctor R) : SetterCall R → FrangiXiaoSheetnessFunctor R
  | SetterCall.setAlpha v => SetAlpha self v
  | SetterCall.setBeta v => SetBeta self v
  | SetterCall.setC v => SetC self v
  | SetterCall.setKappa v => SetKappa self v
  | SetterCall.setBrightObject b => SetBrightObject self b

/-- The functor after a sequence of setter calls, made from left to right. -/
def applyCalls (self : FrangiXiaoSheetnessFunctor R) (calls : List (SetterCall R)) :
    FrangiXiaoSheetnessFunctor R :=
  calls.foldl applyCall self

/-- The variant of `Evaluate` whose degeneracy guard tests `l2` only.  Everything
else is `Evaluate`. -/
def EvaluateGuardL2 (exp sqrt : R → R) (self : FrangiXiaoSheetnessFunctor R)
    (gMag : R) (eigenValues : List R) : RealType R :=
  let sortedEigenValues := sort AbsLessCompare eigenValues
  let l1 := fabs (fin (sortedEigenValues.getD 0 0))
  let l2 := fabs (fin (sortedEigenValues.getD 1 0))
  let l3 := fabs (fin (sortedEigenValues.getD 2 0))
  let gradientMagnitude : RealType R := fin gMag
  let eigenValuesSum : RealType R :=
    fin (eigenValues.getD 0 0 + eigenValues.getD 1 0 + eigenValues.getD 2 0)
  let reject :=
    if self.m_BrightObject then lt (fin 0) eigenValuesSum else lt eigenValuesSum (fin 0)
  if reject then fin 0
  else if lt l2 (fin eps) then fin 0
  else
    let Ra := l2 / l3
    let Rb := l1 / RealType.sqrt sqrt (l2 * l3)
    let S := RealType.sqrt sqrt (l1 * l1 + l2 * l2 + l3 * l3)
    let sheetness := RealType.exp exp (-(Ra * Ra) / (fin 2 * fin self.m_Alpha * fin self.m_Alpha))
    let sheetness :=
      sheetness * RealType.exp exp (-(Rb * Rb) / (fin 2 * fin self.m_Beta * fin self.m_Beta))
    let sheetness :=
      sheetness * (fin 1 - RealType.exp exp (-(S * S) / (fin 2 * fin self.m_C * fin self.m_C)))
    let sheetness :=
      sheetness * RealType.exp exp (fin (-1) * fin self.m_Kappa * (gradientMagnitude / l3))
    sheetness

/-! ## Binary64 arithmetic -/

/-- Round to the nearest integer, ties to the even one. -/
def rne [FloorRing R] (q : R) : ℤ :=
  if q - ⌊q⌋ < 1 / 2 then ⌊q⌋
  else if 1 / 2 < q - ⌊q⌋ then ⌊q⌋ + 1
  else if ⌊q⌋ % 2 = 0 then ⌊q⌋ else ⌊q⌋ + 1

/-- The exponent of the binade of `x`, not below the least normal exponent
-1022 of binary64. -/
def expo [FloorRing R] (x : R) : ℤ := max (Int.log 2 |x|) (-1022)

/-- Round to the nearest number with 53 significant bits, ties to even, with
gradual underflow and no bound on the exponent. -/
def rnd [FloorRing R] (x : R) : R := (rne (x / 2 ^ (expo x - 52)) : R) * 2 ^ (expo x - 52)

/-- The binary64 result of an operation whose exact result is `x`: the rounded
value, or an infinity when it reaches `2^1024`. -/
def round64 [FloorRing R] (x : R) : RealType R :=
  if 2 ^ 1024 ≤ rnd x then pinf else if rnd x ≤ -(2 ^ 1024) then ninf else fin (rnd x)

/-- The number `x` is a finite binary64 number: rounding leaves it unchanged. -/
def IsDouble [FloorRing R] (x : R) : Prop := round64 x = fin x

/-- Binary64 addition. -/
def add64 [FloorRing R] : RealType R → RealType R → RealType R
  | fin x, fin y => round64 (x + y)
  | a, b => add a b

/-- Binary64 subtraction. -/
def sub64 [FloorRing R] (a b : RealType R) : RealType R := add64 a (neg b)

/-- Binary64 multiplication. -/
def mul64 [FloorRing R] : RealType R → RealType R → RealType R
  | fin x, fin y => round64 (x * y)
  | a, b => mul a b

/-- Binary64 division. -/
def div64 [FloorRing R] : RealType R → RealType R → RealType R
  | fin x, fin y => if y = 0 then signedInf pinf x true else round64 (x / y)
  | a, b => div a b

/-- The function `std::exp` in binary64, taken as the correctly rounded
exponential `e` of the field. -/
def exp64 [FloorRing R] (e : R → R) : RealType R → RealType R
  | fin x => round64 (e x)
  | a => exp e a

/-- The function `std::sqrt` in binary64: the correctly rounded square root `s`
of the field, NaN below zero. -/
def sqrt64 [FloorRing R] (s : R → R) : RealType R → RealType R
  | fin x => if x < 0 then nan else round64 (s x)
  | a => sqrt s a

/-- The method `Evaluate(gMag, eigenValues)` in binary64 arithmetic: every
arithmetic operation and library call of the source rounds its result to
binary64; the sort, `std::fabs`, unary minus and the comparisons are exact. -/
def Evaluate64 [FloorRing R] (exp sqrt : R → R) (self : FrangiXiaoSheetnessFunctor R)
    (gMag : R) (eigenValues : List R) : RealType R :=
  let sortedEigenValues := sort AbsLessCompare eigenValues
  let l1 := fabs (fin (sortedEigenValues.getD 0 0))
  let l2 := fabs (fin (sortedEigenValues.getD 1 0))
  let l3 := fabs (fin (sortedEigenValues.getD 2 0))
  let gradientMagnitude : RealType R := fin gMag
  let eigenValuesSum : RealType R :=
    add64 (add64 (fin (eigenValues.getD 0 0)) (fin (eigenValues.getD 1 0)))
      (fin (eigenValues.getD 2 0))
  let reject :=
    if self.m_BrightObject then lt (fin 0) eigenValuesSum else lt eigenValuesSum (fin 0)
  if reject then fin 0
  else if lt l2 (fin eps) || lt l3 (fin eps) then fin 0
  else
    let Ra := div64 l2 l3
    let Rb := div64 l1 (sqrt64 sqrt (mul64 l2 l3))
    let S := sqrt64 sqrt (add64 (add64 (mul64 l1 l1) (mul64 l2 l2)) (mul64 l3 l3))
    let sheetness := exp64 exp
      (div64 (neg (mul64 Ra Ra)) (mul64 (mul64 (fin 2) (fin self.m_Alpha)) (fin self.m_Alpha)))
    let sheetness := mul64 sheetness (exp64 exp
      (div64 (neg (mul64 Rb Rb)) (mul64 (mul64 (fin 2) (fin self.m_Beta)) (fin self.m_Beta))))
    let sheetness := mul64 sheetness (sub64 (fin 1) (exp64 exp
      (div64 (neg (mul64 S S)) (mul64 (mul64 (fin 2) (fin self.m_C)) (fin self.m_C)))))
    let sheetness := mul64 sheetness (exp64 exp
      (mul64 (mul64 (fin (-1)) (fin self.m_Kappa)) (div64 gradientMagnitude l3)))
    sheetness

/-- The sum of the three eigenvalues as `Evaluate64` forms it, from left to
right. -/
def sum64 [FloorRing R] (e0 e1 e2 : R) : RealType R :=
  add64 (add64 (fin e0) (fin e1)) (fin e2)

/-- The polarity test of `Evaluate64` on a computed sum `s`. -/
def rejected64 (bright : Bool) (s : RealType R) : Bool :=
  if bright then lt (fin 0) s else lt s (fin 0)

/-- The divisor `2.0 * m * m` of a gate, as `Evaluate64` forms it. -/
def divisor64 [FloorRing R] (m : R) : RealType R := mul64 (mul64 (fin 2) (fin m)) (fin m)

/-- One exponential gate of `Evaluate64`: `std::exp( - ( q * q ) / d )`. -/
def gate64 [FloorRing R] (exp : R → R) (q d : RealType R) : RealType R :=
  exp64 exp (div64 (neg (mul64 q q)) d)

/-- The ratio `Ra` of `Evaluate64`. -/
def Ra64 [FloorRing R] (l2 l3 : R) : RealType R := div64 (fin l2) (fin l3)

/-- The ratio `Rb` of `Evaluate64`. -/
def Rb64 [FloorRing R] (sqrt : R → R) (l1 l2 l3 : R) : RealType R :=
  div64 (fin l1) (sqrt64 sqrt (mul64 (fin l2) (fin l3)))

/-- The structure strength `S` of `Evaluate64`. -/
def S64 [FloorRing R] (sqrt : R → R) (l1 l2 l3 : R) : RealType R :=
  sqrt64 sqrt (add64 (add64 (mul64 (fin l1) (fin l1)) (mul64 (fin l2) (fin l2)))
    (mul64 (fin l3) (fin l3)))

/-- The exponent of the edge term of `Evaluate64`. -/
def edgeExponent64 [FloorRing R] (kappa gMag l3 : R) : RealType R :=
  mul64 (mul64 (fin (-1)) (fin kappa)) (div64 (fin gMag) (fin l3))

/-- The value that `Evaluate64` computes once the two early exits are passed, from
the three absolute values: the product of the four gates, taken from left to
right. -/
def sheetnessOf64 [FloorRing R] (exp sqrt : R → R) (self : FrangiXiaoSheetnessFunctor R)
    (gMag l1 l2 l3 : R) : RealType R :=
  mul64 (mul64 (mul64
      (gate64 exp (Ra64 l2 l3) (divisor64 self.m_Alpha))
      (gate64 exp (Rb64 sqrt l1 l2 l3) (divisor64 self.m_Beta)))
      (sub64 (fin 1) (gate64 exp (S64 sqrt l1 l2 l3) (divisor64 self.m_C))))
    (exp64 exp (edgeExponent64 self.m_Kappa gMag l3))

/-- The value `v` is a number between `lo` and `hi`. -/
def InI (v : RealType R) (lo hi : R) : Prop := ∃ r, v = fin r ∧ lo ≤ r ∧ r ≤ hi

/-- The value `v` is a number that is not negative, or plus infinity. -/
def NonNegV (v : RealType R) : Prop := (∃ r, v = fin r ∧ 0 ≤ r) ∨ v = pinf

/-- The value `v` is a number that is not positive, or minus infinity. -/
def NonPosV (v : RealType R) : Prop := (∃ r, v = fin r ∧ r ≤ 0) ∨ v = ninf

/-- The value `v` is a positive number or plus infinity. -/
def PosV (v : RealType R) : Prop := (∃ r, v = fin r ∧ 0 < r) ∨ v = pinf

/-- The value `v` is NaN or a number between 0 and 1. -/
def UnitOrNaN (v : RealType R) : Prop := v = nan ∨ ∃ r, v = fin r ∧ 0 ≤ r ∧ r ≤ 1

/-- The value `v` is a number that is at least `lo`, or plus infinity. -/
def GeV (v : RealType R) (lo : R) : Prop := (∃ r, v = fin r ∧ lo ≤ r) ∨ v = pinf

namespace RealType

theorem fin_neg (x : R) : -(fin x) = fin (-x) := rfl

theorem fin_add (x y : R) : fin x + fin y = fin (x + y) := rfl

theorem fin_mul (x y : R) : fin x * fin y = fin (x * y) := rfl

theorem fin_div (x y : R) (h : y ≠ 0) : fin x / fin y = fin (x / y) := by
  show div (fin x) (fin y) = _
  simp [div, h]

theorem fin_zero_div_zero : fin (0 : R) / fin (0 : R) = nan := by
  show div (fin 0) (fin 0) = _
  simp [div, signedInf]

theorem fabs_fin (x : R) : fabs (fin x) = fin |x| := rfl

theorem exp_fin (e : R → R) (x : R) : exp e (fin x) = fin (e x) := rfl

theorem exp_nan (e : R → R) : exp e (nan : RealType R) = nan := rfl

theorem sqrt_fin (s : R → R) (x : R) (h : 0 ≤ x) : sqrt s (fin x) = fin (s x) := by
  simp [sqrt, not_lt.mpr h]

theorem lt_fin (x y : R) : lt (fin x) (fin y) = decide (x < y) := rfl

theorem nan_mul (a : RealType R) : nan * a = nan := by
  cases a <;> rfl

theorem mul_nan (a : RealType R) : a * nan = nan := by
  cases a <;> rfl

end RealType

/-! ## The sorted eigenvalues -/

theorem absMin_le_absMed (e0 e1 e2 : R) : absMin e0 e1 e2 ≤ absMed e0 e1 e2 := by
  unfold absMin absMed
  exact le_trans (min_le_left _ _) (le_max_left _ _)

theorem absMed_le_absMax (e0 e1 e2 : R) : absMed e0 e1 e2 ≤ absMax e0 e1 e2 := by
  unfold absMed absMax
  apply max_le
  · exact le_trans (min_le_left _ _) (le_trans (le_max_left _ _) (le_max_left _ _))
  · exact le_trans (min_le_left _ _) (le_max_left _ _)

theorem absMin_nonneg (e0 e1 e2 : R) : 0 ≤ absMin e0 e1 e2 := by
  unfold absMin
  exact le_min (le_min (abs_nonneg _) (abs_nonneg _)) (abs_nonneg _)

/-- The insertion sort on three elements, as a decision tree. -/
theorem sort_three_eq (e0 e1 e2 : R) :
    sort AbsLessCompare [e0, e1, e2] =
      if |e1| < |e0| then
        (if |e2| < |e1| then [e2, e1, e0] else if |e2| < |e0| then [e1, e2, e0] else [e1, e0, e2])
      else
        (if |e2| < |e0| then [e2, e0, e1] else if |e2| < |e1| then [e0, e2, e1] else [e0, e1, e2]) := by
  by_cases h10 : |e1| < |e0| <;> by_cases h20 : |e2| < |e0| <;> by_cases h21 : |e2| < |e1| <;>
    simp [sort, linearInsert, AbsLessCompare, h10, h20, h21]

/-- Sorting three eigenvalues by absolute value leaves three values whose
absolute values are the minimum, the median and the maximum. -/
theorem sort_three (e0 e1 e2 : R) :
    ∃ a b c, sort AbsLessCompare [e0, e1, e2] = [a, b, c] ∧
      |a| = absMin e0 e1 e2 ∧ |b| = absMed e0 e1 e2 ∧ |c| = absMax e0 e1 e2 := by
  rw [sort_three_eq]
  unfold absMin absMed absMax
  generalize hx0 : |e0| = x0
  generalize hx1 : |e1| = x1
  generalize hx2 : |e2| = x2
  split_ifs <;> refine ⟨_, _, _, rfl, ?_, ?_, ?_⟩ <;>
    simp only [min_def, max_def] <;> split_ifs <;> linarith

/-! ## `Evaluate` on three eigenvalues -/

/-- The method `Evaluate` on the array `[e0, e1, e2]`, with the sort resolved. -/
theorem Evaluate_three (exp sqrt : R → R) (self : FrangiXiaoSheetnessFunctor R)
    (gMag e0 e1 e2 : R) :
    Evaluate exp sqrt self gMag [e0, e1, e2] =
      if rejected self e0 e1 e2 = true then fin 0
      else if absMed e0 e1 e2 < eps ∨ absMax e0 e1 e2 < eps then fin 0
      else sheetnessOf exp sqrt self gMag (absMin e0 e1 e2) (absMed e0 e1 e2) (absMax e0 e1 e2) := by
  obtain ⟨a, b, c, hs, ha, hb, hc⟩ := sort_three e0 e1 e2
  unfold Evaluate
  simp only [hs, List.getD_cons_zero, List.getD_cons_succ, fabs_fin, ha, hb, hc, lt_fin,
    Bool.or_eq_true, decide_eq_true_eq, rejected, sheetnessOf]

theorem rejected_eq_false_iff (self : FrangiXiaoSheetnessFunctor R) (e0 e1 e2 : R) :
    rejected self e0 e1 e2 = false ↔ SignCompatible self e0 e1 e2 := by
  unfold rejected SignCompatible
  cases self.m_BrightObject <;> simp

theorem eps_pos : (0 : R) < eps := by
  unfold eps
  positivity

theorem absMin_swap01 (e0 e1 e2 : R) : absMin e1 e0 e2 = absMin e0 e1 e2 := by
  unfold absMin
  rw [min_comm |e1| |e0|]

theorem absMin_swap12 (e0 e1 e2 : R) : absMin e0 e2 e1 = absMin e0 e1 e2 := by
  unfold absMin
  exact min_right_comm _ _ _

theorem absMax_swap01 (e0 e1 e2 : R) : absMax e1 e0 e2 = absMax e0 e1 e2 := by
  unfold absMax
  rw [max_comm |e1| |e0|]

theorem absMax_swap12 (e0 e1 e2 : R) : absMax e0 e2 e1 = absMax e0 e1 e2 := by
  unfold absMax
  rw [max_assoc, max_comm |e2| |e1|, max_assoc]

theorem absMed_swap01 (e0 e1 e2 : R) : absMed e1 e0 e2 = absMed e0 e1 e2 := by
  unfold absMed
  rw [min_comm |e1| |e0|, max_comm |e1| |e0|]

theorem absMed_swap12 (e0 e1 e2 : R) : absMed e0 e2 e1 = absMed e0 e1 e2 := by
  unfold absMed
  generalize |e0| = x0
  generalize |e1| = x1
  generalize |e2| = x2
  simp only [min_def, max_def]
  split_ifs <;> linarith

/-- The invariants of the eigenvalue array that `Evaluate` reads are the same
for every arrangement of the three values. -/
theorem perm_three {a b c e0 e1 e2 : R} (h : [a, b, c].Perm [e0, e1, e2]) :
    a + b + c = e0 + e1 + e2 ∧ absMin a b c = absMin e0 e1 e2 ∧
      absMed a b c = absMed e0 e1 e2 ∧ absMax a b c = absMax e0 e1 e2 := by
  have hmem := List.mem_permutations'.mpr h
  simp [List.permutations', List.permutations'Aux] at hmem
  rcases hmem with h | h | h | h | h | h <;> obtain ⟨ha, hb, hc⟩ := h <;> subst ha hb hc <;>
    refine ⟨by ring, ?_, ?_, ?_⟩
  all_goals first
    | rfl
    | exact absMin_swap01 _ _ _
    | exact absMin_swap12 _ _ _
    | exact (absMin_swap12 _ _ _).trans (absMin_swap01 _ _ _)
    | exact (absMin_swap01 _ _ _).trans (absMin_swap12 _ _ _)
    | exact (absMin_swap12 _ _ _).trans ((absMin_swap01 _ _ _).trans (absMin_swap12 _ _ _))
    | exact absMed_swap01 _ _ _
    | exact absMed_swap12 _ _ _
    | exact (absMed_swap12 _ _ _).trans (absMed_swap01 _ _ _)
    | exact (absMed_swap01 _ _ _).trans (absMed_swap12 _ _ _)
    | exact (absMed_swap12 _ _ _).trans ((absMed_swap01 _ _ _).trans (absMed_swap12 _ _ _))
    | exact absMax_swap01 _ _ _
    | exact absMax_swap12 _ _ _
    | exact (absMax_swap12 _ _ _).trans (absMax_swap01 _ _ _)
    | exact (absMax_swap01 _ _ _).trans (absMax_swap12 _ _ _)
    | exact (absMax_swap12 _ _ _).trans ((absMax_swap01 _ _ _).trans (absMax_swap12 _ _ _))

/-! ## The exponential gates -/

theorem expGate_zero_zero (exp : R → R) : expGate exp 0 0 = nan := by
  simp only [expGate, fin_neg, fin_mul, mul_zero, neg_zero, fin_zero_div_zero, exp_nan]

/-- Over the real numbers, with `l2` and `l3` positive, every operation before
the three divisions by the parameters yields a number. -/
theorem sheetnessOf_real (self : FrangiXiaoSheetnessFunctor ℝ) (gMag l1 l2 l3 : ℝ)
    (h1 : 0 ≤ l1) (h2 : 0 < l2) (h3 : 0 < l3) :
    sheetnessOf Real.exp Real.sqrt self gMag l1 l2 l3 =
      expGate Real.exp (l2 / l3 * (l2 / l3)) self.m_Alpha
        * expGate Real.exp (l1 / Real.sqrt (l2 * l3) * (l1 / Real.sqrt (l2 * l3))) self.m_Beta
        * (fin 1 - expGate Real.exp
            (Real.sqrt (l1 * l1 + l2 * l2 + l3 * l3) * Real.sqrt (l1 * l1 + l2 * l2 + l3 * l3))
            self.m_C)
        * fin (Real.exp (-1 * self.m_Kappa * (gMag / l3))) := by
  have h23 : 0 < l2 * l3 := mul_pos h2 h3
  have hs : Real.sqrt (l2 * l3) ≠ 0 := (Real.sqrt_pos.mpr h23).ne'
  have hS : 0 ≤ l1 * l1 + l2 * l2 + l3 * l3 := by positivity
  simp only [sheetnessOf, expGate, fin_div _ _ h3.ne', fin_mul, fin_add, sqrt_fin _ _ h23.le,
    sqrt_fin _ _ hS, fin_div _ _ hs, exp_fin]

/-- Past the two early exits: a sign-compatible triple whose median absolute
value reaches `eps` is evaluated by the product of the four gates. -/
theorem Evaluate_pass (self : FrangiXiaoSheetnessFunctor ℝ) (gMag e0 e1 e2 : ℝ)
    (hpol : SignCompatible self e0 e1 e2) (hl2 : eps ≤ absMed e0 e1 e2) :
    Evaluate Real.exp Real.sqrt self gMag [e0, e1, e2] =
      expGate Real.exp (absMed e0 e1 e2 / absMax e0 e1 e2 * (absMed e0 e1 e2 / absMax e0 e1 e2))
          self.m_Alpha
        * expGate Real.exp
            (absMin e0 e1 e2 / Real.sqrt (absMed e0 e1 e2 * absMax e0 e1 e2)
              * (absMin e0 e1 e2 / Real.sqrt (absMed e0 e1 e2 * absMax e0 e1 e2))) self.m_Beta
        * (fin 1 - expGate Real.exp
            (Real.sqrt (absMin e0 e1 e2 * absMin e0 e1 e2 + absMed e0 e1 e2 * absMed e0 e1 e2
                + absMax e0 e1 e2 * absMax e0 e1 e2)
              * Real.sqrt (absMin e0 e1 e2 * absMin e0 e1 e2 + absMed e0 e1 e2 * absMed e0 e1 e2
                + absMax e0 e1 e2 * absMax e0 e1 e2)) self.m_C)
        * fin (Real.exp (-1 * self.m_Kappa * (gMag / absMax e0 e1 e2))) := by
  have h2 : 0 < absMed e0 e1 e2 := lt_of_lt_of_le eps_pos hl2
  have h3 : 0 < absMax e0 e1 e2 := lt_of_lt_of_le h2 (absMed_le_absMax e0 e1 e2)
  have hrej : rejected self e0 e1 e2 = false := (rejected_eq_false_iff self e0 e1 e2).mpr hpol
  have hguard : ¬(absMed e0 e1 e2 < eps ∨ absMax e0 e1 e2 < eps) := by
    rintro (h | h)
    · exact absurd h (not_lt.mpr hl2)
    · exact absurd h (not_lt.mpr (le_trans hl2 (absMed_le_absMax e0 e1 e2)))
  rw [Evaluate_three, hrej, if_neg hguard, sheetnessOf_real self gMag _ _ _ (absMin_nonneg e0 e1 e2) h2 h3]
  simp

/-- C6. Degeneracy guard: when the median or the largest absolute eigenvalue is
zero, or more generally below `eps`, `Evaluate` returns exactly 0 for every
gradient magnitude, every parameter setting and either polarity. -/
theorem C6_degenerate_returns_zero (self : FrangiXiaoSheetnessFunctor ℝ) (gMag e0 e1 e2 : ℝ)
    (hdeg : absMed e0 e1 e2 = 0 ∨ absMax e0 e1 e2 = 0 ∨
      absMed e0 e1 e2 < eps ∨ absMax e0 e1 e2 < eps) :
    Evaluate Real.exp Real.sqrt self gMag [e0, e1, e2] = fin 0 := by
  have hguard : absMed e0 e1 e2 < eps ∨ absMax e0 e1 e2 < eps := by
    rcases hdeg with h | h | h | h
    · exact Or.inl (h ▸ eps_pos)
    · exact Or.inr (h ▸ eps_pos)
    · exact Or.inl h
    · exact Or.inr h
  rw [Evaluate_three]
  split_ifs <;> rfl

/-- C6, witness: the eigenvalues (0, 0, -5) on a bright-object functor. -/
theorem C6_degenerate_returns_zero_witness :
    (absMed (0 : ℝ) 0 (-5) = 0 ∨ absMax (0 : ℝ) 0 (-5) = 0 ∨
        absMed (0 : ℝ) 0 (-5) < eps ∨ absMax (0 : ℝ) 0 (-5) < eps) ∧
      Evaluate Real.exp Real.sqrt FrangiXiaoSheetnessFunctor.New 7 [0, 0, -5] = fin 0 :=
  ⟨Or.inl (by simp [absMed]),
    C6_degenerate_returns_zero _ 7 0 0 (-5) (Or.inl (by simp [absMed]))⟩

/-! ## The worked scenario -/

/-- C8. Clamped setters: each of `SetAlpha`, `SetBeta`, `SetC` and `SetKappa`
stores 0 when called with a negative value and stores the value itself when it
lies between 0 and the largest `double`; the setter always returns the updated
functor, so no error is raised. -/
theorem C8_clamped_setters (self : FrangiXiaoSheetnessFunctor ℝ) (v : ℝ) :
    (v < 0 → (SetAlpha self v).m_Alpha = 0 ∧ (SetBeta self v).m_Beta = 0 ∧
        (SetC self v).m_C = 0 ∧ (SetKappa self v).m_Kappa = 0) ∧
      (0 ≤ v → v ≤ doubleMax → (SetAlpha self v).m_Alpha = v ∧ (SetBeta self v).m_Beta = v ∧
        (SetC self v).m_C = v ∧ (SetKappa self v).m_Kappa = v) := by
  constructor
  · intro hv
    simp [SetAlpha, SetBeta, SetC, SetKappa, setClamp, hv]
  · intro h0 hmax
    simp [SetAlpha, SetBeta, SetC, SetKappa, setClamp, not_lt.mpr h0, not_lt.mpr hmax]

/-- C8, witness: the argument -3 is stored as 0, the argument 2 as 2. -/
theorem C8_clamped_setters_witness :
    ((SetAlpha (FrangiXiaoSheetnessFunctor.New : FrangiXiaoSheetnessFunctor ℝ) (-3)).m_Alpha = 0 ∧
        (SetBeta (FrangiXiaoSheetnessFunctor.New : FrangiXiaoSheetnessFunctor ℝ) (-3)).m_Beta = 0 ∧
        (SetC (FrangiXiaoSheetnessFunctor.New : FrangiXiaoSheetnessFunctor ℝ) (-3)).m_C = 0 ∧
        (SetKappa (FrangiXiaoSheetnessFunctor.New : FrangiXiaoSheetnessFunctor ℝ) (-3)).m_Kappa = 0) ∧
      ((SetAlpha (FrangiXiaoSheetnessFunctor.New : FrangiXiaoSheetnessFunctor ℝ) 2).m_Alpha = 2 ∧
        (SetBeta (FrangiXiaoSheetnessFunctor.New : FrangiXiaoSheetnessFunctor ℝ) 2).m_Beta = 2 ∧
        (SetC (FrangiXiaoSheetnessFunctor.New : FrangiXiaoSheetnessFunctor ℝ) 2).m_C = 2 ∧
        (SetKappa (FrangiXiaoSheetnessFunctor.New : FrangiXiaoSheetnessFunctor ℝ) 2).m_Kappa = 2) :=
  ⟨(C8_clamped_setters FrangiXiaoSheetnessFunctor.New (-3)).1 (by norm_num),
    (C8_clamped_setters FrangiXiaoSheetnessFunctor.New 2).2 (by norm_num)
      (by norm_num [doubleMax])⟩

/-! ## Parameters equal to zero -/

/-- C9. With beta = 0, which `SetBeta` accepts, and eigenvalues (0, -1, -1), the
triple passes both early exits, the exponent of the blobness gate is `0/0`,
and `Evaluate` returns NaN, not a number. -/
theorem C9_nan_for_beta_zero :
    (SetBeta (FrangiXiaoSheetnessFunctor.New : FrangiXiaoSheetnessFunctor ℝ) 0)
        = ⟨1 / 2, 0, 1, 8 / 10, true⟩ ∧
      Evaluate Real.exp Real.sqrt (SetBeta FrangiXiaoSheetnessFunctor.New 0) 0 [0, -1, -1] = nan ∧
      isFinite (Evaluate Real.exp Real.sqrt (SetBeta FrangiXiaoSheetnessFunctor.New 0) 0 [0, -1, -1])
        = false := by
  have hset : (SetBeta (FrangiXiaoSheetnessFunctor.New : FrangiXiaoSheetnessFunctor ℝ) 0)
      = ⟨1 / 2, 0, 1, 8 / 10, true⟩ := by
    have hmax : ¬(doubleMax : ℝ) < 0 := by
      unfold doubleMax
      norm_num
    simp [SetBeta, setClamp, FrangiXiaoSheetnessFunctor.New, hmax]
  have h1 : absMin (0 : ℝ) (-1) (-1) = 0 := by norm_num [absMin]
  have h2 : absMed (0 : ℝ) (-1) (-1) = 1 := by norm_num [absMed]
  have h3 : absMax (0 : ℝ) (-1) (-1) = 1 := by norm_num [absMax]
  have hpol : SignCompatible (⟨1 / 2, 0, 1, 8 / 10, true⟩ : FrangiXiaoSheetnessFunctor ℝ)
      0 (-1) (-1) := by
    constructor <;> intro _ <;> norm_num at *
  have hl2 : (eps : ℝ) ≤ absMed 0 (-1) (-1) := by
    rw [h2]
    norm_num [eps]
  have hval : Evaluate Real.exp Real.sqrt (SetBeta FrangiXiaoSheetnessFunctor.New 0) 0
      [0, -1, -1] = nan := by
    rw [hset, Evaluate_pass _ 0 _ _ _ hpol hl2, h1, h2, h3]
    simp only [zero_div, zero_mul, expGate_zero_zero, mul_nan, nan_mul]
  refine ⟨hset, hval, ?_⟩
  rw [hval]
  rfl

/-! ## The sum of the sorted array and the guard on `l2` -/

/-- The variant `EvaluateGuardL2` on three eigenvalues, with the sort resolved. -/
theorem EvaluateGuardL2_three (exp sqrt : R → R) (self : FrangiXiaoSheetnessFunctor R)
    (gMag e0 e1 e2 : R) :
    EvaluateGuardL2 exp sqrt self gMag [e0, e1, e2] =
      if rejected self e0 e1 e2 = true then fin 0
      else if absMed e0 e1 e2 < eps then fin 0
      else sheetnessOf exp sqrt self gMag (absMin e0 e1 e2) (absMed e0 e1 e2) (absMax e0 e1 e2) := by
  obtain ⟨a, b, c, hs, ha, hb, hc⟩ := sort_three e0 e1 e2
  unfold EvaluateGuardL2
  simp only [hs, List.getD_cons_zero, List.getD_cons_succ, fabs_fin, ha, hb, hc, lt_fin,
    decide_eq_true_eq, rejected, sheetnessOf]

/-! ## Sequences of setter calls -/

theorem doubleMax_nonneg : (0 : R) ≤ doubleMax := by
  unfold doubleMax
  have h : (1 : R) ≤ 2 ^ 53 := one_le_pow₀ one_le_two
  exact mul_nonneg (sub_nonneg.mpr h) (by positivity)

/-- A value clamped to `[0, doubleMax]` is not negative. -/
theorem setClamp_nonneg (v : R) : (0 : R) ≤ setClamp 0 doubleMax v := by
  unfold setClamp
  split_ifs with h1 h2
  · exact le_refl 0
  · exact doubleMax_nonneg
  · exact not_lt.mp h1

/-- One setter call keeps the four numeric parameters in their domain. -/
theorem applyCall_nonneg (self : FrangiXiaoSheetnessFunctor R) (call : SetterCall R)
    (h : 0 ≤ self.m_Alpha ∧ 0 ≤ self.m_Beta ∧ 0 ≤ self.m_C ∧ 0 ≤ self.m_Kappa) :
    0 ≤ (applyCall self call).m_Alpha ∧ 0 ≤ (applyCall self call).m_Beta ∧
      0 ≤ (applyCall self call).m_C ∧ 0 ≤ (applyCall self call).m_Kappa := by
  obtain ⟨ha, hb, hc, hk⟩ := h
  cases call with
  | setAlpha v => exact ⟨setClamp_nonneg v, hb, hc, hk⟩
  | setBeta v => exact ⟨ha, setClamp_nonneg v, hc, hk⟩
  | setC v => exact ⟨ha, hb, setClamp_nonneg v, hk⟩
  | setKappa v => exact ⟨ha, hb, hc, setClamp_nonneg v⟩
  | setBrightObject b => exact ⟨ha, hb, hc, hk⟩

/-- A sequence of setter calls keeps the four numeric parameters in their
domain. -/
theorem applyCalls_nonneg (calls : List (SetterCall R)) (self : FrangiXiaoSheetnessFunctor R)
    (h : 0 ≤ self.m_Alpha ∧ 0 ≤ self.m_Beta ∧ 0 ≤ self.m_C ∧ 0 ≤ self.m_Kappa) :
    0 ≤ (applyCalls self calls).m_Alpha ∧ 0 ≤ (applyCalls self calls).m_Beta ∧
      0 ≤ (applyCalls self calls).m_C ∧ 0 ≤ (applyCalls self calls).m_Kappa := by
  induction calls generalizing self with
  | nil => exact h
  | cons call rest ih => exact ih (applyCall self call) (applyCall_nonneg self call h)

/-- C13. Parameter-domain invariant: from a freshly constructed functor, after
any finite sequence of calls to `SetAlpha`, `SetBeta`, `SetC`, `SetKappa` and
`SetBrightObject` with arbitrary arguments, alpha, beta, c and kappa are all
at least 0. -/
theorem C13_parameters_stay_nonneg (calls : List (SetterCall ℝ)) :
    0 ≤ (applyCalls FrangiXiaoSheetnessFunctor.New calls).m_Alpha ∧
      0 ≤ (applyCalls FrangiXiaoSheetnessFunctor.New calls).m_Beta ∧
      0 ≤ (applyCalls FrangiXiaoSheetnessFunctor.New calls).m_C ∧
      0 ≤ (applyCalls FrangiXiaoSheetnessFunctor.New calls).m_Kappa := by
  apply applyCalls_nonneg
  simp only [FrangiXiaoSheetnessFunctor.New]
  norm_num

/-- C17. Setters are independent: each of `SetAlpha`, `SetBeta`, `SetC`,
`SetKappa` and `SetBrightObject`, with any argument, leaves the other four
parameters as they were before the call. -/
theorem C17_setters_frame (self : FrangiXiaoSheetnessFunctor ℝ) (v : ℝ) (b : Bool) :
    ((SetAlpha self v).m_Beta = self.m_Beta ∧ (SetAlpha self v).m_C = self.m_C ∧
        (SetAlpha self v).m_Kappa = self.m_Kappa ∧
        (SetAlpha self v).m_BrightObject = self.m_BrightObject) ∧
      ((SetBeta self v).m_Alpha = self.m_Alpha ∧ (SetBeta self v).m_C = self.m_C ∧
        (SetBeta self v).m_Kappa = self.m_Kappa ∧
        (SetBeta self v).m_BrightObject = self.m_BrightObject) ∧
      ((SetC self v).m_Alpha = self.m_Alpha ∧ (SetC self v).m_Beta = self.m_Beta ∧
        (SetC self v).m_Kappa = self.m_Kappa ∧
        (SetC self v).m_BrightObject = self.m_BrightObject) ∧
      ((SetKappa self v).m_Alpha = self.m_Alpha ∧ (SetKappa self v).m_Beta = self.m_Beta ∧
        (SetKappa self v).m_C = self.m_C ∧
        (SetKappa self v).m_BrightObject = self.m_BrightObject) ∧
      ((SetBrightObject self b).m_Alpha = self.m_Alpha ∧
        (SetBrightObject self b).m_Beta = self.m_Beta ∧
        (SetBrightObject self b).m_C = self.m_C ∧
        (SetBrightObject self b).m_Kappa = self.m_Kappa) := by
  refine ⟨?_, ?_, ?_, ?_, ?_⟩ <;> exact ⟨rfl, rfl, rfl, rfl⟩

/-! ## The test on `l3` -/

/-- C20. The `l3` test of the degeneracy guard is redundant: in the array sorted
by absolute value `l2 ≤ l3`, so `l2 < eps ∨ l3 < eps` holds exactly when
`l2 < eps`, and `Evaluate` equals the variant whose guard tests `l2` only. -/
theorem C20_l3_test_redundant (self : FrangiXiaoSheetnessFunctor ℝ) (gMag e0 e1 e2 : ℝ) :
    (∃ a b c, sort AbsLessCompare [e0, e1, e2] = [a, b, c] ∧ |b| ≤ |c| ∧
        ((|b| < eps ∨ |c| < eps) ↔ |b| < eps)) ∧
      Evaluate Real.exp Real.sqrt self gMag [e0, e1, e2] =
        EvaluateGuardL2 Real.exp Real.sqrt self gMag [e0, e1, e2] := by
  have hle := absMed_le_absMax e0 e1 e2
  have hiff : (absMed e0 e1 e2 < eps ∨ absMax e0 e1 e2 < eps) ↔ absMed e0 e1 e2 < eps := by
    constructor
    · rintro (h | h)
      · exact h
      · exact lt_of_le_of_lt hle h
    · exact Or.inl
  constructor
  · obtain ⟨a, b, c, hs, _, hb, hc⟩ := sort_three e0 e1 e2
    refine ⟨a, b, c, hs, ?_, ?_⟩
    · rw [hb, hc]
      exact hle
    · rw [hb, hc]
      exact hiff
  · rw [Evaluate_three, EvaluateGuardL2_three]
    simp only [hiff]

/-! ## Rounding to binary64 -/

theorem rne_of_near (q : ℝ) (n : ℤ) (h : |q - n| < 1 / 2) : rne q = n := by
  rw [abs_lt] at h
  obtain ⟨h1, h2⟩ := h
  by_cases hq : (n : ℝ) ≤ q
  · have hf : ⌊q⌋ = n := Int.floor_eq_iff.mpr ⟨hq, by linarith⟩
    unfold rne
    rw [hf, if_pos (by linarith)]
  · have hf : ⌊q⌋ = n - 1 := Int.floor_eq_iff.mpr ⟨by push_cast; linarith, by push_cast; linarith⟩
    unfold rne
    rw [hf]
    have h3 : ¬ (q - ((n - 1 : ℤ) : ℝ) < 1 / 2) := by push_cast; linarith
    have h4 : (1 / 2 : ℝ) < q - ((n - 1 : ℤ) : ℝ) := by push_cast; linarith
    rw [if_neg h3, if_pos h4]
    ring

theorem rne_intCast (n : ℤ) : rne (n : ℝ) = n :=
  rne_of_near _ n (by simp)

theorem rne_zero : rne (0 : ℝ) = 0 := by
  have := rne_intCast 0
  simpa using this

theorem rne_floor_or (q : ℝ) : rne q = ⌊q⌋ ∨ rne q = ⌊q⌋ + 1 := by
  unfold rne
  split_ifs <;> simp

theorem rne_mono {q q' : ℝ} (h : q ≤ q') : rne q ≤ rne q' := by
  have hfl : ⌊q⌋ ≤ ⌊q'⌋ := Int.floor_mono h
  rcases lt_or_eq_of_le hfl with hlt | heq
  · rcases rne_floor_or q with h1 | h1 <;> rcases rne_floor_or q' with h2 | h2 <;> omega
  · unfold rne
    rw [← heq]
    have hfr : q - ⌊q⌋ ≤ q' - ⌊q⌋ := by linarith
    split_ifs <;> first | omega | linarith

theorem rne_neg (q : ℝ) : rne (-q) = -rne q := by
  by_cases hint : (⌊q⌋ : ℝ) = q
  · rw [← hint, ← Int.cast_neg, rne_intCast, rne_intCast]
  · have hlt : (⌊q⌋ : ℝ) < q := lt_of_le_of_ne (Int.floor_le q) hint
    have hfl : ⌊-q⌋ = -⌊q⌋ - 1 := by
      rw [Int.floor_eq_iff]
      constructor
      · push_cast
        have := Int.lt_floor_add_one q
        linarith
      · push_cast
        linarith
    unfold rne
    rw [hfl]
    push_cast
    split_ifs <;> first | omega | linarith

theorem two_zpow_pos (k : ℤ) : (0 : ℝ) < 2 ^ k := zpow_pos (by norm_num) k

theorem expo_neg (x : ℝ) : expo (-x) = expo x := by
  unfold expo
  rw [abs_neg]

theorem rnd_neg (x : ℝ) : rnd (-x) = -rnd x := by
  unfold rnd
  rw [expo_neg, neg_div, rne_neg]
  push_cast
  ring

theorem rnd_zero : rnd (0 : ℝ) = 0 := by
  unfold rnd
  rw [zero_div, rne_zero]
  simp

theorem log_lt_of_abs_lt {x : ℝ} {k : ℤ} (hx : x ≠ 0) (h : |x| < 2 ^ k) : Int.log 2 |x| < k := by
  have h' : |x| < ((2 : ℕ) : ℝ) ^ k := by simpa using h
  exact (Int.lt_zpow_iff_log_lt (by norm_num) (abs_pos.mpr hx)).mp h'

theorem le_log_of_le_abs {x : ℝ} {k : ℤ} (hx : x ≠ 0) (h : 2 ^ k ≤ |x|) : k ≤ Int.log 2 |x| := by
  have h' : ((2 : ℕ) : ℝ) ^ k ≤ |x| := by simpa using h
  exact (Int.zpow_le_iff_le_log (by norm_num) (abs_pos.mpr hx)).mp h'

theorem abs_lt_zpow_expo (x : ℝ) : |x| < 2 ^ (expo x + 1) := by
  have h := @Int.lt_zpow_succ_log_self ℝ _ _ 2 (by norm_num) |x|
  have h' : |x| < (2 : ℝ) ^ (Int.log 2 |x| + 1) := by simpa using h
  refine lt_of_lt_of_le h' ?_
  apply zpow_le_zpow_right₀ (by norm_num)
  unfold expo
  have := le_max_left (Int.log 2 |x|) (-1022)
  omega

theorem expo_ge (x : ℝ) : -1022 ≤ expo x := le_max_right _ _

theorem expo_eq_of_bounds {x : ℝ} {E : ℤ} (hE : -1022 ≤ E) (h1 : 2 ^ E ≤ |x|)
    (h2 : |x| < 2 ^ (E + 1)) : expo x = E := by
  have hx : x ≠ 0 := by
    intro h
    rw [h, abs_zero] at h1
    exact absurd h1 (not_le.mpr (two_zpow_pos E))
  have ha := log_lt_of_abs_lt hx h2
  have hb := le_log_of_le_abs hx h1
  unfold expo
  have : Int.log 2 |x| = E := by omega
  rw [this]
  exact max_eq_left hE

theorem expo_eq_of_small {x : ℝ} (hx : x ≠ 0) (h : |x| < 2 ^ (-1022 : ℤ)) : expo x = -1022 := by
  have ha := log_lt_of_abs_lt hx h
  unfold expo
  exact max_eq_right (by omega)

theorem rnd_of_near {x : ℝ} {E n : ℤ} (hE : expo x = E)
    (h : |x / 2 ^ (E - 52) - n| < 1 / 2) : rnd x = n * 2 ^ (E - 52) := by
  unfold rnd
  rw [hE, rne_of_near _ n h]

theorem rnd_exact (x : ℝ) (m e : ℤ) (hm : |m| < 2 ^ 53) (he : -1074 ≤ e)
    (hx : x = m * 2 ^ e) : rnd x = x := by
  by_cases hm0 : m = 0
  · rw [hx, hm0]
    simp [rnd_zero]
  · have hx0 : x ≠ 0 := by
      rw [hx]
      exact mul_ne_zero (Int.cast_ne_zero.mpr hm0) (two_zpow_pos e).ne'
    have habs : |x| < 2 ^ (e + 53) := by
      rw [hx, abs_mul, abs_of_pos (two_zpow_pos e : (0 : ℝ) < 2 ^ e), zpow_add₀ (two_ne_zero),
        mul_comm]
      apply mul_lt_mul_of_pos_left _ (two_zpow_pos e)
      have : ((|m| : ℤ) : ℝ) < ((2 ^ 53 : ℤ) : ℝ) := Int.cast_lt.mpr hm
      push_cast at this
      exact lt_of_lt_of_eq this (by norm_num)
    have hlog := log_lt_of_abs_lt hx0 habs
    obtain ⟨E, hEq⟩ : ∃ E : ℤ, expo x = E := ⟨_, rfl⟩
    have hE : E ≤ e + 52 := by
      rw [← hEq]
      unfold expo
      apply max_le <;> omega
    obtain ⟨K, hK⟩ : ∃ K : ℕ, (K : ℤ) = e - (E - 52) := ⟨(e - (E - 52)).toNat, by omega⟩
    have hq : x / 2 ^ (E - 52) = ((m * 2 ^ K : ℤ) : ℝ) := by
      rw [hx, mul_div_assoc, ← zpow_sub₀ (two_ne_zero), ← hK, zpow_natCast]
      push_cast
      ring
    unfold rnd
    rw [hEq, hq, rne_intCast]
    push_cast
    rw [mul_assoc, ← zpow_natCast, hK, ← zpow_add₀ (two_ne_zero), hx]
    congr 2
    ring

theorem rnd_nonneg {x : ℝ} (h : 0 ≤ x) : 0 ≤ rnd x := by
  unfold rnd
  apply mul_nonneg _ (two_zpow_pos _).le
  have : rne (0 : ℝ) ≤ rne (x / 2 ^ (expo x - 52)) :=
    rne_mono (div_nonneg h (two_zpow_pos _).le)
  rw [rne_zero] at this
  exact_mod_cast this

theorem rnd_nonpos {x : ℝ} (h : x ≤ 0) : rnd x ≤ 0 := by
  have := rnd_nonneg (neg_nonneg.mpr h)
  rw [rnd_neg] at this
  linarith

theorem ulp_mul (E : ℤ) (k : ℤ) : (2 : ℝ) ^ k * 2 ^ (E - 52) = 2 ^ (k + E - 52) := by
  rw [← zpow_add₀ (two_ne_zero)]
  congr 1
  ring

theorem two53_mul_ulp (E : ℤ) : ((2 ^ 53 : ℤ) : ℝ) * 2 ^ (E - 52) = 2 ^ (E + 1) := by
  have h : ((2 ^ 53 : ℤ) : ℝ) = (2 : ℝ) ^ (53 : ℤ) := by norm_num
  rw [h, ulp_mul]
  congr 1
  ring

theorem two52_mul_ulp (E : ℤ) : ((2 ^ 52 : ℤ) : ℝ) * 2 ^ (E - 52) = 2 ^ E := by
  have h : ((2 ^ 52 : ℤ) : ℝ) = (2 : ℝ) ^ (52 : ℤ) := by norm_num
  rw [h, ulp_mul]
  congr 1
  ring

theorem rne_div_ulp_le (x : ℝ) : rne (x / 2 ^ (expo x - 52)) ≤ 2 ^ 53 := by
  have hlt : x / 2 ^ (expo x - 52) ≤ ((2 ^ 53 : ℤ) : ℝ) := by
    rw [div_le_iff₀ (two_zpow_pos _), two53_mul_ulp]
    exact le_trans (le_abs_self x) (abs_lt_zpow_expo x).le
  have := rne_mono hlt
  rwa [rne_intCast] at this

theorem rne_div_ulp_ge (x : ℝ) : -(2 ^ 53) ≤ rne (x / 2 ^ (expo x - 52)) := by
  have h := rne_div_ulp_le (-x)
  rw [expo_neg, neg_div, rne_neg] at h
  omega

theorem rnd_le_zpow (x : ℝ) : rnd x ≤ 2 ^ (expo x + 1) := by
  unfold rnd
  have h : (rne (x / 2 ^ (expo x - 52)) : ℝ) ≤ ((2 ^ 53 : ℤ) : ℝ) :=
    Int.cast_le.mpr (rne_div_ulp_le x)
  rw [← two53_mul_ulp]
  exact mul_le_mul_of_nonneg_right h (two_zpow_pos _).le

theorem zpow_le_rnd {x : ℝ} (h : 2 ^ expo x ≤ x) : 2 ^ expo x ≤ rnd x := by
  have hge : ((2 ^ 52 : ℤ) : ℝ) ≤ x / 2 ^ (expo x - 52) := by
    rw [le_div_iff₀ (two_zpow_pos _), two52_mul_ulp]
    exact h
  have h3 := rne_mono hge
  rw [rne_intCast] at h3
  have h4 : ((2 ^ 52 : ℤ) : ℝ) ≤ (rne (x / 2 ^ (expo x - 52)) : ℝ) := Int.cast_le.mpr h3
  unfold rnd
  calc (2 : ℝ) ^ expo x = ((2 ^ 52 : ℤ) : ℝ) * 2 ^ (expo x - 52) := (two52_mul_ulp _).symm
    _ ≤ _ := mul_le_mul_of_nonneg_right h4 (two_zpow_pos _).le

theorem rnd_mono_pos {x y : ℝ} (hx : 0 < x) (h : x ≤ y) : rnd x ≤ rnd y := by
  have hy : 0 < y := lt_of_lt_of_le hx h
  have hlog : Int.log 2 |x| ≤ Int.log 2 |y| := by
    apply @Int.log_mono_right ℝ _ _ 2 _ _ (abs_pos.mpr hx.ne')
    rw [abs_of_pos hx, abs_of_pos hy]
    exact h
  have hE : expo x ≤ expo y := max_le_max hlog (le_refl _)
  rcases lt_or_eq_of_le hE with hlt | heq
  · have hEy : expo y = Int.log 2 |y| := by
      have hx1 := expo_ge x
      unfold expo at hlt ⊢
      apply max_eq_left
      by_contra hcon
      rw [max_eq_right (le_of_not_le hcon)] at hlt
      unfold expo at hx1
      omega
    have h1 : (2 : ℝ) ^ expo y ≤ y := by
      rw [hEy]
      have := @Int.zpow_log_le_self ℝ _ _ 2 |y| (by norm_num) (abs_pos.mpr hy.ne')
      have h' : (2 : ℝ) ^ Int.log 2 |y| ≤ |y| := by simpa using this
      exact le_trans h' (le_of_eq (abs_of_pos hy))
    calc rnd x ≤ 2 ^ (expo x + 1) := rnd_le_zpow x
      _ ≤ 2 ^ expo y := zpow_le_zpow_right₀ (by norm_num) (by omega)
      _ ≤ rnd y := zpow_le_rnd h1
  · unfold rnd
    rw [heq]
    apply mul_le_mul_of_nonneg_right _ (two_zpow_pos _).le
    exact Int.cast_le.mpr (rne_mono (div_le_div_of_nonneg_right h (two_zpow_pos _).le))

theorem rnd_mono {x y : ℝ} (h : x ≤ y) : rnd x ≤ rnd y := by
  rcases lt_trichotomy x 0 with hx | hx | hx
  · rcases lt_or_le y 0 with hy | hy
    · have := rnd_mono_pos (neg_pos.mpr hy) (neg_le_neg h)
      rw [rnd_neg, rnd_neg] at this
      linarith
    · exact le_trans (rnd_nonpos hx.le) (rnd_nonneg hy)
  · rw [hx, rnd_zero]
    exact rnd_nonneg (hx ▸ h)
  · exact rnd_mono_pos hx h

theorem rnd_idem (x : ℝ) : rnd (rnd x) = rnd x := by
  have hle := rne_div_ulp_le x
  have hge := rne_div_ulp_ge x
  have hE := expo_ge x
  rcases lt_or_eq_of_le hle with h1 | h1
  · rcases lt_or_eq_of_le hge with h2 | h2
    · exact rnd_exact (rnd x) (rne (x / 2 ^ (expo x - 52))) (expo x - 52)
        (abs_lt.mpr ⟨h2, h1⟩) (by omega) rfl
    · apply rnd_exact (rnd x) (-1) (expo x + 1) (by norm_num) (by omega)
      unfold rnd
      rw [← h2, Int.cast_neg, neg_mul, two53_mul_ulp]
      simp
  · apply rnd_exact (rnd x) 1 (expo x + 1) (by norm_num) (by omega)
    unfold rnd
    rw [h1, two53_mul_ulp]
    simp

/-! ## The binary64 result of an operation -/

theorem isDouble_iff (x : ℝ) : IsDouble x ↔ rnd x = x ∧ -(2 ^ 1024) < x ∧ x < 2 ^ 1024 := by
  unfold IsDouble round64
  constructor
  · intro h
    split_ifs at h with h1 h2
    injection h with h
    rw [h] at h1 h2
    exact ⟨h, not_le.mp h2, not_le.mp h1⟩
  · rintro ⟨h, h1, h2⟩
    rw [h, if_neg (not_le.mpr h2), if_neg (not_le.mpr h1)]

theorem round64_eq_fin {x : ℝ} (h1 : -(2 ^ 1024) < rnd x) (h2 : rnd x < 2 ^ 1024) :
    round64 x = fin (rnd x) := by
  unfold round64
  rw [if_neg (not_le.mpr h2), if_neg (not_le.mpr h1)]

theorem round64_inI {x lo hi : ℝ} (h1 : lo ≤ x) (h2 : x ≤ hi) (hlo : IsDouble lo)
    (hhi : IsDouble hi) : InI (round64 x) lo hi := by
  obtain ⟨e1, b1, _⟩ := (isDouble_iff lo).mp hlo
  obtain ⟨e2, _, b2⟩ := (isDouble_iff hi).mp hhi
  have m1 := rnd_mono h1
  have m2 := rnd_mono h2
  rw [e1] at m1
  rw [e2] at m2
  exact ⟨rnd x, round64_eq_fin (by linarith) (by linarith), m1, m2⟩

theorem isDouble_dyadic (m e : ℤ) (hm : |m| < 2 ^ 53) (he : -1074 ≤ e) (he2 : e ≤ 971) :
    IsDouble ((m : ℝ) * 2 ^ e) := by
  rw [isDouble_iff]
  refine ⟨rnd_exact _ m e hm he rfl, ?_⟩
  have hm' : |(m : ℝ)| < 2 ^ 53 := by
    have : ((|m| : ℤ) : ℝ) < ((2 ^ 53 : ℤ) : ℝ) := Int.cast_lt.mpr hm
    push_cast at this
    exact lt_of_lt_of_eq this (by norm_num)
  have hp : (2 : ℝ) ^ e ≤ 2 ^ (971 : ℤ) := zpow_le_zpow_right₀ (by norm_num) he2
  have habs : |(m : ℝ) * 2 ^ e| < 2 ^ 1024 := by
    rw [abs_mul, abs_of_pos (two_zpow_pos e)]
    calc |(m : ℝ)| * 2 ^ e ≤ |(m : ℝ)| * 2 ^ (971 : ℤ) :=
          mul_le_mul_of_nonneg_left hp (abs_nonneg _)
      _ < 2 ^ 53 * 2 ^ (971 : ℤ) := mul_lt_mul_of_pos_right hm' (two_zpow_pos _)
      _ = 2 ^ 1024 := by
          rw [← zpow_natCast, ← zpow_add₀ (two_ne_zero)]
          norm_num
  exact ⟨(abs_lt.mp habs).1, (abs_lt.mp habs).2⟩

theorem isDouble_int_mul_pow (m : ℤ) (k : ℕ) (hm : |m| < 2 ^ 53) (hk : k ≤ 971) :
    IsDouble ((m : ℝ) * 2 ^ k) := by
  have := isDouble_dyadic m k hm (by omega) (by omega)
  rwa [zpow_natCast] at this

theorem isDouble_int_div_pow (m : ℤ) (k : ℕ) (hm : |m| < 2 ^ 53) (hk : k ≤ 1074) :
    IsDouble ((m : ℝ) / 2 ^ k) := by
  have := isDouble_dyadic m (-(k : ℤ)) hm (by omega) (by omega)
  rwa [zpow_neg, zpow_natCast, ← div_eq_mul_inv] at this

theorem isDouble_zero : IsDouble (0 : ℝ) := by
  have := isDouble_int_mul_pow 0 0 (by norm_num) (by norm_num)
  simpa using this

theorem isDouble_one : IsDouble (1 : ℝ) := by
  have := isDouble_int_mul_pow 1 0 (by norm_num) (by norm_num)
  simpa using this

theorem isDouble_neg {x : ℝ} (h : IsDouble x) : IsDouble (-x) := by
  rw [isDouble_iff] at h ⊢
  obtain ⟨e, h1, h2⟩ := h
  exact ⟨by rw [rnd_neg, e], by linarith, by linarith⟩

theorem round64_zero : round64 (0 : ℝ) = fin 0 := isDouble_zero

theorem round64_one : round64 (1 : ℝ) = fin 1 := isDouble_one

theorem round64_isDouble {x y : ℝ} (h : round64 x = fin y) : IsDouble y := by
  unfold round64 at h
  split_ifs at h with h1 h2
  injection h with h
  rw [isDouble_iff, ← h]
  exact ⟨rnd_idem x, not_le.mp h2, not_le.mp h1⟩

theorem round64_nonneg {x : ℝ} (h : 0 ≤ x) : NonNegV (round64 x) := by
  have h0 := rnd_nonneg h
  unfold round64
  split_ifs with h1 h2
  · exact Or.inr rfl
  · exfalso
    have : (0 : ℝ) < 2 ^ 1024 := by positivity
    linarith
  · exact Or.inl ⟨_, rfl, h0⟩

theorem round64_nonpos {x : ℝ} (h : x ≤ 0) : NonPosV (round64 x) := by
  have h0 := rnd_nonpos h
  unfold round64
  split_ifs with h1 h2
  · exfalso
    have : (0 : ℝ) < 2 ^ 1024 := by positivity
    linarith
  · exact Or.inr rfl
  · exact Or.inl ⟨_, rfl, h0⟩

theorem zpow_neg_natCast (k : ℕ) : (2 : ℝ) ^ (-(k : ℤ)) = 1 / 2 ^ k := by
  rw [zpow_neg, zpow_natCast, one_div]

theorem round64_of_small {x : ℝ} (h : |x| < 1 / 2 ^ 1075) : round64 x = fin 0 := by
  by_cases hx : x = 0
  · rw [hx]
    exact round64_zero
  · have h1022 : (2 : ℝ) ^ (-1022 : ℤ) = 1 / 2 ^ 1022 := zpow_neg_natCast 1022
    have h1074 : (2 : ℝ) ^ ((-1022 : ℤ) - 52) = 1 / 2 ^ 1074 := zpow_neg_natCast 1074
    have hsmall : |x| < 2 ^ (-1022 : ℤ) := by
      refine lt_trans h ?_
      rw [h1022]
      apply one_div_lt_one_div_of_lt (by positivity)
      exact pow_lt_pow_right₀ (by norm_num) (by norm_num)
    have hE := expo_eq_of_small hx hsmall
    have hr : rnd x = ((0 : ℤ) : ℝ) * 2 ^ ((-1022 : ℤ) - 52) := by
      apply rnd_of_near hE
      rw [Int.cast_zero, sub_zero, abs_div, abs_of_pos (two_zpow_pos _), div_lt_iff₀ (two_zpow_pos _),
        h1074]
      refine lt_of_lt_of_eq h ?_
      rw [show (1075 : ℕ) = 1074 + 1 by norm_num, pow_succ]
      field_simp
      ring
    rw [Int.cast_zero, zero_mul] at hr
    unfold round64
    rw [hr]
    have : (0 : ℝ) < 2 ^ 1024 := by positivity
    rw [if_neg (by linarith), if_neg (by linarith)]

theorem round64_of_large {x : ℝ} (h : 2 ^ 1024 ≤ x) : round64 x = pinf := by
  have hm := rnd_mono h
  have he : rnd ((2 : ℝ) ^ 1024) = 2 ^ 1024 := by
    apply rnd_exact _ 1 1024 (by norm_num) (by norm_num)
    rw [Int.cast_one, one_mul, ← zpow_natCast]
    norm_num
  rw [he] at hm
  unfold round64
  rw [if_pos hm]

/-! ## `Evaluate64` on three eigenvalues -/

/-- The method `Evaluate64` on the array `[e0, e1, e2]`, with the sort resolved. -/
theorem Evaluate64_three (exp sqrt : ℝ → ℝ) (self : FrangiXiaoSheetnessFunctor ℝ)
    (gMag e0 e1 e2 : ℝ) :
    Evaluate64 exp sqrt self gMag [e0, e1, e2] =
      if rejected64 self.m_BrightObject (sum64 e0 e1 e2) = true then fin 0
      else if absMed e0 e1 e2 < eps ∨ absMax e0 e1 e2 < eps then fin 0
      else sheetnessOf64 exp sqrt self gMag (absMin e0 e1 e2) (absMed e0 e1 e2)
        (absMax e0 e1 e2) := by
  obtain ⟨a, b, c, hs, ha, hb, hc⟩ := sort_three e0 e1 e2
  unfold Evaluate64
  simp only [hs, List.getD_cons_zero, List.getD_cons_succ, fabs_fin, ha, hb, hc, lt_fin,
    Bool.or_eq_true, decide_eq_true_eq, rejected64, sum64, sheetnessOf64, gate64, Ra64, Rb64, S64,
    divisor64, edgeExponent64]

theorem mul64_nan_left (v : RealType ℝ) : mul64 nan v = nan := by
  cases v <;> rfl

theorem mul64_nan_right (v : RealType ℝ) : mul64 v nan = nan := by
  cases v <;> rfl

theorem mul64_zero_left (v : RealType ℝ) : mul64 (fin 0) v = fin 0 ∨ mul64 (fin 0) v = nan := by
  cases v with
  | fin y => left; simp [mul64, round64_zero]
  | pinf => right; simp [mul64, mul, signedInf]
  | ninf => right; simp [mul64, mul, signedInf]
  | nan => right; rfl

theorem mul64_zero_or_nan {a : RealType ℝ} (h : a = fin 0 ∨ a = nan) (v : RealType ℝ) :
    mul64 a v = fin 0 ∨ mul64 a v = nan := by
  rcases h with h | h
  · rw [h]
    exact mul64_zero_left v
  · rw [h, mul64_nan_left]
    exact Or.inr rfl

theorem nonNegV_of_geV {v : RealType ℝ} {lo : ℝ} (h : GeV v lo) (hlo : 0 ≤ lo) : NonNegV v := by
  rcases h with ⟨r, hr, h1⟩ | h
  · exact Or.inl ⟨r, hr, le_trans hlo h1⟩
  · exact Or.inr h

theorem posV_of_geV {v : RealType ℝ} {lo : ℝ} (h : GeV v lo) (hlo : 0 < lo) : PosV v := by
  rcases h with ⟨r, hr, h1⟩ | h
  · exact Or.inl ⟨r, hr, lt_of_lt_of_le hlo h1⟩
  · exact Or.inr h

theorem round64_geV {x lo : ℝ} (h : lo ≤ x) (hlo : IsDouble lo) : GeV (round64 x) lo := by
  obtain ⟨e1, b1, _⟩ := (isDouble_iff lo).mp hlo
  have m1 := rnd_mono h
  rw [e1] at m1
  unfold round64
  split_ifs with h1 h2
  · exact Or.inr rfl
  · exfalso
    linarith
  · exact Or.inl ⟨_, rfl, m1⟩

theorem isDouble_eps : IsDouble (eps : ℝ) := by
  have := isDouble_int_div_pow 1 52 (by norm_num) (by norm_num)
  simpa [eps] using this

theorem isDouble_eps_sq : IsDouble ((eps : ℝ) * eps) := by
  have := isDouble_int_div_pow 1 104 (by norm_num) (by norm_num)
  have h : (eps : ℝ) * eps = ((1 : ℤ) : ℝ) / 2 ^ 104 := by
    unfold eps
    norm_num
  rw [h]
  exact this

/-- The sum of two values that are numbers not below zero or plus infinity. -/
theorem add64_geV {a b : RealType ℝ} {la lb lo : ℝ} (ha : GeV a la) (hb : GeV b lb)
    (hlo : lo ≤ la + lb) (hd : IsDouble lo) : GeV (add64 a b) lo := by
  rcases ha with ⟨x, rfl, hx⟩ | rfl <;> rcases hb with ⟨y, rfl, hy⟩ | rfl
  · exact round64_geV (by linarith) hd
  · exact Or.inr rfl
  · exact Or.inr rfl
  · exact Or.inr rfl

theorem mul64_self_geV {a : RealType ℝ} {la lo : ℝ} (ha : GeV a la) (h0 : 0 ≤ la)
    (hlo : lo ≤ la * la) (hd : IsDouble lo) : GeV (mul64 a a) lo := by
  rcases ha with ⟨x, rfl, hx⟩ | rfl
  · exact round64_geV (le_trans hlo (mul_le_mul hx hx h0 (le_trans h0 hx))) hd
  · exact Or.inr rfl

theorem sqrt64_geV {a : RealType ℝ} {la lo : ℝ} (ha : GeV a la) (h0 : 0 ≤ la)
    (hlo : lo ≤ Real.sqrt la) (hd : IsDouble lo) : GeV (sqrt64 Real.sqrt a) lo := by
  rcases ha with ⟨x, rfl, hx⟩ | rfl
  · have hx0 : ¬x < 0 := not_lt.mpr (le_trans h0 hx)
    simp only [sqrt64, if_neg hx0]
    exact round64_geV (le_trans hlo (Real.sqrt_le_sqrt hx)) hd
  · exact Or.inr rfl

theorem sqrt_eps_sq : Real.sqrt ((eps : ℝ) * eps) = eps :=
  Real.sqrt_mul_self eps_pos.le

/-- Past the guard the divisor `sqrt(l2 * l3)` is at least `eps`, or plus infinity. -/
theorem sqrt_divisor_geV {l2 l3 : ℝ} (h2 : eps ≤ l2) (h3 : eps ≤ l3) :
    GeV (sqrt64 Real.sqrt (mul64 (fin l2) (fin l3))) eps := by
  have hp : GeV (mul64 (fin l2) (fin l3)) ((eps : ℝ) * eps) :=
    round64_geV (mul_le_mul h2 h3 eps_pos.le (le_trans eps_pos.le h2)) isDouble_eps_sq
  exact sqrt64_geV hp (mul_nonneg eps_pos.le eps_pos.le) (le_of_eq sqrt_eps_sq.symm) isDouble_eps

/-- Past the guard the structure strength `S` is at least `eps`, or plus infinity. -/
theorem S64_geV (l1 : ℝ) {l2 : ℝ} (l3 : ℝ) (h2 : eps ≤ l2) : GeV (S64 Real.sqrt l1 l2 l3) eps := by
  have h1 : GeV (mul64 (fin l1) (fin l1)) 0 := round64_geV (mul_self_nonneg l1) isDouble_zero
  have h2' : GeV (mul64 (fin l2) (fin l2)) ((eps : ℝ) * eps) :=
    round64_geV (mul_le_mul h2 h2 eps_pos.le (le_trans eps_pos.le h2)) isDouble_eps_sq
  have h3 : GeV (mul64 (fin l3) (fin l3)) 0 := round64_geV (mul_self_nonneg l3) isDouble_zero
  have hs1 := add64_geV h1 h2' (le_of_eq (zero_add _).symm) isDouble_eps_sq
  have hs2 := add64_geV hs1 h3 (le_of_eq (add_zero _).symm) isDouble_eps_sq
  exact sqrt64_geV hs2 (mul_nonneg eps_pos.le eps_pos.le) (le_of_eq sqrt_eps_sq.symm) isDouble_eps

theorem Rb64_nonneg {l1 l2 l3 : ℝ} (h1 : 0 ≤ l1) (h2 : eps ≤ l2) (h3 : eps ≤ l3) :
    NonNegV (Rb64 Real.sqrt l1 l2 l3) := by
  unfold Rb64
  rcases sqrt_divisor_geV h2 h3 with ⟨s, hs, hs1⟩ | hs
  · rw [hs]
    have hs0 : s ≠ 0 := (lt_of_lt_of_le eps_pos hs1).ne'
    simp only [div64, if_neg hs0]
    exact round64_nonneg (div_nonneg h1 (le_trans eps_pos.le hs1))
  · rw [hs]
    exact Or.inl ⟨0, rfl, le_refl 0⟩

theorem Ra64_inI {l2 l3 : ℝ} (h2 : eps ≤ l2) (h23 : l2 ≤ l3) : InI (Ra64 l2 l3) 0 1 := by
  have h3 : 0 < l3 := lt_of_lt_of_le eps_pos (le_trans h2 h23)
  unfold Ra64
  simp only [div64, if_neg h3.ne']
  exact round64_inI (div_nonneg (le_trans eps_pos.le h2) h3.le) ((div_le_one h3).mpr h23)
    isDouble_zero isDouble_one

/-- The divisor `2.0 * m * m` is a number not below zero, or plus infinity. -/
theorem divisor64_nonneg (m : ℝ) : NonNegV (divisor64 m) := by
  unfold divisor64
  rcases le_total 0 m with hm | hm
  · rcases round64_nonneg (mul_nonneg zero_le_two hm) with ⟨r, hr, hr0⟩ | hr
    · simp only [mul64, hr]
      exact round64_nonneg (mul_nonneg hr0 hm)
    · simp only [mul64, hr]
      rcases eq_or_lt_of_le hm with h0 | hpos
      · exfalso
        rw [← h0, mul_zero, round64_zero] at hr
        cases hr
      · simp [mul, signedInf, hpos.ne', hpos, NonNegV]
  · rcases round64_nonpos (mul_nonpos_of_nonneg_of_nonpos zero_le_two hm) with ⟨r, hr, hr0⟩ | hr
    · simp only [mul64, hr]
      exact round64_nonneg (mul_nonneg_of_nonpos_of_nonpos hr0 hm)
    · simp only [mul64, hr]
      rcases eq_or_lt_of_le hm with h0 | hneg
      · exfalso
        rw [h0, mul_zero, round64_zero] at hr
        cases hr
      · simp [mul, signedInf, hneg.ne, not_lt.mpr hneg.le, neg, NonNegV]

/-! ## The range of the gates -/

theorem nonPosV_neg {v : RealType ℝ} (h : NonNegV v) : NonPosV (neg v) := by
  rcases h with ⟨r, rfl, hr⟩ | rfl
  · exact Or.inl ⟨-r, rfl, neg_nonpos.mpr hr⟩
  · exact Or.inr rfl

/-- The exponent of a gate is a number not above zero, minus infinity, or NaN. -/
theorem div64_nonPos_nonNeg {n d : RealType ℝ} (hn : NonPosV n) (hd : NonNegV d) :
    NonPosV (div64 n d) ∨ div64 n d = nan := by
  rcases hn with ⟨x, rfl, hx⟩ | rfl <;> rcases hd with ⟨y, rfl, hy⟩ | rfl
  · by_cases hy0 : y = 0
    · subst hy0
      rcases eq_or_lt_of_le hx with h0 | hneg
      · right
        simp [div64, signedInf, h0]
      · left
        simp [div64, signedInf, hneg.ne, not_lt.mpr hneg.le, neg, NonPosV]
    · left
      simp only [div64, if_neg hy0]
      exact round64_nonpos (div_nonpos_of_nonpos_of_nonneg hx hy)
  · left
    exact Or.inl ⟨0, rfl, le_refl 0⟩
  · left
    by_cases hy0 : y = 0
    · simp [div64, div, signedInf, hy0, NonPosV]
    · have hpos : 0 < y := lt_of_le_of_ne hy (Ne.symm hy0)
      simp [div64, div, signedInf, hy0, hpos, NonPosV]
  · right
    rfl

/-- With a positive number as divisor the exponent of a gate is never NaN. -/
theorem div64_nonPos_pos {n : RealType ℝ} {d : ℝ} (hn : NonPosV n) (hd : 0 < d) :
    NonPosV (div64 n (fin d)) := by
  rcases hn with ⟨x, rfl, hx⟩ | rfl
  · simp only [div64, if_neg hd.ne']
    exact round64_nonpos (div_nonpos_of_nonpos_of_nonneg hx hd.le)
  · simp [div64, div, signedInf, hd.ne', hd, NonPosV]

theorem exp64_of_nonPos {t : RealType ℝ} (h : NonPosV t) : InI (exp64 Real.exp t) 0 1 := by
  rcases h with ⟨x, rfl, hx⟩ | rfl
  · exact round64_inI (Real.exp_pos x).le (Real.exp_le_one_iff.mpr hx) isDouble_zero isDouble_one
  · exact ⟨0, rfl, le_refl 0, zero_le_one⟩

theorem exp64_of_nonPos_or_nan {t : RealType ℝ} (h : NonPosV t ∨ t = nan) :
    UnitOrNaN (exp64 Real.exp t) := by
  rcases h with h | rfl
  · exact Or.inr (exp64_of_nonPos h)
  · exact Or.inl rfl

theorem mul64_self_nonneg {q : RealType ℝ} (h : NonNegV q) : NonNegV (mul64 q q) :=
  mul64_self_geV h (le_refl 0) (by norm_num) isDouble_zero

/-- A gate is NaN or a number between 0 and 1. -/
theorem gate64_unitOrNaN {q d : RealType ℝ} (hq : NonNegV q) (hd : NonNegV d) :
    UnitOrNaN (gate64 Real.exp q d) :=
  exp64_of_nonPos_or_nan (div64_nonPos_nonNeg (nonPosV_neg (mul64_self_nonneg hq)) hd)

/-- With a positive number as divisor a gate is a number between 0 and 1. -/
theorem gate64_inI {q : RealType ℝ} {d : ℝ} (hq : NonNegV q) (hd : 0 < d) :
    InI (gate64 Real.exp q (fin d)) 0 1 :=
  exp64_of_nonPos (div64_nonPos_pos (nonPosV_neg (mul64_self_nonneg hq)) hd)

/-- With divisor zero and a positive numerator a gate is 0. -/
theorem gate64_zero_divisor {n : RealType ℝ} (hn : PosV n) :
    exp64 Real.exp (div64 (neg n) (fin 0)) = fin 0 := by
  rcases hn with ⟨x, rfl, hx⟩ | rfl
  · have hneg : -x < 0 := neg_neg_of_pos hx
    simp [div64, neg, signedInf, hx.ne', not_lt.mpr hx.le, exp64, exp]
  · simp [div64, div, neg, signedInf, exp64, exp]

theorem sub64_one_inI {y : RealType ℝ} (h : InI y 0 1) : InI (sub64 (fin 1) y) 0 1 := by
  obtain ⟨r, rfl, h0, h1⟩ := h
  exact round64_inI (by linarith) (by linarith) isDouble_zero isDouble_one

theorem sub64_one_unitOrNaN {y : RealType ℝ} (h : UnitOrNaN y) :
    UnitOrNaN (sub64 (fin 1) y) := by
  rcases h with rfl | h
  · exact Or.inl rfl
  · exact Or.inr (sub64_one_inI h)

theorem mul64_inI_unit {a b : RealType ℝ} (ha : InI a 0 1) (hb : InI b 0 1) :
    InI (mul64 a b) 0 1 := by
  obtain ⟨x, rfl, hx0, hx1⟩ := ha
  obtain ⟨y, rfl, hy0, hy1⟩ := hb
  exact round64_inI (mul_nonneg hx0 hy0) (mul_le_one₀ hx1 hy0 hy1) isDouble_zero isDouble_one

theorem mul64_unitOrNaN {a b : RealType ℝ} (ha : UnitOrNaN a) (hb : UnitOrNaN b) :
    UnitOrNaN (mul64 a b) := by
  rcases ha with rfl | ha
  · exact Or.inl (mul64_nan_left b)
  · rcases hb with rfl | hb
    · exact Or.inl (mul64_nan_right a)
    · exact Or.inr (mul64_inI_unit ha hb)

/-- The exponent of the edge term is a number not above zero, minus infinity, or
NaN, for a gradient magnitude and a kappa that are not negative. -/
theorem edgeExponent64_nonPos {kappa gMag l3 : ℝ} (hk : 0 ≤ kappa) (hg : 0 ≤ gMag)
    (h3 : 0 < l3) :
    NonPosV (edgeExponent64 kappa gMag l3) ∨ edgeExponent64 kappa gMag l3 = nan := by
  unfold edgeExponent64
  have hq : NonNegV (div64 (fin gMag) (fin l3)) := by
    simp only [div64, if_neg h3.ne']
    exact round64_nonneg (div_nonneg hg h3.le)
  have hm : NonPosV (mul64 (fin (-1)) (fin kappa)) := round64_nonpos (by linarith)
  rcases hm with ⟨x, hx, hx0⟩ | hx <;> rcases hq with ⟨y, hy, hy0⟩ | hy <;> rw [hx, hy]
  · left
    exact round64_nonpos (mul_nonpos_of_nonpos_of_nonneg hx0 hy0)
  · rcases eq_or_lt_of_le hx0 with h0 | hneg
    · right
      simp [mul64, mul, signedInf, h0]
    · left
      simp [mul64, mul, signedInf, hneg.ne, not_lt.mpr hneg.le, neg, NonPosV]
  · rcases eq_or_lt_of_le hy0 with h0 | hpos
    · right
      simp [mul64, mul, signedInf, ← h0]
    · left
      simp [mul64, mul, signedInf, hpos.ne', hpos, NonPosV]
  · left
    exact Or.inr rfl

/-- The value computed past the two early exits is NaN or a number between 0
and 1, for a gradient magnitude and a kappa that are not negative. -/
theorem sheetnessOf64_unitOrNaN (self : FrangiXiaoSheetnessFunctor ℝ) (gMag l1 l2 l3 : ℝ)
    (h1 : 0 ≤ l1) (h2 : eps ≤ l2) (h23 : l2 ≤ l3) (hg : 0 ≤ gMag) (hk : 0 ≤ self.m_Kappa) :
    UnitOrNaN (sheetnessOf64 Real.exp Real.sqrt self gMag l1 l2 l3) := by
  have h3 : eps ≤ l3 := le_trans h2 h23
  have hRa : NonNegV (Ra64 l2 l3) := by
    obtain ⟨r, hr, hr0, _⟩ := Ra64_inI h2 h23
    exact Or.inl ⟨r, hr, hr0⟩
  have hA := gate64_unitOrNaN hRa (divisor64_nonneg self.m_Alpha)
  have hB := gate64_unitOrNaN (Rb64_nonneg h1 h2 h3) (divisor64_nonneg self.m_Beta)
  have hC := sub64_one_unitOrNaN (gate64_unitOrNaN
    (nonNegV_of_geV (S64_geV l1 l3 h2) eps_pos.le) (divisor64_nonneg self.m_C))
  have hD := exp64_of_nonPos_or_nan
    (edgeExponent64_nonPos hk hg (lt_of_lt_of_le eps_pos h3))
  exact mul64_unitOrNaN (mul64_unitOrNaN (mul64_unitOrNaN hA hB) hC) hD

/-! ## Rounding at particular values -/

theorem isDouble_half : IsDouble (1 / 2 : ℝ) := by
  have := isDouble_int_div_pow 1 1 (by norm_num) (by norm_num)
  simpa using this

theorem isDouble_two : IsDouble (2 : ℝ) := by
  have := isDouble_int_mul_pow 2 0 (by norm_num) (by norm_num)
  simpa using this

theorem isDouble_four : IsDouble (4 : ℝ) := by
  have := isDouble_int_mul_pow 4 0 (by norm_num) (by norm_num)
  simpa using this

theorem isDouble_quarter : IsDouble (1 / 4 : ℝ) := by
  have := isDouble_int_div_pow 1 2 (by norm_num) (by norm_num)
  norm_num at this
  simpa using this

theorem isDouble_eighth : IsDouble (1 / 8 : ℝ) := by
  have := isDouble_int_div_pow 1 3 (by norm_num) (by norm_num)
  norm_num at this
  simpa using this

theorem isDouble_three_quarters : IsDouble (3 / 4 : ℝ) := by
  have := isDouble_int_div_pow 3 2 (by norm_num) (by norm_num)
  norm_num at this
  simpa using this

theorem isDouble_one_over_pow (k : ℕ) (hk : k ≤ 1074) : IsDouble (1 / 2 ^ k : ℝ) := by
  have := isDouble_int_div_pow 1 k (by norm_num) hk
  simpa using this

theorem isDouble_pow (k : ℕ) (hk : k ≤ 971) : IsDouble (2 ^ k : ℝ) := by
  have := isDouble_int_mul_pow 1 k (by norm_num) hk
  simpa using this

theorem cast_two_pow (k : ℕ) : (((2 : ℤ) ^ k : ℤ) : ℝ) = (2 : ℝ) ^ k := by
  rw [Int.cast_pow, Int.cast_ofNat]

/-- A number just above 1 rounds to 1. -/
theorem round64_one_add {d : ℝ} (h0 : 0 ≤ d) (h1 : d < 1 / 2 ^ 53) : round64 (1 + d) = fin 1 := by
  have hpow : (0 : ℝ) < 1 / 2 ^ 53 := by positivity
  have hlt1 : (1 : ℝ) / 2 ^ 53 < 1 := by
    rw [div_lt_one (by positivity)]
    exact one_lt_pow₀ (by norm_num) (by norm_num)
  have hE : expo (1 + d) = 0 := by
    apply expo_eq_of_bounds (by norm_num)
    · rw [abs_of_nonneg (by linarith)]
      simp only [zpow_zero]
      linarith
    · rw [abs_of_nonneg (by linarith)]
      norm_num
      linarith
  have hu : (2 : ℝ) ^ ((0 : ℤ) - 52) = 1 / 2 ^ 52 := zpow_neg_natCast 52
  have hr : rnd (1 + d) = ((2 ^ 52 : ℤ) : ℝ) * 2 ^ ((0 : ℤ) - 52) := by
    apply rnd_of_near hE
    rw [hu, cast_two_pow]
    have e : (1 + d) / (1 / 2 ^ 52) - 2 ^ 52 = d * 2 ^ 52 := by
      field_simp
      ring
    rw [e, abs_of_nonneg (mul_nonneg h0 (by positivity))]
    have : d * 2 ^ 52 < 1 / 2 ^ 53 * 2 ^ 52 := mul_lt_mul_of_pos_right h1 (by positivity)
    refine lt_of_lt_of_eq this ?_
    rw [show (53 : ℕ) = 52 + 1 by norm_num, pow_succ]
    field_simp
  have hr1 : rnd (1 + d) = 1 := by
    rw [hr, hu, cast_two_pow]
    field_simp
  unfold round64
  rw [hr1]
  have : (1 : ℝ) < 2 ^ 1024 := one_lt_pow₀ (by norm_num) (by norm_num)
  rw [if_neg (by linarith), if_neg (by linarith)]

/-- A number just below 1 rounds to 1. -/
theorem round64_one_sub {d : ℝ} (h0 : 0 ≤ d) (h1 : d < 1 / 2 ^ 54) : round64 (1 - d) = fin 1 := by
  rcases eq_or_lt_of_le h0 with hd | hd
  · rw [← hd, sub_zero]
    exact round64_one
  have hlt1 : (1 : ℝ) / 2 ^ 54 ≤ 1 / 2 := by
    apply one_div_le_one_div_of_le (by norm_num)
    calc (2 : ℝ) = 2 ^ 1 := (pow_one 2).symm
      _ ≤ 2 ^ 54 := pow_le_pow_right₀ (by norm_num) (by norm_num)
  have hE : expo (1 - d) = -1 := by
    apply expo_eq_of_bounds (by norm_num)
    · rw [abs_of_nonneg (by linarith)]
      norm_num
      linarith
    · rw [abs_of_nonneg (by linarith)]
      norm_num
      linarith
  have hu : (2 : ℝ) ^ ((-1 : ℤ) - 52) = 1 / 2 ^ 53 := zpow_neg_natCast 53
  have hr : rnd (1 - d) = ((2 ^ 53 : ℤ) : ℝ) * 2 ^ ((-1 : ℤ) - 52) := by
    apply rnd_of_near hE
    rw [hu, cast_two_pow]
    have e : (1 - d) / (1 / 2 ^ 53) - 2 ^ 53 = -(d * 2 ^ 53) := by
      field_simp
      ring
    rw [e, abs_neg, abs_of_nonneg (mul_nonneg h0 (by positivity))]
    have : d * 2 ^ 53 < 1 / 2 ^ 54 * 2 ^ 53 := mul_lt_mul_of_pos_right h1 (by positivity)
    refine lt_of_lt_of_eq this ?_
    rw [show (54 : ℕ) = 53 + 1 by norm_num, pow_succ]
    field_simp
  have hr1 : rnd (1 - d) = 1 := by
    rw [hr, hu, cast_two_pow]
    field_simp
  unfold round64
  rw [hr1]
  have : (1 : ℝ) < 2 ^ 1024 := one_lt_pow₀ (by norm_num) (by norm_num)
  rw [if_neg (by linarith), if_neg (by linarith)]

/-- Adding a number below half an ulp to `2^60` leaves `2^60`. -/
theorem round64_pow60_add {d : ℝ} (h0 : 0 ≤ d) (h1 : d ≤ 1) : round64 (d + 2 ^ 60) = fin (2 ^ 60) := by
  have hE : expo (d + 2 ^ 60) = 60 := by
    apply expo_eq_of_bounds (by norm_num)
    · rw [abs_of_nonneg (by positivity)]
      norm_num
      linarith
    · rw [abs_of_nonneg (by positivity)]
      norm_num
      linarith
  have hu : (2 : ℝ) ^ ((60 : ℤ) - 52) = 2 ^ 8 := by
    norm_num
  have hr : rnd (d + 2 ^ 60) = ((2 ^ 52 : ℤ) : ℝ) * 2 ^ ((60 : ℤ) - 52) := by
    apply rnd_of_near hE
    rw [hu, cast_two_pow]
    have e : (d + 2 ^ 60) / 2 ^ 8 - 2 ^ 52 = d / 2 ^ 8 := by
      field_simp
      ring
    rw [e, abs_of_nonneg (div_nonneg h0 (by positivity))]
    rw [div_lt_iff₀ (by positivity)]
    norm_num
    linarith
  have hr1 : rnd (d + 2 ^ 60) = 2 ^ 60 := by
    rw [hr, hu, cast_two_pow, ← pow_add]
  unfold round64
  rw [hr1]
  have h2 : (2 : ℝ) ^ 60 < 2 ^ 1024 := pow_lt_pow_right₀ (by norm_num) (by norm_num)
  have h3 : (0 : ℝ) < 2 ^ 60 := by positivity
  rw [if_neg (by linarith), if_neg (by linarith)]

/-! ## Bounds on the exponential -/

theorem exp_neg_two_ge : (1 / 8 : ℝ) ≤ Real.exp (-2) := by
  have h1 : Real.exp 1 < 2.7182818286 := Real.exp_one_lt_d9
  have h2 : Real.exp 2 = Real.exp 1 * Real.exp 1 := by
    rw [← Real.exp_add]
    norm_num
  have h3 : Real.exp 2 ≤ 8 := by
    rw [h2]
    have h0 : 0 < Real.exp 1 := Real.exp_pos 1
    nlinarith
  rw [Real.exp_neg, one_div]
  exact inv_anti₀ (Real.exp_pos 2) h3

theorem exp_neg_two_le : Real.exp (-2) ≤ (1 / 3 : ℝ) := by
  have h : (3 : ℝ) ≤ Real.exp 2 := by
    have := Real.add_one_le_exp (2 : ℝ)
    linarith
  rw [Real.exp_neg, one_div]
  exact inv_anti₀ (by norm_num) h

theorem exp_neg_half_le : Real.exp (-(1 / 2)) ≤ (3 / 4 : ℝ) := by
  have h : (3 / 2 : ℝ) ≤ Real.exp (1 / 2) := by
    have := Real.add_one_le_exp (1 / 2 : ℝ)
    linarith
  rw [Real.exp_neg]
  have := inv_anti₀ (by norm_num) h
  refine le_trans this ?_
  norm_num

/-- The exponential of a number below `-n` is at most `2^-n`. -/
theorem exp_neg_le_pow (y : ℝ) (n : ℕ) (h : (n : ℝ) ≤ y) : Real.exp (-y) ≤ 1 / 2 ^ n := by
  have h2 : (2 : ℝ) ≤ Real.exp 1 := by
    have := Real.add_one_le_exp (1 : ℝ)
    linarith
  have h3 : (2 : ℝ) ^ n ≤ Real.exp y := by
    calc (2 : ℝ) ^ n ≤ Real.exp 1 ^ n := pow_le_pow_left₀ (by norm_num) h2 n
      _ = Real.exp (n * 1) := (Real.exp_nat_mul 1 n).symm
      _ ≤ Real.exp y := Real.exp_le_exp.mpr (by linarith)
  rw [Real.exp_neg, one_div]
  exact inv_anti₀ (by positivity) h3

theorem round64_exp_small (y : ℝ) (h : 1076 ≤ y) : round64 (Real.exp (-y)) = fin 0 := by
  apply round64_of_small
  rw [abs_of_pos (Real.exp_pos _)]
  have := exp_neg_le_pow y 1076 (by exact_mod_cast h)
  refine lt_of_le_of_lt this ?_
  apply one_div_lt_one_div_of_lt (by positivity)
  exact pow_lt_pow_right₀ (by norm_num) (by norm_num)

/-! ## The gates at particular parameters -/

theorem divisor64_half : divisor64 (1 / 2 : ℝ) = fin (1 / 2) := by
  unfold divisor64
  simp only [mul64]
  rw [show (2 : ℝ) * (1 / 2) = 1 by norm_num, round64_one]
  simp only [one_mul]
  exact isDouble_half

theorem divisor64_one : divisor64 (1 : ℝ) = fin 2 := by
  unfold divisor64
  simp only [mul64, mul_one]
  rw [show round64 (2 : ℝ) = fin 2 from isDouble_two]
  simp only [mul_one]
  exact isDouble_two

theorem divisor64_zero : divisor64 (0 : ℝ) = fin 0 := by
  unfold divisor64
  simp only [mul64, mul_zero, round64_zero]

theorem isDouble_neg_two : IsDouble (-2 : ℝ) := isDouble_neg isDouble_two

theorem isDouble_neg_one : IsDouble (-1 : ℝ) := isDouble_neg isDouble_one

theorem isDouble_neg_half : IsDouble (-(1 / 2) : ℝ) := isDouble_neg isDouble_half

/-- A gate with divisor 1/2 and a ratio between 0 and 1 is at least 1/8. -/
theorem gate64_half_inI {q : RealType ℝ} (hq : InI q 0 1) :
    InI (gate64 Real.exp q (fin (1 / 2))) (1 / 8) 1 := by
  obtain ⟨x, rfl, h0, h1⟩ := hq
  obtain ⟨y, hy, hy0, hy1⟩ :=
    round64_inI (mul_nonneg h0 h0) (mul_le_one₀ h1 h0 h1) isDouble_zero isDouble_one
  have hd : ¬((1 : ℝ) / 2 = 0) := by norm_num
  obtain ⟨t, ht, ht0, ht1⟩ : InI (round64 (-y / (1 / 2))) (-2) 0 :=
    round64_inI (by rw [neg_div, neg_le_neg_iff, div_le_iff₀ (by norm_num)]; linarith)
      (by rw [neg_div, neg_nonpos]; exact div_nonneg hy0 (by norm_num))
      isDouble_neg_two isDouble_zero
  simp only [gate64, mul64, hy, neg, div64, if_neg hd, ht, exp64]
  exact round64_inI (le_trans exp_neg_two_ge (Real.exp_le_exp.mpr ht0))
    (Real.exp_le_one_iff.mpr ht1) isDouble_eighth isDouble_one

/-- The noise gate with divisor 2 and a structure strength between 1 and 2 is
at least 1/4. -/
theorem noise64_inI {S : RealType ℝ} (hS : InI S 1 2) :
    InI (sub64 (fin 1) (gate64 Real.exp S (fin 2))) (1 / 4) 1 := by
  obtain ⟨s, rfl, h1, h2⟩ := hS
  obtain ⟨y, hy, hy1, hy4⟩ : InI (round64 (s * s)) 1 4 :=
    round64_inI (by nlinarith) (by nlinarith) isDouble_one isDouble_four
  have hd : ¬((2 : ℝ) = 0) := by norm_num
  obtain ⟨t, ht, ht0, ht1⟩ : InI (round64 (-y / 2)) (-2) (-(1 / 2)) :=
    round64_inI (by linarith) (by linarith) isDouble_neg_two isDouble_neg_half
  obtain ⟨z, hz, hz0, hz1⟩ : InI (round64 (Real.exp t)) (1 / 8) (3 / 4) :=
    round64_inI (le_trans exp_neg_two_ge (Real.exp_le_exp.mpr ht0))
      (le_trans (Real.exp_le_exp.mpr ht1) exp_neg_half_le) isDouble_eighth
      isDouble_three_quarters
  simp only [sub64, gate64, mul64, hy, neg, div64, if_neg hd, ht, exp64, hz, add64]
  exact round64_inI (by linarith) (by linarith) isDouble_quarter isDouble_one

theorem sqrt_one_le {c : ℝ} (h : 1 ≤ c) : 1 ≤ Real.sqrt c := by
  have := Real.sqrt_le_sqrt h
  rwa [Real.sqrt_one] at this

theorem sqrt_le_two {c : ℝ} (h : c ≤ 4) : Real.sqrt c ≤ 2 := by
  rw [Real.sqrt_le_left (by norm_num)]
  linarith

/-- The structure strength of absolute values `(l1, 1, 1)` with `l1` at most 1. -/
theorem S64_unit_triple {l1 : ℝ} (h0 : 0 ≤ l1) (h1 : l1 ≤ 1) :
    InI (S64 Real.sqrt l1 1 1) 1 2 := by
  obtain ⟨a, ha, ha0, ha1⟩ :=
    round64_inI (mul_nonneg h0 h0) (mul_le_one₀ h1 h0 h1) isDouble_zero isDouble_one
  obtain ⟨b, hb, hb0, hb1⟩ : InI (round64 (a + 1)) 1 2 :=
    round64_inI (by linarith) (by linarith) isDouble_one isDouble_two
  obtain ⟨c, hc, hc0, hc1⟩ : InI (round64 (b + 1)) 1 4 :=
    round64_inI (by linarith) (by linarith) isDouble_one isDouble_four
  have hcn : ¬c < 0 := by linarith
  simp only [S64, mul64, ha, mul_one, round64_one, add64, hb, hc, sqrt64, if_neg hcn]
  exact round64_inI (sqrt_one_le hc0) (sqrt_le_two hc1) isDouble_one isDouble_two

/-- The ratio `Rb` of absolute values `(l1, 1, 1)` with `l1` at most 1. -/
theorem Rb64_unit_triple {l1 : ℝ} (h0 : 0 ≤ l1) (h1 : l1 ≤ 1) :
    InI (Rb64 Real.sqrt l1 1 1) 0 1 := by
  have h10 : ¬((1 : ℝ) < 0) := by norm_num
  have h11 : ¬((1 : ℝ) = 0) := by norm_num
  simp only [Rb64, mul64, mul_one, round64_one, sqrt64, if_neg h10, Real.sqrt_one, div64,
    if_neg h11, div_one]
  exact round64_inI h0 h1 isDouble_zero isDouble_one

/-- With gradient magnitude 0 the edge gate is 1. -/
theorem edge64_zero_gradient {kappa l3 : ℝ} (hk0 : 0 ≤ kappa) (hk1 : kappa ≤ 1)
    (h3 : l3 ≠ 0) : exp64 Real.exp (edgeExponent64 kappa 0 l3) = fin 1 := by
  obtain ⟨x, hx, _, _⟩ : InI (round64 (-1 * kappa)) (-1) 0 :=
    round64_inI (by linarith) (by linarith) isDouble_neg_one isDouble_zero
  simp only [edgeExponent64, mul64, hx, div64, if_neg h3, zero_div, round64_zero, mul_zero,
    exp64, Real.exp_zero, round64_one]

/-- The product of two numbers of `[0, 1]` with lower bounds. -/
theorem mul64_inI_lower {a b : RealType ℝ} {la lb lo : ℝ} (ha : InI a la 1) (hb : InI b lb 1)
    (h0a : 0 ≤ la) (h0b : 0 ≤ lb) (hlo : lo ≤ la * lb) (hd : IsDouble lo) :
    InI (mul64 a b) lo 1 := by
  obtain ⟨x, rfl, hx0, hx1⟩ := ha
  obtain ⟨y, rfl, hy0, hy1⟩ := hb
  exact round64_inI (le_trans hlo (mul_le_mul hx0 hy0 h0b (le_trans h0a hx0)))
    (mul_le_one₀ hx1 (le_trans h0b hy0) hy1) hd isDouble_one

theorem inI_ne_zero {v : RealType ℝ} {lo hi : ℝ} (h : InI v lo hi) (hlo : 0 < lo) :
    v ≠ fin 0 := by
  obtain ⟨r, rfl, h1, _⟩ := h
  intro h0
  injection h0 with h0
  linarith

theorem inI_mono {v : RealType ℝ} {lo hi lo' hi' : ℝ} (h : InI v lo hi) (h1 : lo' ≤ lo)
    (h2 : hi ≤ hi') : InI v lo' hi' := by
  obtain ⟨r, hr, a, b⟩ := h
  exact ⟨r, hr, le_trans h1 a, le_trans b h2⟩

theorem mul64_inI_one {a : RealType ℝ} {lo : ℝ} (ha : InI a lo 1) (hd : IsDouble lo) :
    InI (mul64 a (fin 1)) lo 1 := by
  obtain ⟨x, rfl, hx0, hx1⟩ := ha
  simp only [mul64, mul_one]
  exact round64_inI hx0 hx1 hd isDouble_one

/-! ## The early exits and the pass of `Evaluate64` -/

theorem Evaluate64_rejected (exp sqrt : ℝ → ℝ) (self : FrangiXiaoSheetnessFunctor ℝ)
    (gMag e0 e1 e2 : ℝ) (h : rejected64 self.m_BrightObject (sum64 e0 e1 e2) = true) :
    Evaluate64 exp sqrt self gMag [e0, e1, e2] = fin 0 := by
  rw [Evaluate64_three, if_pos h]

theorem Evaluate64_degenerate (exp sqrt : ℝ → ℝ) (self : FrangiXiaoSheetnessFunctor ℝ)
    (gMag e0 e1 e2 : ℝ) (h : absMed e0 e1 e2 < eps) :
    Evaluate64 exp sqrt self gMag [e0, e1, e2] = fin 0 := by
  have hguard : absMed e0 e1 e2 < eps ∨ absMax e0 e1 e2 < eps := Or.inl h
  rw [Evaluate64_three]
  split_ifs <;> rfl

theorem Evaluate64_pass (exp sqrt : ℝ → ℝ) (self : FrangiXiaoSheetnessFunctor ℝ)
    (gMag e0 e1 e2 : ℝ) (hrej : rejected64 self.m_BrightObject (sum64 e0 e1 e2) = false)
    (hl2 : eps ≤ absMed e0 e1 e2) :
    Evaluate64 exp sqrt self gMag [e0, e1, e2] =
      sheetnessOf64 exp sqrt self gMag (absMin e0 e1 e2) (absMed e0 e1 e2) (absMax e0 e1 e2) := by
  have hguard : ¬(absMed e0 e1 e2 < eps ∨ absMax e0 e1 e2 < eps) := by
    rintro (h | h)
    · exact absurd h (not_lt.mpr hl2)
    · exact absurd h (not_lt.mpr (le_trans hl2 (absMed_le_absMax e0 e1 e2)))
  rw [Evaluate64_three, hrej, if_neg hguard]
  simp

theorem round64_neg (x : ℝ) : round64 (-x) = neg (round64 x) := by
  unfold round64
  rw [rnd_neg]
  have hp : (0 : ℝ) < 2 ^ 1024 := by positivity
  by_cases h1 : 2 ^ 1024 ≤ rnd x
  · rw [if_pos h1, if_neg (by linarith), if_pos (by linarith)]
    rfl
  · by_cases h2 : rnd x ≤ -(2 ^ 1024)
    · rw [if_neg h1, if_pos h2, if_pos (by linarith)]
      rfl
    · rw [if_neg h1, if_neg h2, if_neg (by linarith), if_neg (by linarith)]
      rfl

/-- The sum of `1`, a small `d` and `-1`, taken from left to right, is 0. -/
theorem sum64_cancel {d : ℝ} (h0 : 0 ≤ d) (h1 : d < 1 / 2 ^ 53) : sum64 1 d (-1) = fin 0 := by
  simp only [sum64, add64, round64_one_add h0 h1]
  rw [show (1 : ℝ) + -1 = 0 by norm_num, round64_zero]

/-- The sum of `-1`, a small `-d` and `1`, taken from left to right, is 0. -/
theorem sum64_cancel_neg {d : ℝ} (h0 : 0 ≤ d) (h1 : d < 1 / 2 ^ 53) :
    sum64 (-1) (-d) 1 = fin 0 := by
  have h : round64 (-1 + -d) = fin (-1) := by
    rw [show (-1 : ℝ) + -d = -(1 + d) by ring, round64_neg, round64_one_add h0 h1]
    rfl
  simp only [sum64, add64, h]
  rw [show (-1 : ℝ) + 1 = 0 by norm_num, round64_zero]

/-- The sum of `1`, `-1` and a binary64 number `d`, taken from left to right, is `d`. -/
theorem sum64_late {d : ℝ} (hd : IsDouble d) : sum64 1 (-1) d = fin d := by
  simp only [sum64, add64]
  rw [show (1 : ℝ) + -1 = 0 by norm_num, round64_zero]
  simp only [zero_add]
  exact hd

/-- The three absolute values of `1`, `d` and `-1` in any of the orders used
below, for `d` between 0 and 1. -/
theorem abs_one_small {d : ℝ} (h0 : 0 ≤ d) (h1 : d ≤ 1) :
    absMin 1 d (-1) = d ∧ absMed 1 d (-1) = 1 ∧ absMax 1 d (-1) = 1 := by
  unfold absMin absMed absMax
  rw [abs_one, abs_neg, abs_one, abs_of_nonneg h0, min_eq_right h1, max_eq_left h1,
    min_eq_left h1, min_self, max_eq_right h1, max_self]
  exact ⟨rfl, rfl, rfl⟩

theorem isDouble_small : IsDouble (1 / 2 ^ 60 : ℝ) := isDouble_one_over_pow 60 (by norm_num)

theorem small_nonneg : (0 : ℝ) ≤ 1 / 2 ^ 60 := by positivity

theorem small_lt : (1 / 2 ^ 60 : ℝ) < 1 / 2 ^ 53 := by
  apply one_div_lt_one_div_of_lt (by positivity)
  exact pow_lt_pow_right₀ (by norm_num) (by norm_num)

theorem small_le_one : (1 / 2 ^ 60 : ℝ) ≤ 1 := by
  rw [div_le_one (by positivity)]
  exact one_le_pow₀ (by norm_num)

theorem eps_le_one : (eps : ℝ) ≤ 1 := by
  unfold eps
  rw [div_le_one (by positivity)]
  exact one_le_pow₀ (by norm_num)

theorem isDouble_one_over_256 : IsDouble (1 / 256 : ℝ) := by
  have := isDouble_one_over_pow 8 (by norm_num)
  norm_num at this
  simpa using this

/-- The product of the sheetness, blobness and noise gates for absolute values
`(l1, 1, 1)`, `l1` at most 1, with the divisors of alpha = beta = 1/2 and c = 1:
a number that is at least 1/256. -/
theorem gates64_unit_triple {l1 : ℝ} (h0 : 0 ≤ l1) (h1 : l1 ≤ 1) :
    InI (mul64 (mul64 (gate64 Real.exp (Ra64 (1 : ℝ) 1) (fin (1 / 2)))
        (gate64 Real.exp (Rb64 Real.sqrt l1 1 1) (fin (1 / 2))))
      (sub64 (fin 1) (gate64 Real.exp (S64 Real.sqrt l1 1 1) (fin 2)))) (1 / 256) 1 := by
  have hA : InI (gate64 Real.exp (Ra64 (1 : ℝ) 1) (fin (1 / 2))) (1 / 8) 1 :=
    gate64_half_inI (Ra64_inI eps_le_one (le_refl 1))
  have hB : InI (gate64 Real.exp (Rb64 Real.sqrt l1 1 1) (fin (1 / 2))) (1 / 8) 1 :=
    gate64_half_inI (Rb64_unit_triple h0 h1)
  have hC := noise64_inI (S64_unit_triple h0 h1)
  have h64 : IsDouble (1 / 64 : ℝ) := by
    have := isDouble_one_over_pow 6 (by norm_num)
    norm_num at this
    simpa using this
  have hAB := mul64_inI_lower hA hB (by norm_num) (by norm_num) (by norm_num : (1 / 64 : ℝ) ≤ _) h64
  exact mul64_inI_lower hAB hC (by norm_num) (by norm_num)
    (by norm_num : (1 / 256 : ℝ) ≤ _) isDouble_one_over_256

/-- The value computed past the early exits from absolute values `(l1, 1, 1)`,
`l1` at most 1, with alpha = beta = 1/2, c = 1, kappa between 0 and 1 and
gradient magnitude 0: a number that is at least 1/256. -/
theorem sheetnessOf64_unit_triple (kappa : ℝ) (bright : Bool) {l1 : ℝ} (h0 : 0 ≤ l1)
    (h1 : l1 ≤ 1) (hk0 : 0 ≤ kappa) (hk1 : kappa ≤ 1) :
    InI (sheetnessOf64 Real.exp Real.sqrt ⟨1 / 2, 1 / 2, 1, kappa, bright⟩ 0 l1 1 1)
      (1 / 256) 1 := by
  have hD := @edge64_zero_gradient kappa 1 hk0 hk1 one_ne_zero
  unfold sheetnessOf64
  simp only [divisor64_half, divisor64_one, hD]
  exact mul64_inI_one (gates64_unit_triple h0 h1) isDouble_one_over_256

/-! ## The signed sum in binary64 -/

theorem rejected64_zero (bright : Bool) : rejected64 bright (fin (0 : ℝ)) = false := by
  cases bright <;> simp [rejected64, lt]

theorem isDouble_int (m : ℤ) (hm : |m| < 2 ^ 53) : IsDouble (m : ℝ) := by
  have h := isDouble_int_mul_pow m 0 hm (by norm_num)
  simpa using h

theorem sum64_exact {e0 e1 e2 : ℝ} (h1 : IsDouble (e0 + e1)) (h2 : IsDouble (e0 + e1 + e2)) :
    sum64 e0 e1 e2 = fin (e0 + e1 + e2) := by
  have h1' : round64 (e0 + e1) = fin (e0 + e1) := h1
  simp only [sum64, add64, h1']
  exact h2

/-- Three binary64 numbers whose exact sum is 0 have the computed sum 0: the
first addition is exact. -/
theorem sum64_zero_of_exact {e0 e1 e2 : ℝ} (h2 : IsDouble e2) (h : e0 + e1 + e2 = 0) :
    sum64 e0 e1 e2 = fin 0 := by
  have h01 : e0 + e1 = -e2 := by linarith
  have h1 : round64 (e0 + e1) = fin (-e2) := by
    rw [h01]
    exact isDouble_neg h2
  simp only [sum64, add64, h1]
  rw [neg_add_cancel, round64_zero]

/-- The computed sum is never a NaN: it is a number or an infinity. -/
theorem sum64_cases (e0 e1 e2 : ℝ) :
    (∃ r, sum64 e0 e1 e2 = fin r) ∨ sum64 e0 e1 e2 = pinf ∨ sum64 e0 e1 e2 = ninf := by
  have hr : ∀ x : ℝ, (∃ r, round64 x = fin r) ∨ round64 x = pinf ∨ round64 x = ninf := by
    intro x
    unfold round64
    split_ifs
    · exact Or.inr (Or.inl rfl)
    · exact Or.inr (Or.inr rfl)
    · exact Or.inl ⟨_, rfl⟩
  unfold sum64
  rcases hr (e0 + e1) with ⟨r, h⟩ | h | h
  · simp only [add64, h]
    exact hr _
  · simp only [add64, h]
    exact Or.inr (Or.inl rfl)
  · simp only [add64, h]
    exact Or.inr (Or.inr rfl)

/-- A computed sum other than 0 is rejected by one of the two polarities. -/
theorem rejected64_of_ne_zero {e0 e1 e2 : ℝ} (h : sum64 e0 e1 e2 ≠ fin 0) :
    rejected64 true (sum64 e0 e1 e2) = true ∨ rejected64 false (sum64 e0 e1 e2) = true := by
  rcases sum64_cases e0 e1 e2 with ⟨r, hr⟩ | hr | hr
  · rw [hr] at h ⊢
    have hr0 : r ≠ 0 := fun h0 => h (by rw [h0])
    rcases lt_or_gt_of_ne hr0 with hlt | hgt
    · right
      simp [rejected64, lt, hlt]
    · left
      simp [rejected64, lt, hgt]
  · rw [hr]
    left
    simp [rejected64, lt]
  · rw [hr]
    right
    simp [rejected64, lt]

/-- The result on the triple (1, 2⁻⁶⁰, -1), whose computed sum is 0, with
alpha = beta = 1/2, c = 1 and gradient magnitude 0: a number that is at least
1/256, for both polarities. -/
theorem Evaluate64_cancel (kappa : ℝ) (bright : Bool) (hk0 : 0 ≤ kappa) (hk1 : kappa ≤ 1) :
    InI (Evaluate64 Real.exp Real.sqrt ⟨1 / 2, 1 / 2, 1, kappa, bright⟩ 0 [1, 1 / 2 ^ 60, -1])
      (1 / 256) 1 := by
  obtain ⟨h1, h2, h3⟩ := abs_one_small small_nonneg small_le_one
  rw [Evaluate64_pass _ _ _ _ _ _ _
    (by rw [sum64_cancel small_nonneg small_lt]; exact rejected64_zero _)
    (by rw [h2]; exact eps_le_one), h1, h2, h3]
  exact sheetnessOf64_unit_triple kappa bright small_nonneg small_le_one hk0 hk1

/-- The same for the triple (-1, -2⁻⁶⁰, 1). -/
theorem Evaluate64_cancel_neg (kappa : ℝ) (bright : Bool) (hk0 : 0 ≤ kappa) (hk1 : kappa ≤ 1) :
    InI (Evaluate64 Real.exp Real.sqrt ⟨1 / 2, 1 / 2, 1, kappa, bright⟩ 0
      [-1, -(1 / 2 ^ 60), 1]) (1 / 256) 1 := by
  obtain ⟨h1, h2, h3⟩ := abs_one_small small_nonneg small_le_one
  have e1 : absMin (-1 : ℝ) (-(1 / 2 ^ 60)) 1 = 1 / 2 ^ 60 := by
    refine Eq.trans ?_ h1
    simp only [absMin, abs_neg]
  have e2 : absMed (-1 : ℝ) (-(1 / 2 ^ 60)) 1 = 1 := by
    refine Eq.trans ?_ h2
    simp only [absMed, abs_neg]
  have e3 : absMax (-1 : ℝ) (-(1 / 2 ^ 60)) 1 = 1 := by
    refine Eq.trans ?_ h3
    simp only [absMax, abs_neg]
  rw [Evaluate64_pass _ _ _ _ _ _ _
    (by rw [sum64_cancel_neg small_nonneg small_lt]; exact rejected64_zero _)
    (by rw [e2]; exact eps_le_one), e1, e2, e3]
  exact sheetnessOf64_unit_triple kappa bright small_nonneg small_le_one hk0 hk1

theorem sum64_one_two_three : sum64 (1 : ℝ) 2 3 = fin 6 := by
  have h := @sum64_exact 1 2 3
    (by norm_num; simpa using isDouble_int 3 (by norm_num))
    (by norm_num; simpa using isDouble_int 6 (by norm_num))
  rw [h]
  norm_num

theorem sum64_neg_one_two_three : sum64 (-1 : ℝ) (-2) (-3) = fin (-6) := by
  have h := @sum64_exact (-1) (-2) (-3)
    (by norm_num; simpa using isDouble_int (-3) (by norm_num))
    (by norm_num; simpa using isDouble_int (-6) (by norm_num))
  rw [h]
  norm_num

theorem perm_late : [(1 : ℝ), -1, 1 / 2 ^ 60].Perm [1, 1 / 2 ^ 60, -1] :=
  List.Perm.cons 1 (List.Perm.swap (1 / 2 ^ 60) (-1) [])

theorem small_pos : (0 : ℝ) < 1 / 2 ^ 60 := by positivity

/-- The bright-object functor rejects (1, -1, 2⁻⁶⁰), whose computed sum is 2⁻⁶⁰. -/
theorem Evaluate64_late (alpha beta c kappa gMag : ℝ) :
    Evaluate64 Real.exp Real.sqrt ⟨alpha, beta, c, kappa, true⟩ gMag [1, -1, 1 / 2 ^ 60]
      = fin 0 := by
  apply Evaluate64_rejected
  rw [sum64_late isDouble_small]
  simp [rejected64, lt, small_pos]

theorem sum64_of_ints (m0 m1 m2 : ℤ) (h1 : |m0 + m1| < 2 ^ 53) (h2 : |m0 + m1 + m2| < 2 ^ 53) :
    sum64 (m0 : ℝ) m1 m2 = fin ((m0 + m1 + m2 : ℤ) : ℝ) := by
  have e1 := isDouble_int (m0 + m1) h1
  have e2 := isDouble_int (m0 + m1 + m2) h2
  push_cast at e1 e2
  rw [sum64_exact e1 e2]
  push_cast
  rfl

/-! ## Triples `(0, -a, -b)` and the four gates as numbers -/

/-- The three absolute values of `(0, -a, -b)` for `0 ≤ a ≤ b`. -/
theorem abs_flat {a b : ℝ} (h0 : 0 ≤ a) (hab : a ≤ b) :
    absMin 0 (-a) (-b) = 0 ∧ absMed 0 (-a) (-b) = a ∧ absMax 0 (-a) (-b) = b := by
  have hb : 0 ≤ b := le_trans h0 hab
  unfold absMin absMed absMax
  rw [abs_zero, abs_neg, abs_neg, abs_of_nonneg h0, abs_of_nonneg hb, min_eq_left h0,
    max_eq_right h0, min_eq_left hb, min_eq_left hab, max_eq_right h0, max_eq_right hab]
  exact ⟨rfl, rfl, rfl⟩

theorem add64_nonPos {a b : RealType ℝ} (ha : NonPosV a) (hb : NonPosV b) :
    NonPosV (add64 a b) := by
  rcases ha with ⟨x, rfl, hx⟩ | rfl <;> rcases hb with ⟨y, rfl, hy⟩ | rfl
  · exact round64_nonpos (by linarith)
  · exact Or.inr rfl
  · exact Or.inr rfl
  · exact Or.inr rfl

/-- Three eigenvalues that are not positive have a computed sum that is not
positive. -/
theorem sum64_nonPos {e0 e1 e2 : ℝ} (h0 : e0 ≤ 0) (h1 : e1 ≤ 0) (h2 : e2 ≤ 0) :
    NonPosV (sum64 e0 e1 e2) :=
  add64_nonPos (add64_nonPos (Or.inl ⟨e0, rfl, h0⟩) (Or.inl ⟨e1, rfl, h1⟩))
    (Or.inl ⟨e2, rfl, h2⟩)

theorem rejected64_bright_nonPos {v : RealType ℝ} (h : NonPosV v) : rejected64 true v = false := by
  rcases h with ⟨x, rfl, hx⟩ | rfl
  · simp [rejected64, lt, hx]
  · simp [rejected64, lt]

/-- A bright-object functor on `(0, -a, -b)` with `eps ≤ a ≤ b` passes the two
early exits. -/
theorem Evaluate64_flat (alpha beta c kappa gMag : ℝ) {a b : ℝ} (ha : eps ≤ a) (hab : a ≤ b) :
    Evaluate64 Real.exp Real.sqrt ⟨alpha, beta, c, kappa, true⟩ gMag [0, -a, -b] =
      sheetnessOf64 Real.exp Real.sqrt ⟨alpha, beta, c, kappa, true⟩ gMag 0 a b := by
  have h0 : (0 : ℝ) ≤ a := le_trans (le_of_lt eps_pos) ha
  obtain ⟨h1, h2, h3⟩ := abs_flat h0 hab
  rw [Evaluate64_pass _ _ _ _ _ _ _
    (rejected64_bright_nonPos (sum64_nonPos (le_refl 0) (by linarith) (by linarith)))
    (by rw [h2]; exact ha), h1, h2, h3]

/-- Every value that `mul64` returns is left unchanged by a multiplication by 1. -/
theorem mul64_mul64_one (a b : RealType ℝ) : mul64 (mul64 a b) (fin 1) = mul64 a b := by
  have hr : ∀ x : ℝ, mul64 (round64 x) (fin 1) = round64 x := by
    intro x
    rcases hx : round64 x with r | _ | _ | _
    · have hd : round64 r = fin r := round64_isDouble hx
      simp only [mul64, mul_one, hd]
    · simp [mul64, mul, signedInf]
    · simp [mul64, mul, signedInf, neg]
    · rfl
  have hs : ∀ (s : RealType ℝ) (x : ℝ) (z : Bool), s = pinf ∨ s = ninf →
      mul64 (signedInf s x z) (fin 1) = signedInf s x z := by
    intro s x z hs
    rcases hs with rfl | rfl <;> unfold signedInf <;> split_ifs <;>
      simp [mul64, mul, signedInf, neg]
  cases a <;> cases b <;>
    first
      | exact hr _
      | exact hs _ _ _ (Or.inl rfl)
      | exact hs _ _ _ (Or.inr rfl)
      | simp [mul64, mul, signedInf, neg]

theorem mul64_zero_inI {b : RealType ℝ} {lo hi : ℝ} (hb : InI b lo hi) :
    mul64 (fin 0) b = fin 0 := by
  obtain ⟨r, rfl, _, _⟩ := hb
  simp only [mul64, zero_mul, round64_zero]

theorem mul64_inI_zero {a : RealType ℝ} {lo hi : ℝ} (ha : InI a lo hi) :
    mul64 a (fin 0) = fin 0 := by
  obtain ⟨r, rfl, _, _⟩ := ha
  simp only [mul64, mul_zero, round64_zero]

theorem isDouble_doubleMax : IsDouble (doubleMax : ℝ) := by
  have h := isDouble_int_mul_pow (2 ^ 53 - 1) 971 (by norm_num) (by norm_num)
  have e : (((2 ^ 53 - 1 : ℤ) : ℝ)) = 2 ^ 53 - 1 := by push_cast; ring
  rw [e] at h
  exact h

/-- The blobness gate is a number between 0 and 1 when its divisor is a positive
number. -/
theorem blob64_inI {l1 l2 l3 d : ℝ} (h1 : 0 ≤ l1) (h2 : eps ≤ l2) (h3 : eps ≤ l3) (hd : 0 < d) :
    InI (gate64 Real.exp (Rb64 Real.sqrt l1 l2 l3) (fin d)) 0 1 :=
  gate64_inI (Rb64_nonneg h1 h2 h3) hd

/-- The sheetness gate is a number between 0 and 1 when its divisor is a positive
number. -/
theorem sheet64_inI {l2 l3 d : ℝ} (h2 : eps ≤ l2) (h23 : l2 ≤ l3) (hd : 0 < d) :
    InI (gate64 Real.exp (Ra64 l2 l3) (fin d)) 0 1 := by
  obtain ⟨r, hr, h0, _⟩ := Ra64_inI h2 h23
  exact gate64_inI (Or.inl ⟨r, hr, h0⟩) hd

/-- The noise gate is a number between 0 and 1 when its divisor is a positive
number. -/
theorem noise64_unit (l1 : ℝ) {l2 : ℝ} (l3 : ℝ) {d : ℝ} (h2 : eps ≤ l2) (hd : 0 < d) :
    InI (sub64 (fin 1) (gate64 Real.exp (S64 Real.sqrt l1 l2 l3) (fin d))) 0 1 :=
  sub64_one_inI (gate64_inI (nonNegV_of_geV (S64_geV l1 l3 h2) (le_of_lt eps_pos)) hd)

/-- The edge gate is a number between 0 and 1 when kappa is a parameter that the
setter accepts and the quotient `g / l3` does not overflow. -/
theorem edge64_inI {kappa gMag l3 q : ℝ} (hk0 : 0 ≤ kappa) (hk1 : kappa ≤ doubleMax)
    (hg : 0 ≤ gMag) (h3 : 0 < l3) (hq : div64 (fin gMag) (fin l3) = fin q) :
    InI (exp64 Real.exp (edgeExponent64 kappa gMag l3)) 0 1 := by
  apply exp64_of_nonPos
  unfold edgeExponent64
  rw [hq]
  have hq0 : 0 ≤ q := by
    have hn : NonNegV (div64 (fin gMag) (fin l3)) := by
      simp only [div64, if_neg h3.ne']
      exact round64_nonneg (div_nonneg hg h3.le)
    rw [hq] at hn
    rcases hn with ⟨r, hr, h⟩ | h
    · cases hr
      exact h
    · cases h
  have hk : InI (mul64 (fin (-1)) (fin kappa)) (-doubleMax) 0 := by
    simp only [mul64]
    exact round64_inI (by linarith) (by linarith) (isDouble_neg isDouble_doubleMax) isDouble_zero
  obtain ⟨k, hkeq, _, hk0'⟩ := hk
  rw [hkeq]
  simp only [mul64]
  exact round64_nonpos (mul_nonpos_of_nonpos_of_nonneg hk0' hq0)

/-- The value computed past the early exits is a number between 0 and 1 when
the three divisors `2 m m` are positive numbers, kappa is a parameter that the
setter accepts and `g / l3` does not overflow. -/
theorem sheetnessOf64_inI (self : FrangiXiaoSheetnessFunctor ℝ) (gMag l1 l2 l3 : ℝ)
    {da db dc q : ℝ} (h1 : 0 ≤ l1) (h2 : eps ≤ l2) (h23 : l2 ≤ l3) (hg : 0 ≤ gMag)
    (hk0 : 0 ≤ self.m_Kappa) (hk1 : self.m_Kappa ≤ doubleMax)
    (ha : divisor64 self.m_Alpha = fin da) (hda : 0 < da)
    (hb : divisor64 self.m_Beta = fin db) (hdb : 0 < db)
    (hc : divisor64 self.m_C = fin dc) (hdc : 0 < dc)
    (hq : div64 (fin gMag) (fin l3) = fin q) :
    InI (sheetnessOf64 Real.exp Real.sqrt self gMag l1 l2 l3) 0 1 := by
  have h3 : eps ≤ l3 := le_trans h2 h23
  unfold sheetnessOf64
  rw [ha, hb, hc]
  exact mul64_inI_unit (mul64_inI_unit (mul64_inI_unit (sheet64_inI h2 h23 hda)
    (blob64_inI h1 h2 h3 hdb)) (noise64_unit l1 l3 h2 hdc))
    (edge64_inI hk0 hk1 hg (lt_of_lt_of_le eps_pos h3) hq)

/-! ## Exact steps of the gates -/

/-- A gate whose ratio is 0 is 1 when its divisor is a nonzero number. -/
theorem gate64_zero {d : ℝ} (hd : d ≠ 0) : gate64 Real.exp (fin 0) (fin d) = fin 1 := by
  simp only [gate64, mul64, mul_zero, round64_zero, neg, neg_zero, div64, if_neg hd, zero_div,
    exp64, Real.exp_zero, round64_one]

/-- With the smallest absolute value 0 the ratio `Rb` is 0. -/
theorem Rb64_zero {l2 l3 : ℝ} (h2 : eps ≤ l2) (h3 : eps ≤ l3) : Rb64 Real.sqrt 0 l2 l3 = fin 0 := by
  unfold Rb64
  rcases sqrt_divisor_geV h2 h3 with ⟨r, hr, hge⟩ | h
  · have hr0 : r ≠ 0 := (lt_of_lt_of_le eps_pos hge).ne'
    rw [hr]
    simp only [div64, if_neg hr0, zero_div, round64_zero]
  · rw [h]
    rfl

/-- The edge exponent at kappa = 1 for a gradient magnitude and a largest
absolute value whose quotient is a binary64 number. -/
theorem edgeExponent64_one {gMag l3 : ℝ} (h3 : l3 ≠ 0) (hq : IsDouble (gMag / l3)) :
    edgeExponent64 1 gMag l3 = fin (-(gMag / l3)) := by
  have h1 : round64 (-1 * 1 : ℝ) = fin (-1) := by
    rw [mul_one]
    exact isDouble_neg_one
  have hq' : round64 (gMag / l3) = fin (gMag / l3) := hq
  have hn : round64 (-1 * (gMag / l3)) = fin (-(gMag / l3)) := by
    rw [neg_one_mul]
    exact isDouble_neg hq
  simp only [edgeExponent64, mul64, div64, if_neg h3, h1, hq', hn]

theorem sub64_one_zero : sub64 (fin 1) (fin (0 : ℝ)) = fin 1 := by
  simp only [sub64, neg, neg_zero, add64, add_zero, round64_one]

theorem mul64_one_one : mul64 (fin (1 : ℝ)) (fin 1) = fin 1 := by
  simp only [mul64, mul_one, round64_one]

theorem sqrt_pow_sq (k : ℕ) : Real.sqrt ((2 : ℝ) ^ (2 * k)) = 2 ^ k := by
  rw [pow_mul', Real.sqrt_sq (by positivity)]

theorem isDouble_neg_pow (k : ℕ) (hk : k ≤ 971) : IsDouble (-(2 ^ k) : ℝ) :=
  isDouble_neg (isDouble_pow k hk)

/-- The sheetness gate on the absolute values `1` and `2³⁰` with alpha = 1/2:
`exp(-2⁻⁵⁹)` rounds to 1. -/
theorem sheet64_wide : gate64 Real.exp (Ra64 (1 : ℝ) (2 ^ 30)) (fin (1 / 2)) = fin 1 := by
  have hRa : round64 ((1 : ℝ) / 2 ^ 30) = fin (1 / 2 ^ 30) :=
    isDouble_one_over_pow 30 (by norm_num)
  have hsq : round64 ((1 : ℝ) / 2 ^ 30 * (1 / 2 ^ 30)) = fin (1 / 2 ^ 60) := by
    rw [show (1 : ℝ) / 2 ^ 30 * (1 / 2 ^ 30) = 1 / 2 ^ 60 by norm_num]
    exact isDouble_one_over_pow 60 (by norm_num)
  have hdiv : round64 (-(1 / 2 ^ 60) / (1 / 2) : ℝ) = fin (-(1 / 2 ^ 59)) := by
    rw [show (-(1 / 2 ^ 60) / (1 / 2) : ℝ) = -(1 / 2 ^ 59) by norm_num]
    exact isDouble_neg (isDouble_one_over_pow 59 (by norm_num))
  have hexp : round64 (Real.exp (-(1 / 2 ^ 59))) = fin 1 := by
    have hle : Real.exp (-(1 / 2 ^ 59)) ≤ 1 := by
      rw [Real.exp_le_one_iff]
      exact neg_nonpos.mpr (by positivity)
    have hge : 1 - 1 / 2 ^ 59 ≤ Real.exp (-(1 / 2 ^ 59)) := by
      have := Real.add_one_le_exp (-(1 / 2 ^ 59) : ℝ)
      linarith
    have h := @round64_one_sub (1 - Real.exp (-(1 / 2 ^ 59))) (by linarith)
      (lt_of_le_of_lt (by linarith : 1 - Real.exp (-(1 / 2 ^ 59)) ≤ (1 / 2 ^ 59 : ℝ))
        (one_div_lt_one_div_of_lt (by positivity)
          (pow_lt_pow_right₀ (by norm_num) (by norm_num))))
    rwa [sub_sub_cancel] at h
  have h30 : (2 : ℝ) ^ 30 ≠ 0 := by positivity
  have hhalf : (1 / 2 : ℝ) ≠ 0 := by norm_num
  simp only [gate64, Ra64, div64, if_neg h30, if_neg hhalf, hRa, mul64, hsq, neg, hdiv, exp64,
    hexp]

/-- The structure strength on the absolute values `(0, 1, 2³⁰)` is `2³⁰`: the
sum `1 + 2⁶⁰` rounds to `2⁶⁰`. -/
theorem S64_wide : S64 Real.sqrt (0 : ℝ) 1 (2 ^ 30) = fin (2 ^ 30) := by
  have h60 : round64 ((2 : ℝ) ^ 30 * 2 ^ 30) = fin (2 ^ 60) := by
    rw [show (2 : ℝ) ^ 30 * 2 ^ 30 = 2 ^ 60 by norm_num]
    exact isDouble_pow 60 (by norm_num)
  have hadd : round64 ((1 : ℝ) + 2 ^ 60) = fin (2 ^ 60) :=
    round64_pow60_add zero_le_one (le_refl 1)
  have hsq : round64 (Real.sqrt ((2 : ℝ) ^ 60)) = fin (2 ^ 30) := by
    rw [show (60 : ℕ) = 2 * 30 by norm_num, sqrt_pow_sq]
    exact isDouble_pow 30 (by norm_num)
  have hnn : ¬((2 : ℝ) ^ 60 < 0) := not_lt.mpr (by positivity)
  simp only [S64, mul64, mul_zero, mul_one, round64_zero, round64_one, add64, zero_add, h60, hadd,
    sqrt64, if_neg hnn, hsq]

/-- The noise gate on the absolute values `(0, 1, 2³⁰)` with c = 1: `exp(-2⁵⁹)`
rounds to 0. -/
theorem noise64_wide :
    sub64 (fin 1) (gate64 Real.exp (S64 Real.sqrt (0 : ℝ) 1 (2 ^ 30)) (fin 2)) = fin 1 := by
  have h60 : round64 ((2 : ℝ) ^ 30 * 2 ^ 30) = fin (2 ^ 60) := by
    rw [show (2 : ℝ) ^ 30 * 2 ^ 30 = 2 ^ 60 by norm_num]
    exact isDouble_pow 60 (by norm_num)
  have hdiv : round64 (-(2 : ℝ) ^ 60 / 2) = fin (-(2 ^ 59)) := by
    rw [show (-(2 : ℝ) ^ 60 / 2) = -(2 ^ 59) by norm_num]
    exact isDouble_neg_pow 59 (by norm_num)
  have hexp : round64 (Real.exp (-(2 ^ 59))) = fin 0 :=
    round64_exp_small (2 ^ 59) (by norm_num)
  have h2 : (2 : ℝ) ≠ 0 := by norm_num
  rw [S64_wide]
  simp only [gate64, mul64, h60, neg, div64, if_neg h2, hdiv, exp64, hexp]
  exact sub64_one_zero

/-- The result on (0, -1, -2³⁰) with the constructor's alpha, beta and c, kappa
between 0 and 1, and gradient magnitude 0 is exactly 1. -/
theorem Evaluate64_wide (kappa : ℝ) (hk0 : 0 ≤ kappa) (hk1 : kappa ≤ 1) :
    Evaluate64 Real.exp Real.sqrt ⟨1 / 2, 1 / 2, 1, kappa, true⟩ 0 [0, -1, -(2 ^ 30)] = fin 1 := by
  have h30 : (1 : ℝ) ≤ 2 ^ 30 := one_le_pow₀ (by norm_num)
  have h30' : (2 : ℝ) ^ 30 ≠ 0 := by positivity
  have hhalf : (1 / 2 : ℝ) ≠ 0 := by norm_num
  rw [Evaluate64_flat _ _ _ _ _ eps_le_one h30]
  unfold sheetnessOf64
  simp only [divisor64_half, divisor64_one, sheet64_wide, noise64_wide,
    Rb64_zero eps_le_one (le_trans eps_le_one h30), gate64_zero hhalf,
    edge64_zero_gradient hk0 hk1 h30', mul64_one_one]

/-- The result on (0, -1, -1) with the constructor's alpha, beta and c, kappa = 1
and gradient magnitude 4096 is exactly 0: the edge gate `exp(-4096)` rounds
to 0. -/
theorem Evaluate64_steep :
    Evaluate64 Real.exp Real.sqrt ⟨1 / 2, 1 / 2, 1, 1, true⟩ 4096 [0, -1, -1] = fin 0 := by
  have hq : IsDouble ((4096 : ℝ) / 1) := by
    have h := isDouble_pow 12 (by norm_num)
    norm_num at h ⊢
    exact h
  have hexp : round64 (Real.exp (-(4096 / 1))) = fin 0 :=
    round64_exp_small (4096 / 1) (by norm_num)
  rw [Evaluate64_flat _ _ _ _ _ eps_le_one (le_refl 1)]
  unfold sheetnessOf64
  simp only [divisor64_half, divisor64_one, edgeExponent64_one one_ne_zero hq, exp64, hexp]
  exact mul64_inI_zero (gates64_unit_triple (le_refl 0) zero_le_one)

/-! ## A parameter that is zero -/

/-- With alpha = 0 and `l2 = l3` the ratio `Ra` is 1 and the sheetness gate
`exp(-1/0)` is 0. -/
theorem sheet64_alpha_zero {l : ℝ} (hl : eps ≤ l) :
    Ra64 l l = fin 1 ∧ gate64 Real.exp (Ra64 l l) (divisor64 0) = fin 0 := by
  have hl0 : l ≠ 0 := (lt_of_lt_of_le eps_pos hl).ne'
  have hRa : Ra64 l l = fin 1 := by
    simp only [Ra64, div64, if_neg hl0, div_self hl0, round64_one]
  refine ⟨hRa, ?_⟩
  rw [hRa, divisor64_zero]
  have hne : (-1 : ℝ) ≠ 0 := by norm_num
  have hnp : ¬((0 : ℝ) < -1) := by norm_num
  simp only [gate64, mul64, mul_one, round64_one, neg, div64, if_true, signedInf, if_neg hne,
    if_neg hnp, exp64, exp]

/-- With c = 0 the noise gate is 1 on every triple that passes the guard: the
exponent is `-(S * S) / 0` with `S * S` positive. -/
theorem noise64_c_zero (l1 : ℝ) {l2 : ℝ} (l3 : ℝ) (h2 : eps ≤ l2) :
    sub64 (fin 1) (gate64 Real.exp (S64 Real.sqrt l1 l2 l3) (divisor64 0)) = fin 1 := by
  have hpos : PosV (mul64 (S64 Real.sqrt l1 l2 l3) (S64 Real.sqrt l1 l2 l3)) :=
    posV_of_geV (mul64_self_geV (S64_geV l1 l3 h2) (le_of_lt eps_pos) (le_refl _)
      isDouble_eps_sq) (mul_pos eps_pos eps_pos)
  rw [divisor64_zero]
  unfold gate64
  rw [gate64_zero_divisor hpos]
  exact sub64_one_zero

/-- With kappa = 0 the edge exponent is 0 when the quotient `g / l3` does not
exceed the largest binary64 number. -/
theorem edgeExponent64_kappa_zero {gMag l3 : ℝ} (h3 : 0 < l3)
    (hq : |gMag| ≤ doubleMax * l3) : edgeExponent64 0 gMag l3 = fin 0 := by
  have hquot : |gMag / l3| ≤ doubleMax := by
    rw [abs_div, abs_of_pos h3, div_le_iff₀ h3]
    exact hq
  obtain ⟨q, hqeq, _, _⟩ := round64_inI (neg_le_of_abs_le hquot) (le_of_abs_le hquot)
    (isDouble_neg isDouble_doubleMax) isDouble_doubleMax
  simp only [edgeExponent64, mul64, mul_zero, round64_zero, div64, if_neg h3.ne', hqeq, zero_mul]

/-- The result on (0, -1, -2⁶⁰⁰) with alpha = 0 is a NaN: `Ra * Ra` underflows to
0 and the exponent of the sheetness gate is `0/0`. -/
theorem sheet64_underflow :
    Ra64 (1 : ℝ) (2 ^ 600) = fin (1 / 2 ^ 600) ∧
      mul64 (Ra64 (1 : ℝ) (2 ^ 600)) (Ra64 (1 : ℝ) (2 ^ 600)) = fin 0 ∧
      gate64 Real.exp (Ra64 (1 : ℝ) (2 ^ 600)) (divisor64 0) = nan := by
  have h600 : (2 : ℝ) ^ 600 ≠ 0 := by positivity
  have hRa : Ra64 (1 : ℝ) (2 ^ 600) = fin (1 / 2 ^ 600) := by
    simp only [Ra64, div64, if_neg h600]
    exact isDouble_one_over_pow 600 (by norm_num)
  have hsq : round64 ((1 : ℝ) / 2 ^ 600 * (1 / 2 ^ 600)) = fin 0 := by
    apply round64_of_small
    rw [abs_of_nonneg (by positivity), show (1 : ℝ) / 2 ^ 600 * (1 / 2 ^ 600) = 1 / 2 ^ 1200 by
      rw [div_mul_div_comm, one_mul, ← pow_add]]
    exact one_div_lt_one_div_of_lt (by positivity)
      (pow_lt_pow_right₀ (by norm_num) (by norm_num))
  refine ⟨hRa, ?_, ?_⟩
  · rw [hRa]
    simp only [mul64, hsq]
  · rw [hRa, divisor64_zero]
    simp only [gate64, mul64, hsq, neg, neg_zero, div64, if_true, signedInf, exp64, exp]

/-! ## The divisors of `Evaluate64` -/

theorem abs_const {a : ℝ} (h : 0 ≤ a) :
    absMin (-a) (-a) (-a) = a ∧ absMed (-a) (-a) (-a) = a ∧ absMax (-a) (-a) (-a) = a := by
  unfold absMin absMed absMax
  rw [abs_neg, abs_of_nonneg h, min_self, max_self, min_self, max_self]
  exact ⟨rfl, rfl, rfl⟩

theorem round64_pow1400 : round64 ((2 : ℝ) ^ 700 * 2 ^ 700) = pinf :=
  round64_of_large (by
    rw [← pow_add]
    exact pow_le_pow_right₀ (by norm_num) (by norm_num))

/-- The ratio `Rb` on three absolute values `2⁷⁰⁰` is 0: the product `l2 * l3`
overflows. -/
theorem Rb64_huge : Rb64 Real.sqrt ((2 : ℝ) ^ 700) (2 ^ 700) (2 ^ 700) = fin 0 := by
  simp only [Rb64, mul64, round64_pow1400, sqrt64, sqrt, div64, div]

/-- The noise gate on three absolute values `2⁷⁰⁰` is 1: the sum of squares
overflows. -/
theorem noise64_huge :
    sub64 (fin 1) (gate64 Real.exp (S64 Real.sqrt ((2 : ℝ) ^ 700) (2 ^ 700) (2 ^ 700)) (fin 2))
      = fin 1 := by
  have h2 : (2 : ℝ) ≠ 0 := by norm_num
  have hp : (0 : ℝ) < 2 := by norm_num
  have hS : S64 Real.sqrt ((2 : ℝ) ^ 700) (2 ^ 700) (2 ^ 700) = pinf := by
    simp only [S64, mul64, round64_pow1400, add64, add, sqrt64, sqrt]
  rw [hS]
  simp only [gate64, mul64, mul, neg, div64, div, signedInf, if_neg h2, if_pos hp, exp64, exp]
  exact sub64_one_zero

/-- The result on three eigenvalues `-2⁷⁰⁰` with the constructor's alpha, beta
and c, kappa between 0 and 1, and gradient magnitude 0, is a number that is at
least 1/8. -/
theorem Evaluate64_huge (kappa : ℝ) (hk0 : 0 ≤ kappa) (hk1 : kappa ≤ 1) :
    InI (Evaluate64 Real.exp Real.sqrt ⟨1 / 2, 1 / 2, 1, kappa, true⟩ 0
      [-(2 ^ 700), -(2 ^ 700), -(2 ^ 700)]) (1 / 8) 1 := by
  have h700 : (0 : ℝ) < 2 ^ 700 := by positivity
  have hge : (eps : ℝ) ≤ 2 ^ 700 := le_trans eps_le_one (one_le_pow₀ (by norm_num))
  obtain ⟨h1, h2, h3⟩ := abs_const h700.le
  have hhalf : (1 / 2 : ℝ) ≠ 0 := by norm_num
  have hA : InI (gate64 Real.exp (Ra64 ((2 : ℝ) ^ 700) (2 ^ 700)) (fin (1 / 2))) (1 / 8) 1 :=
    gate64_half_inI (Ra64_inI hge (le_refl _))
  rw [Evaluate64_pass _ _ _ _ _ _ _
    (rejected64_bright_nonPos (sum64_nonPos (by linarith) (by linarith) (by linarith)))
    (by rw [h2]; exact hge), h1, h2, h3]
  unfold sheetnessOf64
  simp only [divisor64_half, divisor64_one, Rb64_huge, gate64_zero hhalf, noise64_huge,
    edge64_zero_gradient hk0 hk1 h700.ne']
  exact mul64_inI_one (mul64_inI_one (mul64_inI_one hA isDouble_eighth) isDouble_eighth)
    isDouble_eighth

/-- The closed form of the four gates over the reals on three absolute values
`2⁷⁰⁰` with the constructor's alpha, beta and c and gradient magnitude 0 is at
most 1/9. -/
theorem closed_form_huge (kappa : ℝ) :
    Real.exp (-((2 : ℝ) ^ 700 / 2 ^ 700) ^ 2 / (2 * (1 / 2) ^ 2))
        * Real.exp (-((2 : ℝ) ^ 700 / Real.sqrt (2 ^ 700 * 2 ^ 700)) ^ 2 / (2 * (1 / 2) ^ 2))
        * (1 - Real.exp (-Real.sqrt (((2 : ℝ) ^ 700) ^ 2 + (2 ^ 700) ^ 2 + (2 ^ 700) ^ 2) ^ 2
          / (2 * 1 ^ 2)))
        * Real.exp (-kappa * 0 / (2 : ℝ) ^ 700) ≤ 1 / 9 := by
  have h700 : (0 : ℝ) < 2 ^ 700 := by positivity
  have hsq : Real.sqrt ((2 : ℝ) ^ 700 * 2 ^ 700) = 2 ^ 700 := Real.sqrt_mul_self h700.le
  have e1 : (-((2 : ℝ) ^ 700 / 2 ^ 700) ^ 2 / (2 * (1 / 2) ^ 2)) = -2 := by
    rw [div_self h700.ne']
    norm_num
  have e2 : (-((2 : ℝ) ^ 700 / Real.sqrt (2 ^ 700 * 2 ^ 700)) ^ 2 / (2 * (1 / 2) ^ 2)) = -2 := by
    rw [hsq, div_self h700.ne']
    norm_num
  have e4 : (-kappa * 0 / (2 : ℝ) ^ 700) = 0 := by
    rw [mul_zero, zero_div]
  simp only [e1, e2, e4, Real.exp_zero, mul_one]
  have hle := exp_neg_two_le
  have hpos := Real.exp_pos (-2)
  have h3pos := Real.exp_pos (-Real.sqrt (((2 : ℝ) ^ 700) ^ 2 + (2 ^ 700) ^ 2 + (2 ^ 700) ^ 2) ^ 2
    / (2 * 1 ^ 2))
  have hprod : Real.exp (-2) * Real.exp (-2) ≤ 1 / 3 * (1 / 3) :=
    mul_le_mul hle hle hpos.le (by norm_num)
  have hnn : 0 ≤ Real.exp (-2) * Real.exp (-2) := (mul_pos hpos hpos).le
  calc Real.exp (-2) * Real.exp (-2)
        * (1 - Real.exp (-Real.sqrt (((2 : ℝ) ^ 700) ^ 2 + (2 ^ 700) ^ 2 + (2 ^ 700) ^ 2) ^ 2
          / (2 * 1 ^ 2)))
      ≤ Real.exp (-2) * Real.exp (-2) * 1 :=
        mul_le_mul_of_nonneg_left (by linarith) hnn
    _ ≤ 1 / 9 := by linarith

/-! ## C1, C2: the polarity rejection -/

/-- C1, as stated, fails in binary64: the eigenvalues (1, 2⁻⁶⁰, -1) have the
positive sum 2⁻⁶⁰, but the sum that the code computes, (1 + 2⁻⁶⁰) + (-1), is 0,
so a freshly constructed functor (bright objects) with gradient magnitude 0 does
not reject the triple and returns a number that is at least 1/256, not 0. -/
theorem C1_counterexample :
    (0 : ℝ) < 1 + 1 / 2 ^ 60 + -1 ∧
      IsDouble (1 : ℝ) ∧ IsDouble (1 / 2 ^ 60 : ℝ) ∧ IsDouble (-1 : ℝ) ∧
      sum64 (1 : ℝ) (1 / 2 ^ 60) (-1) = fin 0 ∧
      (∃ r : ℝ, Evaluate64 Real.exp Real.sqrt FrangiXiaoSheetnessFunctor.New 0
          [1, 1 / 2 ^ 60, -1] = fin r ∧ 1 / 256 ≤ r) ∧
      Evaluate64 Real.exp Real.sqrt FrangiXiaoSheetnessFunctor.New 0 [1, 1 / 2 ^ 60, -1]
        ≠ fin 0 := by
  have h := Evaluate64_cancel (8 / 10) true (by norm_num) (by norm_num)
  refine ⟨by norm_num, isDouble_one, isDouble_small, isDouble_neg_one,
    sum64_cancel small_nonneg small_lt, ?_, inI_ne_zero h (by norm_num)⟩
  obtain ⟨r, hr, h1, _⟩ := h
  exact ⟨r, hr, h1⟩

/-- C1, amended. Bright-object polarity rejection: whatever the gradient
magnitude and the parameters alpha, beta, c and kappa, a functor set for bright
objects returns exactly 0 on three eigenvalues whose sum, computed in binary64
as `(e0 + e1) + e2`, is greater than 0. -/
theorem C1_bright_rejects_positive_sum (alpha beta c kappa gMag e0 e1 e2 : ℝ)
    (hsum : lt (fin 0) (sum64 e0 e1 e2) = true) :
    Evaluate64 Real.exp Real.sqrt ⟨alpha, beta, c, kappa, true⟩ gMag [e0, e1, e2] = fin 0 :=
  Evaluate64_rejected _ _ _ _ _ _ _ (by simpa [rejected64] using hsum)

/-- C1, witness of the amended statement: the eigenvalues (1, 2, 3) with the
constructor's parameters. -/
theorem C1_bright_rejects_positive_sum_witness :
    lt (fin 0) (sum64 (1 : ℝ) 2 3) = true ∧
      Evaluate64 Real.exp Real.sqrt ⟨1 / 2, 1 / 2, 1, 8 / 10, true⟩ 0 [1, 2, 3] = fin 0 :=
  ⟨by rw [sum64_one_two_three]; simp [lt],
    C1_bright_rejects_positive_sum (1 / 2) (1 / 2) 1 (8 / 10) 0 1 2 3
      (by rw [sum64_one_two_three]; simp [lt])⟩

/-- C2, as stated, fails in binary64: the eigenvalues (-1, -2⁻⁶⁰, 1) have the
negative sum -2⁻⁶⁰, but the sum that the code computes, (-1 + -2⁻⁶⁰) + 1, is 0,
so a functor set for dark objects, otherwise as constructed, with gradient
magnitude 0 does not reject the triple and returns a number that is at least
1/256, not 0. -/
theorem C2_counterexample :
    (-1 : ℝ) + -(1 / 2 ^ 60) + 1 < 0 ∧
      IsDouble (-1 : ℝ) ∧ IsDouble (-(1 / 2 ^ 60) : ℝ) ∧ IsDouble (1 : ℝ) ∧
      sum64 (-1 : ℝ) (-(1 / 2 ^ 60)) 1 = fin 0 ∧
      (∃ r : ℝ, Evaluate64 Real.exp Real.sqrt ⟨1 / 2, 1 / 2, 1, 8 / 10, false⟩ 0
          [-1, -(1 / 2 ^ 60), 1] = fin r ∧ 1 / 256 ≤ r) ∧
      Evaluate64 Real.exp Real.sqrt ⟨1 / 2, 1 / 2, 1, 8 / 10, false⟩ 0 [-1, -(1 / 2 ^ 60), 1]
        ≠ fin 0 := by
  have h := Evaluate64_cancel_neg (8 / 10) false (by norm_num) (by norm_num)
  refine ⟨by norm_num, isDouble_neg_one, isDouble_neg isDouble_small, isDouble_one,
    sum64_cancel_neg small_nonneg small_lt, ?_, inI_ne_zero h (by norm_num)⟩
  obtain ⟨r, hr, h1, _⟩ := h
  exact ⟨r, hr, h1⟩

/-- C2, amended. Dark-object polarity rejection: whatever the gradient magnitude
and the parameters alpha, beta, c and kappa, a functor set for dark objects
returns exactly 0 on three eigenvalues whose sum, computed in binary64 as
`(e0 + e1) + e2`, is less than 0. -/
theorem C2_dark_rejects_negative_sum (alpha beta c kappa gMag e0 e1 e2 : ℝ)
    (hsum : lt (sum64 e0 e1 e2) (fin 0) = true) :
    Evaluate64 Real.exp Real.sqrt ⟨alpha, beta, c, kappa, false⟩ gMag [e0, e1, e2] = fin 0 :=
  Evaluate64_rejected _ _ _ _ _ _ _ (by simpa [rejected64] using hsum)

/-- C2, witness of the amended statement: the eigenvalues (-1, -2, -3) with the
constructor's parameters and dark objects. -/
theorem C2_dark_rejects_negative_sum_witness :
    lt (sum64 (-1 : ℝ) (-2) (-3)) (fin 0) = true ∧
      Evaluate64 Real.exp Real.sqrt ⟨1 / 2, 1 / 2, 1, 8 / 10, false⟩ 0 [-1, -2, -3] = fin 0 :=
  ⟨by rw [sum64_neg_one_two_three]; simp [lt],
    C2_dark_rejects_negative_sum (1 / 2) (1 / 2) 1 (8 / 10) 0 (-1) (-2) (-3)
      (by rw [sum64_neg_one_two_three]; simp [lt])⟩

/-! ## C3: the order of the eigenvalues -/

/-- C3, as stated, fails in binary64: (1, -1, 2⁻⁶⁰) is an arrangement of
(1, 2⁻⁶⁰, -1); on a freshly constructed functor with gradient magnitude 0 the
first is rejected, its computed sum (1 + -1) + 2⁻⁶⁰ being positive, and returns
0, while the second, whose computed sum (1 + 2⁻⁶⁰) + -1 is 0, returns a number
that is at least 1/256. -/
theorem C3_counterexample :
    [(1 : ℝ), -1, 1 / 2 ^ 60].Perm [1, 1 / 2 ^ 60, -1] ∧
      IsDouble (1 : ℝ) ∧ IsDouble (1 / 2 ^ 60 : ℝ) ∧ IsDouble (-1 : ℝ) ∧
      Evaluate64 Real.exp Real.sqrt FrangiXiaoSheetnessFunctor.New 0 [1, -1, 1 / 2 ^ 60]
        = fin 0 ∧
      (∃ r : ℝ, Evaluate64 Real.exp Real.sqrt FrangiXiaoSheetnessFunctor.New 0
          [1, 1 / 2 ^ 60, -1] = fin r ∧ 1 / 256 ≤ r) ∧
      Evaluate64 Real.exp Real.sqrt FrangiXiaoSheetnessFunctor.New 0 [1, -1, 1 / 2 ^ 60] ≠
        Evaluate64 Real.exp Real.sqrt FrangiXiaoSheetnessFunctor.New 0 [1, 1 / 2 ^ 60, -1] := by
  have h := Evaluate64_cancel (8 / 10) true (by norm_num) (by norm_num)
  have h0 := Evaluate64_late (1 / 2) (1 / 2) 1 (8 / 10) 0
  refine ⟨perm_late, isDouble_one, isDouble_small, isDouble_neg_one, h0, ?_, ?_⟩
  · obtain ⟨r, hr, h1, _⟩ := h
    exact ⟨r, hr, h1⟩
  · intro heq
    exact inI_ne_zero h (by norm_num) (heq.symm.trans h0)

/-- C3, amended. Sort-invariance: for every functor and gradient magnitude,
`Evaluate64` returns the same value on two arrangements of three eigenvalues
whenever the polarity test decides the same on the two computed sums; the
absolute values that enter the formula do not depend on the arrangement. -/
theorem C3_permutation_invariant (self : FrangiXiaoSheetnessFunctor ℝ)
    (gMag a b c e0 e1 e2 : ℝ) (hperm : [a, b, c].Perm [e0, e1, e2])
    (hrej : rejected64 self.m_BrightObject (sum64 a b c) =
      rejected64 self.m_BrightObject (sum64 e0 e1 e2)) :
    Evaluate64 Real.exp Real.sqrt self gMag [a, b, c] =
      Evaluate64 Real.exp Real.sqrt self gMag [e0, e1, e2] := by
  obtain ⟨_, h1, h2, h3⟩ := perm_three hperm
  rw [Evaluate64_three, Evaluate64_three, hrej, h1, h2, h3]

/-- C3, witness of the amended statement: two eigenvalues of equal absolute
value and opposite sign, (2, -2, -5), read in the order (-5, 2, -2). -/
theorem C3_permutation_invariant_witness :
    [(-5 : ℝ), 2, -2].Perm [2, -2, -5] ∧
      Evaluate64 Real.exp Real.sqrt FrangiXiaoSheetnessFunctor.New 3 [-5, 2, -2] =
        Evaluate64 Real.exp Real.sqrt FrangiXiaoSheetnessFunctor.New 3 [2, -2, -5] :=
  ⟨@List.perm_append_comm ℝ [-5] [2, -2],
    C3_permutation_invariant FrangiXiaoSheetnessFunctor.New 3 (-5) 2 (-2) 2 (-2) (-5)
      (@List.perm_append_comm ℝ [-5] [2, -2])
      (by
        have h1 := sum64_of_ints (-5) 2 (-2) (by norm_num) (by norm_num)
        have h2 := sum64_of_ints 2 (-2) (-5) (by norm_num) (by norm_num)
        push_cast at h1 h2
        rw [h1, h2])⟩

/-! ## C14: the order in which the sum is taken -/

/-- C19, as stated, fails in binary64 in its second part: the eigenvalues
(1, 2⁻⁶⁰, -1) have the nonzero sum 2⁻⁶⁰, but the computed sum is 0, so neither
polarity rejects the triple: with the constructor's parameters and gradient
magnitude 0 both polarities return a number that is at least 1/256. -/
theorem C19_counterexample :
    (1 : ℝ) + 1 / 2 ^ 60 + -1 ≠ 0 ∧
      IsDouble (1 : ℝ) ∧ IsDouble (1 / 2 ^ 60 : ℝ) ∧ IsDouble (-1 : ℝ) ∧
      ¬(Evaluate64 Real.exp Real.sqrt ⟨1 / 2, 1 / 2, 1, 8 / 10, true⟩ 0 [1, 1 / 2 ^ 60, -1]
          = fin 0 ∨
        Evaluate64 Real.exp Real.sqrt ⟨1 / 2, 1 / 2, 1, 8 / 10, false⟩ 0 [1, 1 / 2 ^ 60, -1]
          = fin 0) := by
  have ht := Evaluate64_cancel (8 / 10) true (by norm_num) (by norm_num)
  have hf := Evaluate64_cancel (8 / 10) false (by norm_num) (by norm_num)
  refine ⟨by norm_num, isDouble_one, isDouble_small, isDouble_neg_one, ?_⟩
  rintro (h | h)
  · exact inI_ne_zero ht (by norm_num) h
  · exact inI_ne_zero hf (by norm_num) h

/-- C19, amended. Zero-sum triples pass both polarities: when the three
eigenvalues, the last one a binary64 number, sum to 0, the computed sum is 0 and
`Evaluate64` returns the same value for bright and for dark objects, whatever
the gradient magnitude and the parameters; and when the computed sum is not 0,
at least one of the two polarities returns 0. -/
theorem C19_zero_sum_both_polarities (alpha beta c kappa gMag e0 e1 e2 : ℝ) :
    (IsDouble e2 → e0 + e1 + e2 = 0 →
        sum64 e0 e1 e2 = fin 0 ∧
        Evaluate64 Real.exp Real.sqrt ⟨alpha, beta, c, kappa, true⟩ gMag [e0, e1, e2] =
          Evaluate64 Real.exp Real.sqrt ⟨alpha, beta, c, kappa, false⟩ gMag [e0, e1, e2]) ∧
      (sum64 e0 e1 e2 ≠ fin 0 →
        Evaluate64 Real.exp Real.sqrt ⟨alpha, beta, c, kappa, true⟩ gMag [e0, e1, e2] = fin 0 ∨
          Evaluate64 Real.exp Real.sqrt ⟨alpha, beta, c, kappa, false⟩ gMag [e0, e1, e2]
            = fin 0) := by
  constructor
  · intro hd hsum
    have h0 := sum64_zero_of_exact hd hsum
    refine ⟨h0, ?_⟩
    rw [Evaluate64_three, Evaluate64_three, h0, rejected64_zero, rejected64_zero]
    rfl
  · intro hne
    rcases rejected64_of_ne_zero hne with h | h
    · exact Or.inl (Evaluate64_rejected _ _ ⟨alpha, beta, c, kappa, true⟩ _ _ _ _ h)
    · exact Or.inr (Evaluate64_rejected _ _ ⟨alpha, beta, c, kappa, false⟩ _ _ _ _ h)

/-- C19, witness of the amended statement: the zero-sum triple (2, -1, -1) and
the triple (1, 2, 3). -/
theorem C19_zero_sum_both_polarities_witness :
    (sum64 (2 : ℝ) (-1) (-1) = fin 0 ∧
      Evaluate64 Real.exp Real.sqrt ⟨1 / 2, 1 / 2, 1, 8 / 10, true⟩ 3 [2, -1, -1] =
        Evaluate64 Real.exp Real.sqrt ⟨1 / 2, 1 / 2, 1, 8 / 10, false⟩ 3 [2, -1, -1]) ∧
      (Evaluate64 Real.exp Real.sqrt ⟨1 / 2, 1 / 2, 1, 8 / 10, true⟩ 3 [1, 2, 3] = fin 0 ∨
        Evaluate64 Real.exp Real.sqrt ⟨1 / 2, 1 / 2, 1, 8 / 10, false⟩ 3 [1, 2, 3] = fin 0) :=
  ⟨(C19_zero_sum_both_polarities (1 / 2) (1 / 2) 1 (8 / 10) 3 2 (-1) (-1)).1
      isDouble_neg_one (by norm_num),
    (C19_zero_sum_both_polarities (1 / 2) (1 / 2) 1 (8 / 10) 3 1 2 3).2
      (by rw [sum64_one_two_three]; norm_num)⟩

/-! ## C5, C18: the range of the result -/

/-- C5, as stated, fails in binary64: on a freshly constructed functor with
gradient magnitude 0 the eigenvalues (0, -1, -2³⁰) are not rejected and pass the
guard, and the result is exactly 1, not a value below 1: `Ra = 2⁻³⁰` makes the
sheetness gate `exp(-2⁻⁵⁹)`, which rounds to 1, `Rb = 0` makes the blobness gate
1, and `S = 2³⁰` makes `exp(-2⁵⁹)` round to 0, so that the noise gate is 1. -/
theorem C5_counterexample :
    (0 : ℝ) ≤ 0 ∧ (0 : ℝ) < 1 / 2 ∧ (0 : ℝ) < 1 ∧ (0 : ℝ) ≤ 8 / 10 ∧
      IsDouble (-1 : ℝ) ∧ IsDouble (-(2 ^ 30) : ℝ) ∧
      rejected64 true (sum64 (0 : ℝ) (-1) (-(2 ^ 30))) = false ∧
      (eps : ℝ) ≤ absMed 0 (-1) (-(2 ^ 30)) ∧
      Evaluate64 Real.exp Real.sqrt FrangiXiaoSheetnessFunctor.New 0 [0, -1, -(2 ^ 30)]
        = fin 1 ∧
      ¬∃ r : ℝ, Evaluate64 Real.exp Real.sqrt FrangiXiaoSheetnessFunctor.New 0
        [0, -1, -(2 ^ 30)] = fin r ∧ 0 ≤ r ∧ r < 1 := by
  have h30 : (1 : ℝ) ≤ 2 ^ 30 := one_le_pow₀ (by norm_num)
  have h := Evaluate64_wide (8 / 10) (by norm_num) (by norm_num)
  have h' : Evaluate64 Real.exp Real.sqrt FrangiXiaoSheetnessFunctor.New 0 [0, -1, -(2 ^ 30)]
      = fin 1 := h
  refine ⟨le_refl 0, by norm_num, by norm_num, by norm_num, isDouble_neg_one,
    isDouble_neg_pow 30 (by norm_num),
    rejected64_bright_nonPos (sum64_nonPos (le_refl 0) (by norm_num) (by linarith)), ?_, h', ?_⟩
  · rw [(abs_flat zero_le_one h30).2.1]
    exact eps_le_one
  · rintro ⟨r, hr, _, hlt⟩
    rw [h'] at hr
    cases hr
    exact lt_irrefl _ hlt

/-- C5, amended. Output range: for every eigenvalue triple, every gradient
magnitude `g ≥ 0` and every kappa that is not negative, with either polarity,
`Evaluate64` returns a NaN or a number `r` with `0 ≤ r ≤ 1`; and it returns such
a number whenever kappa is at most the largest binary64 number, the three
divisors `2 m m` computed from alpha, beta and c are positive numbers and the
quotient `g / l3` does not overflow. -/
theorem C5_output_range (self : FrangiXiaoSheetnessFunctor ℝ) (gMag e0 e1 e2 : ℝ)
    (hg : 0 ≤ gMag) (hkappa : 0 ≤ self.m_Kappa) :
    (Evaluate64 Real.exp Real.sqrt self gMag [e0, e1, e2] = nan ∨
        ∃ r : ℝ, Evaluate64 Real.exp Real.sqrt self gMag [e0, e1, e2] = fin r ∧ 0 ≤ r ∧ r ≤ 1) ∧
      (self.m_Kappa ≤ doubleMax →
        (∃ d : ℝ, divisor64 self.m_Alpha = fin d ∧ 0 < d) →
        (∃ d : ℝ, divisor64 self.m_Beta = fin d ∧ 0 < d) →
        (∃ d : ℝ, divisor64 self.m_C = fin d ∧ 0 < d) →
        (∃ q : ℝ, div64 (fin gMag) (fin (absMax e0 e1 e2)) = fin q) →
        ∃ r : ℝ, Evaluate64 Real.exp Real.sqrt self gMag [e0, e1, e2] = fin r ∧ 0 ≤ r ∧ r ≤ 1) := by
  have hzero : ∃ r : ℝ, (fin 0 : RealType ℝ) = fin r ∧ 0 ≤ r ∧ r ≤ 1 :=
    ⟨0, rfl, le_refl 0, zero_le_one⟩
  rw [Evaluate64_three]
  by_cases hrej : rejected64 self.m_BrightObject (sum64 e0 e1 e2) = true
  · rw [if_pos hrej]
    exact ⟨Or.inr hzero, fun _ _ _ _ _ => hzero⟩
  · rw [if_neg hrej]
    by_cases hguard : absMed e0 e1 e2 < eps ∨ absMax e0 e1 e2 < eps
    · rw [if_pos hguard]
      exact ⟨Or.inr hzero, fun _ _ _ _ _ => hzero⟩
    · rw [if_neg hguard]
      have hl2 : eps ≤ absMed e0 e1 e2 := not_lt.mp (fun h => hguard (Or.inl h))
      refine ⟨sheetnessOf64_unitOrNaN self gMag _ _ _ (absMin_nonneg e0 e1 e2) hl2
        (absMed_le_absMax e0 e1 e2) hg hkappa, ?_⟩
      rintro hk1 ⟨da, ha, hda⟩ ⟨db, hb, hdb⟩ ⟨dc, hc, hdc⟩ ⟨q, hq⟩
      exact sheetnessOf64_inI self gMag _ _ _ (absMin_nonneg e0 e1 e2) hl2
        (absMed_le_absMax e0 e1 e2) hg hkappa hk1 ha hda hb hdb hc hdc hq

/-- C5, witness of the amended statement: the eigenvalues (0, -1, -1) and
gradient magnitude 2 with alpha = beta = 1/2, c = 1 and kappa = 1. -/
theorem C5_output_range_witness :
    ∃ r : ℝ, Evaluate64 Real.exp Real.sqrt ⟨1 / 2, 1 / 2, 1, 1, true⟩ 2 [0, -1, -1]
      = fin r ∧ 0 ≤ r ∧ r ≤ 1 :=
  (C5_output_range ⟨1 / 2, 1 / 2, 1, 1, true⟩ 2 0 (-1) (-1) (by norm_num) (by norm_num)).2
    (by
      show (1 : ℝ) ≤ doubleMax
      unfold doubleMax
      norm_num)
    ⟨1 / 2, divisor64_half, by norm_num⟩ ⟨1 / 2, divisor64_half, by norm_num⟩
    ⟨2, divisor64_one, by norm_num⟩
    ⟨2, by
      rw [(abs_flat zero_le_one (le_refl (1 : ℝ))).2.2]
      simp only [div64, if_neg one_ne_zero, div_one]
      exact isDouble_two⟩

/-- C18, as stated, fails in binary64: with alpha = beta = 1/2, c = 1, kappa = 1,
bright objects and gradient magnitude 4096 the eigenvalues (0, -1, -1) are
neither polarity-rejected nor degenerate, yet the result is exactly 0 and not a
positive number: the edge gate `exp(-4096)` rounds to 0. -/
theorem C18_counterexample :
    (0 : ℝ) ≤ 4096 ∧ (0 : ℝ) < 1 / 2 ∧ (0 : ℝ) < 1 ∧
      IsDouble (4096 : ℝ) ∧ IsDouble (-1 : ℝ) ∧
      ¬((0 : ℝ) < 0 + -1 + -1) ∧
      rejected64 true (sum64 (0 : ℝ) (-1) (-1)) = false ∧
      ¬(absMed (0 : ℝ) (-1) (-1) < eps) ∧
      Evaluate64 Real.exp Real.sqrt ⟨1 / 2, 1 / 2, 1, 1, true⟩ 4096 [0, -1, -1] = fin 0 := by
  refine ⟨by norm_num, by norm_num, by norm_num, ?_, isDouble_neg_one, by norm_num,
    rejected64_bright_nonPos (sum64_nonPos (le_refl 0) (by norm_num) (by norm_num)), ?_,
    Evaluate64_steep⟩
  · have h := isDouble_pow 12 (by norm_num)
    norm_num at h
    exact h
  · rw [(abs_flat zero_le_one (le_refl (1 : ℝ))).2.1]
    exact not_lt.mpr eps_le_one

/-- C18, amended. Zero when rejected or degenerate: for `g ≥ 0` and kappa not
negative, `Evaluate64` returns 0 when the polarity test rejects the computed sum
or the median absolute value is below `eps`; otherwise it returns the product of
the four gates computed in binary64, which is a NaN or a number between 0 and 1
and may itself be 0. -/
theorem C18_zero_iff_rejected_or_degenerate (self : FrangiXiaoSheetnessFunctor ℝ)
    (gMag e0 e1 e2 : ℝ) (hg : 0 ≤ gMag) (hkappa : 0 ≤ self.m_Kappa) :
    ((rejected64 self.m_BrightObject (sum64 e0 e1 e2) = true ∨ absMed e0 e1 e2 < eps) →
        Evaluate64 Real.exp Real.sqrt self gMag [e0, e1, e2] = fin 0) ∧
      (¬(rejected64 self.m_BrightObject (sum64 e0 e1 e2) = true ∨ absMed e0 e1 e2 < eps) →
        Evaluate64 Real.exp Real.sqrt self gMag [e0, e1, e2] =
            sheetnessOf64 Real.exp Real.sqrt self gMag (absMin e0 e1 e2) (absMed e0 e1 e2)
              (absMax e0 e1 e2) ∧
          (Evaluate64 Real.exp Real.sqrt self gMag [e0, e1, e2] = nan ∨
            ∃ r : ℝ, Evaluate64 Real.exp Real.sqrt self gMag [e0, e1, e2] = fin r ∧
              0 ≤ r ∧ r ≤ 1)) := by
  constructor
  · rintro (h | h)
    · exact Evaluate64_rejected _ _ _ _ _ _ _ h
    · exact Evaluate64_degenerate _ _ _ _ _ _ _ h
  · intro h
    have hrej : rejected64 self.m_BrightObject (sum64 e0 e1 e2) = false := by
      cases hr : rejected64 self.m_BrightObject (sum64 e0 e1 e2)
      · rfl
      · exact absurd (Or.inl hr) h
    have hl2 : eps ≤ absMed e0 e1 e2 := not_lt.mp (fun hlt => h (Or.inr hlt))
    have hpass := Evaluate64_pass Real.exp Real.sqrt self gMag e0 e1 e2 hrej hl2
    refine ⟨hpass, ?_⟩
    rw [hpass]
    exact sheetnessOf64_unitOrNaN self gMag _ _ _ (absMin_nonneg e0 e1 e2) hl2
      (absMed_le_absMax e0 e1 e2) hg hkappa

/-- C18, witness of the amended statement: the eigenvalues (1, 2, 3) are rejected
by a freshly constructed functor. -/
theorem C18_zero_iff_rejected_or_degenerate_witness :
    Evaluate64 Real.exp Real.sqrt FrangiXiaoSheetnessFunctor.New 2 [1, 2, 3] = fin 0 :=
  (C18_zero_iff_rejected_or_degenerate FrangiXiaoSheetnessFunctor.New 2 1 2 3 (by norm_num)
    (by norm_num [FrangiXiaoSheetnessFunctor.New])).1
    (Or.inl (by rw [sum64_one_two_three]; simp [rejected64, lt, FrangiXiaoSheetnessFunctor.New]))

/-! ## C10, C11: alpha = 0 -/

/-- C10: with alpha = 0, beta = 1/2, c = 1, kappa = 8/10, bright objects and
gradient magnitude 0, the eigenvalues (0, -1, -2⁶⁰⁰) are not rejected, pass the
guard and have `Ra = 2⁻⁶⁰⁰`, which is not 0; the product `Ra * Ra` underflows to
0, the exponent of the sheetness gate is `0/0`, the gate is a NaN and `Evaluate64`
returns a NaN instead of 0. -/
theorem C10_nan_for_alpha_zero :
    IsDouble (-1 : ℝ) ∧ IsDouble (-(2 ^ 600) : ℝ) ∧
      rejected64 true (sum64 (0 : ℝ) (-1) (-(2 ^ 600))) = false ∧
      (eps : ℝ) ≤ absMed 0 (-1) (-(2 ^ 600)) ∧
      Ra64 (absMed (0 : ℝ) (-1) (-(2 ^ 600))) (absMax (0 : ℝ) (-1) (-(2 ^ 600)))
        = fin (1 / 2 ^ 600) ∧
      (1 / 2 ^ 600 : ℝ) ≠ 0 ∧
      gate64 Real.exp (Ra64 (absMed (0 : ℝ) (-1) (-(2 ^ 600))) (absMax (0 : ℝ) (-1) (-(2 ^ 600))))
        (divisor64 0) = nan ∧
      Evaluate64 Real.exp Real.sqrt ⟨0, 1 / 2, 1, 8 / 10, true⟩ 0 [0, -1, -(2 ^ 600)] = nan := by
  have h600 : (1 : ℝ) ≤ 2 ^ 600 := one_le_pow₀ (by norm_num)
  obtain ⟨_, h2, h3⟩ := abs_flat zero_le_one h600
  obtain ⟨hRa, _, hgate⟩ := sheet64_underflow
  refine ⟨isDouble_neg_one, isDouble_neg_pow 600 (by norm_num),
    rejected64_bright_nonPos (sum64_nonPos (le_refl 0) (by norm_num) (by linarith)), ?_, ?_,
    by positivity, ?_, ?_⟩
  · rw [h2]
    exact eps_le_one
  · rw [h2, h3]
    exact hRa
  · rw [h2, h3]
    exact hgate
  · rw [Evaluate64_flat _ _ _ _ _ eps_le_one h600]
    unfold sheetnessOf64
    simp only [hgate, mul64_nan_left]

/-- C11, as stated, fails: with alpha = 0, beta = 1/2, c = 1, kappa = 8/10, bright
objects, gradient magnitude 0 and eigenvalues (0, -1, -1), the two largest
absolute values are equal, the sheetness gate is 0 and not 1, and `Evaluate64`
returns 0, while the product of the blobness, noise and edge gates is a number
that is at least 1/256. -/
theorem C11_counterexample :
    absMed (0 : ℝ) (-1) (-1) = absMax (0 : ℝ) (-1) (-1) ∧
      rejected64 true (sum64 (0 : ℝ) (-1) (-1)) = false ∧
      (eps : ℝ) ≤ absMed 0 (-1) (-1) ∧
      gate64 Real.exp (Ra64 (absMed (0 : ℝ) (-1) (-1)) (absMax (0 : ℝ) (-1) (-1))) (divisor64 0)
        = fin 0 ∧
      gate64 Real.exp (Ra64 (absMed (0 : ℝ) (-1) (-1)) (absMax (0 : ℝ) (-1) (-1))) (divisor64 0)
        ≠ fin 1 ∧
      Evaluate64 Real.exp Real.sqrt ⟨0, 1 / 2, 1, 8 / 10, true⟩ 0 [0, -1, -1] = fin 0 ∧
      (∃ r : ℝ, mul64 (mul64
            (gate64 Real.exp (Rb64 Real.sqrt (absMin (0 : ℝ) (-1) (-1)) (absMed (0 : ℝ) (-1) (-1))
              (absMax (0 : ℝ) (-1) (-1))) (divisor64 (1 / 2)))
            (sub64 (fin 1) (gate64 Real.exp (S64 Real.sqrt (absMin (0 : ℝ) (-1) (-1))
              (absMed (0 : ℝ) (-1) (-1)) (absMax (0 : ℝ) (-1) (-1))) (divisor64 1))))
          (exp64 Real.exp (edgeExponent64 (8 / 10) 0 (absMax (0 : ℝ) (-1) (-1)))) = fin r ∧
        1 / 256 ≤ r) := by
  obtain ⟨h1, h2, h3⟩ := abs_flat zero_le_one (le_refl (1 : ℝ))
  have hgate := (sheet64_alpha_zero eps_le_one).2
  have hD := @edge64_zero_gradient (8 / 10) 1 (by norm_num) (by norm_num) one_ne_zero
  have hB : InI (gate64 Real.exp (Rb64 Real.sqrt 0 1 1) (fin (1 / 2))) (1 / 8) 1 :=
    gate64_half_inI (Rb64_unit_triple (le_refl 0) zero_le_one)
  have hC := noise64_inI (S64_unit_triple (le_refl 0) zero_le_one)
  have h32 : IsDouble (1 / 256 : ℝ) := isDouble_one_over_256
  have hBC := mul64_inI_lower hB hC (by norm_num) (by norm_num)
    (by norm_num : (1 / 256 : ℝ) ≤ _) h32
  have hBCD := mul64_inI_one hBC h32
  have hB01 : InI (gate64 Real.exp (Rb64 Real.sqrt 0 1 1) (fin (1 / 2))) 0 1 :=
    inI_mono hB (by norm_num) (le_refl 1)
  have hC01 := inI_mono hC (by norm_num : (0 : ℝ) ≤ 1 / 4) (le_refl 1)
  rw [h1, h2, h3]
  refine ⟨rfl, rejected64_bright_nonPos (sum64_nonPos (le_refl 0) (by norm_num) (by norm_num)),
    eps_le_one, hgate, ?_, ?_, ?_⟩
  · rw [hgate]
    exact fun h => zero_ne_one (RealType.fin.inj h)
  · rw [Evaluate64_flat _ _ _ _ _ eps_le_one (le_refl 1)]
    unfold sheetnessOf64
    simp only [hgate, divisor64_half, divisor64_one, hD, mul64_zero_inI hB01, mul64_zero_inI hC01]
    simp only [mul64, zero_mul, round64_zero]
  · simp only [divisor64_half, divisor64_one, hD]
    obtain ⟨r, hr, hlo, _⟩ := hBCD
    exact ⟨r, hr, hlo⟩

/-- C11, amended. alpha = 0 with `l2 = l3`: for a triple that is not rejected and
whose median and largest absolute values are equal and reach `eps`, the ratio
`Ra` is 1, the sheetness gate `exp(-Ra²/(2·0·0))` is 0, and `Evaluate64` returns
0 or a NaN, whatever beta, c, kappa and the gradient magnitude; it returns 0
when the gradient magnitude and kappa are not negative, kappa is at most the
largest binary64 number, the divisors `2 m m` of beta and c are positive numbers
and `g / l3` does not overflow. -/
theorem C11_alpha_zero_equal_l2_l3 (beta c kappa : ℝ) (bright : Bool) (gMag e0 e1 e2 : ℝ)
    (hrej : rejected64 bright (sum64 e0 e1 e2) = false)
    (hl2 : eps ≤ absMed e0 e1 e2) (heq : absMed e0 e1 e2 = absMax e0 e1 e2) :
    Ra64 (absMed e0 e1 e2) (absMax e0 e1 e2) = fin 1 ∧
      gate64 Real.exp (Ra64 (absMed e0 e1 e2) (absMax e0 e1 e2)) (divisor64 0) = fin 0 ∧
      (Evaluate64 Real.exp Real.sqrt ⟨0, beta, c, kappa, bright⟩ gMag [e0, e1, e2] = fin 0 ∨
        Evaluate64 Real.exp Real.sqrt ⟨0, beta, c, kappa, bright⟩ gMag [e0, e1, e2] = nan) ∧
      (0 ≤ gMag → 0 ≤ kappa → kappa ≤ doubleMax →
        (∃ d : ℝ, divisor64 beta = fin d ∧ 0 < d) →
        (∃ d : ℝ, divisor64 c = fin d ∧ 0 < d) →
        (∃ q : ℝ, div64 (fin gMag) (fin (absMax e0 e1 e2)) = fin q) →
        Evaluate64 Real.exp Real.sqrt ⟨0, beta, c, kappa, bright⟩ gMag [e0, e1, e2] = fin 0) := by
  have hl3 : eps ≤ absMax e0 e1 e2 := heq ▸ hl2
  have hpass := Evaluate64_pass Real.exp Real.sqrt ⟨0, beta, c, kappa, bright⟩ gMag e0 e1 e2
    hrej hl2
  have hgate : gate64 Real.exp (Ra64 (absMed e0 e1 e2) (absMax e0 e1 e2)) (divisor64 0)
      = fin 0 := by
    rw [heq]
    exact (sheet64_alpha_zero hl3).2
  refine ⟨by rw [heq]; exact (sheet64_alpha_zero hl3).1, hgate, ?_, ?_⟩
  · rw [hpass]
    unfold sheetnessOf64
    simp only [hgate]
    exact mul64_zero_or_nan (mul64_zero_or_nan (mul64_zero_left _) _) _
  · rintro hg hk0 hk1 ⟨db, hb, hdb⟩ ⟨dc, hc, hdc⟩ ⟨q, hq⟩
    rw [hpass]
    unfold sheetnessOf64
    simp only [hgate, hb, hc]
    rw [mul64_zero_inI (blob64_inI (absMin_nonneg e0 e1 e2) hl2 hl3 hdb),
      mul64_zero_inI (noise64_unit _ _ hl2 hdc),
      mul64_zero_inI (edge64_inI hk0 hk1 hg (lt_of_lt_of_le eps_pos hl3) hq)]

/-- C11, witness of the amended statement: alpha = 0 on the eigenvalues
(0, -1, -1) with gradient magnitude 3. -/
theorem C11_alpha_zero_equal_l2_l3_witness :
    rejected64 true (sum64 (0 : ℝ) (-1) (-1)) = false ∧
      (eps : ℝ) ≤ absMed 0 (-1) (-1) ∧
      absMed (0 : ℝ) (-1) (-1) = absMax (0 : ℝ) (-1) (-1) ∧
      (Evaluate64 Real.exp Real.sqrt ⟨0, 1 / 2, 1, 8 / 10, true⟩ 3 [0, -1, -1] = fin 0 ∨
        Evaluate64 Real.exp Real.sqrt ⟨0, 1 / 2, 1, 8 / 10, true⟩ 3 [0, -1, -1] = nan) :=
  have h := abs_flat zero_le_one (le_refl (1 : ℝ))
  have hrej : rejected64 true (sum64 (0 : ℝ) (-1) (-1)) = false :=
    rejected64_bright_nonPos (sum64_nonPos (le_refl 0) (by norm_num) (by norm_num))
  have hl2 : (eps : ℝ) ≤ absMed 0 (-1) (-1) := by
    rw [h.2.1]
    exact eps_le_one
  have heq : absMed (0 : ℝ) (-1) (-1) = absMax (0 : ℝ) (-1) (-1) := by
    rw [h.2.1, h.2.2]
  ⟨hrej, hl2, heq,
    (C11_alpha_zero_equal_l2_l3 (1 / 2) 1 (8 / 10) true 3 0 (-1) (-1) hrej hl2 heq).2.2.1⟩

/-! ## C12: kappa = 0 -/

/-- C12, as stated, fails in binary64: with kappa = 0, alpha = beta = 1/2, c = 1
and bright objects, on the eigenvalues (0, -1/2, -1/2) the gradient magnitude
2¹⁰²³ makes the quotient `g / l3` overflow, the edge exponent is `0 * inf`, a NaN,
and `Evaluate64` returns a NaN, while for the gradient magnitude 0 it returns a
number. -/
theorem C12_counterexample :
    IsDouble (2 ^ 1023 : ℝ) ∧ IsDouble (-(1 / 2) : ℝ) ∧
      Evaluate64 Real.exp Real.sqrt ⟨1 / 2, 1 / 2, 1, 0, true⟩ (2 ^ 1023) [0, -(1 / 2), -(1 / 2)]
        = nan ∧
      (∃ r : ℝ, Evaluate64 Real.exp Real.sqrt ⟨1 / 2, 1 / 2, 1, 0, true⟩ 0
        [0, -(1 / 2), -(1 / 2)] = fin r) ∧
      Evaluate64 Real.exp Real.sqrt ⟨1 / 2, 1 / 2, 1, 0, true⟩ (2 ^ 1023) [0, -(1 / 2), -(1 / 2)]
        ≠ Evaluate64 Real.exp Real.sqrt ⟨1 / 2, 1 / 2, 1, 0, true⟩ 0 [0, -(1 / 2), -(1 / 2)] := by
  have hhalf : (eps : ℝ) ≤ 1 / 2 := by
    unfold eps
    exact one_div_le_one_div_of_le (by norm_num) (by norm_num)
  have hne : (1 / 2 : ℝ) ≠ 0 := by norm_num
  have hbig : IsDouble (2 ^ 1023 : ℝ) := by
    have h := isDouble_int_mul_pow (2 ^ 52) 971 (by norm_num) (by norm_num)
    rw [cast_two_pow, ← pow_add] at h
    exact h
  have hnan : Evaluate64 Real.exp Real.sqrt ⟨1 / 2, 1 / 2, 1, 0, true⟩ (2 ^ 1023)
      [0, -(1 / 2), -(1 / 2)] = nan := by
    have hov : round64 ((2 : ℝ) ^ 1023 / (1 / 2)) = pinf :=
      round64_of_large (by
        rw [show (2 : ℝ) ^ 1023 / (1 / 2) = 2 ^ 1024 by norm_num])
    have hedge : edgeExponent64 0 ((2 : ℝ) ^ 1023) (1 / 2) = nan := by
      simp only [edgeExponent64, mul64, mul_zero, round64_zero, div64, if_neg hne, hov, mul,
        signedInf, if_true]
    rw [Evaluate64_flat _ _ _ _ _ hhalf (le_refl _)]
    unfold sheetnessOf64
    simp only [hedge, exp64, exp, mul64_nan_right]
  have hfin : ∃ r : ℝ, Evaluate64 Real.exp Real.sqrt ⟨1 / 2, 1 / 2, 1, 0, true⟩ 0
      [0, -(1 / 2), -(1 / 2)] = fin r := by
    rw [Evaluate64_flat _ _ _ _ _ hhalf (le_refl _)]
    have hq : div64 (fin (0 : ℝ)) (fin (1 / 2 : ℝ)) = fin 0 := by
      simp only [div64, if_neg hne, zero_div, round64_zero]
    obtain ⟨r, hr, _, _⟩ := @sheetnessOf64_inI ⟨1 / 2, 1 / 2, 1, 0, true⟩ 0 0 (1 / 2) (1 / 2)
      (1 / 2) (1 / 2) 2 0 (le_refl 0) hhalf (le_refl _) (le_refl 0) (le_refl 0)
      (by
        show (0 : ℝ) ≤ doubleMax
        unfold doubleMax
        norm_num)
      divisor64_half (by norm_num) divisor64_half (by norm_num) divisor64_one (by norm_num) hq
    exact ⟨r, hr⟩
  refine ⟨hbig, isDouble_neg_half, hnan, hfin, ?_⟩
  obtain ⟨r, hr⟩ := hfin
  rw [hnan, hr]
  intro h
  cases h

/-- C12, amended. kappa = 0 disables the edge suppression: for every eigenvalue
triple, every alpha, beta, c and polarity, `Evaluate64` with kappa = 0 returns the
same value for any two gradient magnitudes whose quotient by the largest
absolute value `l3` does not exceed the largest binary64 number. -/
theorem C12_kappa_zero_ignores_gradient (alpha beta c : ℝ) (bright : Bool)
    (gMag gMag' e0 e1 e2 : ℝ) (hq : |gMag| ≤ doubleMax * absMax e0 e1 e2)
    (hq' : |gMag'| ≤ doubleMax * absMax e0 e1 e2) :
    Evaluate64 Real.exp Real.sqrt ⟨alpha, beta, c, 0, bright⟩ gMag [e0, e1, e2] =
      Evaluate64 Real.exp Real.sqrt ⟨alpha, beta, c, 0, bright⟩ gMag' [e0, e1, e2] := by
  rw [Evaluate64_three, Evaluate64_three]
  by_cases hrej : rejected64 bright (sum64 e0 e1 e2) = true
  · rw [if_pos hrej, if_pos hrej]
  · rw [if_neg hrej, if_neg hrej]
    by_cases hguard : absMed e0 e1 e2 < eps ∨ absMax e0 e1 e2 < eps
    · rw [if_pos hguard, if_pos hguard]
    · rw [if_neg hguard, if_neg hguard]
      have hl3 : 0 < absMax e0 e1 e2 :=
        lt_of_lt_of_le eps_pos (not_lt.mp (fun h => hguard (Or.inr h)))
      unfold sheetnessOf64
      simp only [edgeExponent64_kappa_zero hl3 hq, edgeExponent64_kappa_zero hl3 hq']

/-- C12, witness of the amended statement: the gradient magnitudes 0 and 7 on
the eigenvalues (0, -1, -1) with the constructor's alpha, beta and c. -/
theorem C12_kappa_zero_ignores_gradient_witness :
    Evaluate64 Real.exp Real.sqrt ⟨1 / 2, 1 / 2, 1, 0, true⟩ 0 [0, -1, -1] =
      Evaluate64 Real.exp Real.sqrt ⟨1 / 2, 1 / 2, 1, 0, true⟩ 7 [0, -1, -1] :=
  C12_kappa_zero_ignores_gradient (1 / 2) (1 / 2) 1 true 0 7 0 (-1) (-1)
    (by
      rw [(abs_flat zero_le_one (le_refl (1 : ℝ))).2.2]
      unfold doubleMax
      norm_num)
    (by
      rw [(abs_flat zero_le_one (le_refl (1 : ℝ))).2.2]
      unfold doubleMax
      norm_num)

/-! ## C16: c = 0 -/

/-- C16, as stated, fails: with c = 0, alpha = beta = 1/2, kappa = 8/10, bright
objects, gradient magnitude 0 and eigenvalues (0, -1, -1), a triple that is not
rejected and passes the guard, the noise gate is 1 and not 0, and `Evaluate64`
returns a number that is at least 1/256, not 0. -/
theorem C16_counterexample :
    rejected64 true (sum64 (0 : ℝ) (-1) (-1)) = false ∧
      (eps : ℝ) ≤ absMed 0 (-1) (-1) ∧
      sub64 (fin 1) (gate64 Real.exp (S64 Real.sqrt (absMin (0 : ℝ) (-1) (-1))
          (absMed (0 : ℝ) (-1) (-1)) (absMax (0 : ℝ) (-1) (-1))) (divisor64 0)) = fin 1 ∧
      sub64 (fin 1) (gate64 Real.exp (S64 Real.sqrt (absMin (0 : ℝ) (-1) (-1))
          (absMed (0 : ℝ) (-1) (-1)) (absMax (0 : ℝ) (-1) (-1))) (divisor64 0)) ≠ fin 0 ∧
      (∃ r : ℝ, Evaluate64 Real.exp Real.sqrt ⟨1 / 2, 1 / 2, 0, 8 / 10, true⟩ 0 [0, -1, -1]
        = fin r ∧ 1 / 256 ≤ r) ∧
      Evaluate64 Real.exp Real.sqrt ⟨1 / 2, 1 / 2, 0, 8 / 10, true⟩ 0 [0, -1, -1] ≠ fin 0 := by
  obtain ⟨h1, h2, h3⟩ := abs_flat zero_le_one (le_refl (1 : ℝ))
  have hnoise := noise64_c_zero 0 1 (eps_le_one)
  have hD := @edge64_zero_gradient (8 / 10) 1 (by norm_num) (by norm_num) one_ne_zero
  have hA : InI (gate64 Real.exp (Ra64 (1 : ℝ) 1) (fin (1 / 2))) (1 / 8) 1 :=
    gate64_half_inI (Ra64_inI eps_le_one (le_refl 1))
  have hB : InI (gate64 Real.exp (Rb64 Real.sqrt 0 1 1) (fin (1 / 2))) (1 / 8) 1 :=
    gate64_half_inI (Rb64_unit_triple (le_refl 0) zero_le_one)
  have hAB := mul64_inI_lower hA hB (by norm_num) (by norm_num)
    (by norm_num : (1 / 256 : ℝ) ≤ _) isDouble_one_over_256
  have hres : InI (Evaluate64 Real.exp Real.sqrt ⟨1 / 2, 1 / 2, 0, 8 / 10, true⟩ 0 [0, -1, -1])
      (1 / 256) 1 := by
    rw [Evaluate64_flat _ _ _ _ _ eps_le_one (le_refl 1)]
    unfold sheetnessOf64
    simp only [hnoise, divisor64_half, hD]
    exact mul64_inI_one (mul64_inI_one hAB isDouble_one_over_256) isDouble_one_over_256
  rw [h1, h2, h3]
  refine ⟨rejected64_bright_nonPos (sum64_nonPos (le_refl 0) (by norm_num) (by norm_num)),
    eps_le_one, hnoise, ?_, ?_, inI_ne_zero hres (by norm_num)⟩
  · rw [hnoise]
    exact fun h => one_ne_zero (RealType.fin.inj h)
  · obtain ⟨r, hr, hlo, _⟩ := hres
    exact ⟨r, hr, hlo⟩

/-- C16, amended. c = 0 with nonzero structure strength: for a triple that is not
rejected and whose median absolute value reaches `eps`, whatever alpha, beta,
kappa and the gradient magnitude, with c = 0 the noise gate is 1 (the noise
suppression is off) and `Evaluate64` returns the product, computed in binary64,
of the sheetness, blobness and edge gates. -/
theorem C16_c_zero_noise_gate_one (alpha beta kappa : ℝ) (bright : Bool) (gMag e0 e1 e2 : ℝ)
    (hrej : rejected64 bright (sum64 e0 e1 e2) = false) (hl2 : eps ≤ absMed e0 e1 e2) :
    sub64 (fin 1) (gate64 Real.exp (S64 Real.sqrt (absMin e0 e1 e2) (absMed e0 e1 e2)
        (absMax e0 e1 e2)) (divisor64 0)) = fin 1 ∧
      Evaluate64 Real.exp Real.sqrt ⟨alpha, beta, 0, kappa, bright⟩ gMag [e0, e1, e2] =
        mul64 (mul64
            (gate64 Real.exp (Ra64 (absMed e0 e1 e2) (absMax e0 e1 e2)) (divisor64 alpha))
            (gate64 Real.exp (Rb64 Real.sqrt (absMin e0 e1 e2) (absMed e0 e1 e2)
              (absMax e0 e1 e2)) (divisor64 beta)))
          (exp64 Real.exp (edgeExponent64 kappa gMag (absMax e0 e1 e2))) := by
  have hnoise := noise64_c_zero (absMin e0 e1 e2) (absMax e0 e1 e2) hl2
  refine ⟨hnoise, ?_⟩
  rw [Evaluate64_pass Real.exp Real.sqrt ⟨alpha, beta, 0, kappa, bright⟩ gMag e0 e1 e2 hrej hl2]
  unfold sheetnessOf64
  simp only [hnoise, mul64_mul64_one]

/-- C16, witness of the amended statement: c = 0 on the eigenvalues (0, -1, -1)
with gradient magnitude 2. -/
theorem C16_c_zero_noise_gate_one_witness :
    rejected64 true (sum64 (0 : ℝ) (-1) (-1)) = false ∧
      (eps : ℝ) ≤ absMed 0 (-1) (-1) ∧
      sub64 (fin 1) (gate64 Real.exp (S64 Real.sqrt (absMin (0 : ℝ) (-1) (-1))
        (absMed (0 : ℝ) (-1) (-1)) (absMax (0 : ℝ) (-1) (-1))) (divisor64 0)) = fin 1 :=
  have hrej : rejected64 true (sum64 (0 : ℝ) (-1) (-1)) = false :=
    rejected64_bright_nonPos (sum64_nonPos (le_refl 0) (by norm_num) (by norm_num))
  have hl2 : (eps : ℝ) ≤ absMed 0 (-1) (-1) := by
    rw [(abs_flat zero_le_one (le_refl (1 : ℝ))).2.1]
    exact eps_le_one
  ⟨hrej, hl2,
    (C16_c_zero_noise_gate_one (1 / 2) (1 / 2) (8 / 10) true 2 0 (-1) (-1) hrej hl2).1⟩

/-! ## C15: the divisors -/

/-- C4, as stated, fails in binary64: on a freshly constructed functor with
gradient magnitude 0 the three eigenvalues `-2⁷⁰⁰` are not rejected and pass the
guard, with `l1 = l2 = l3 = 2⁷⁰⁰`; the product `l2 * l3` overflows, so `Rb` is
computed as 0 and the blobness gate as 1, and `Evaluate64` returns a number that
is at least 1/8, while the closed form over the reals, whose blobness gate is
`exp(-2)`, is at most 1/9. -/
theorem C4_counterexample :
    IsDouble (-(2 ^ 700) : ℝ) ∧
      rejected64 true (sum64 (-(2 ^ 700) : ℝ) (-(2 ^ 700)) (-(2 ^ 700))) = false ∧
      (eps : ℝ) ≤ absMed (-(2 ^ 700)) (-(2 ^ 700)) (-(2 ^ 700)) ∧
      absMin (-(2 ^ 700) : ℝ) (-(2 ^ 700)) (-(2 ^ 700)) = 2 ^ 700 ∧
      absMed (-(2 ^ 700) : ℝ) (-(2 ^ 700)) (-(2 ^ 700)) = 2 ^ 700 ∧
      absMax (-(2 ^ 700) : ℝ) (-(2 ^ 700)) (-(2 ^ 700)) = 2 ^ 700 ∧
      (∃ r : ℝ, Evaluate64 Real.exp Real.sqrt FrangiXiaoSheetnessFunctor.New 0
          [-(2 ^ 700), -(2 ^ 700), -(2 ^ 700)] = fin r ∧ 1 / 8 ≤ r) ∧
      Real.exp (-((2 : ℝ) ^ 700 / 2 ^ 700) ^ 2 / (2 * (1 / 2) ^ 2))
          * Real.exp (-((2 : ℝ) ^ 700 / Real.sqrt (2 ^ 700 * 2 ^ 700)) ^ 2 / (2 * (1 / 2) ^ 2))
          * (1 - Real.exp (-Real.sqrt (((2 : ℝ) ^ 700) ^ 2 + (2 ^ 700) ^ 2 + (2 ^ 700) ^ 2) ^ 2
            / (2 * 1 ^ 2)))
          * Real.exp (-(8 / 10) * 0 / (2 : ℝ) ^ 700) ≤ 1 / 9 := by
  have h700 : (0 : ℝ) < 2 ^ 700 := by positivity
  have hge : (eps : ℝ) ≤ 2 ^ 700 := le_trans eps_le_one (one_le_pow₀ (by norm_num))
  obtain ⟨h1, h2, h3⟩ := abs_const h700.le
  have hE : InI (Evaluate64 Real.exp Real.sqrt FrangiXiaoSheetnessFunctor.New 0
      [-(2 ^ 700), -(2 ^ 700), -(2 ^ 700)]) (1 / 8) 1 :=
    Evaluate64_huge (8 / 10) (by norm_num) (by norm_num)
  obtain ⟨r, hr, hlo, _⟩ := hE
  refine ⟨isDouble_neg_pow 700 (by norm_num),
    rejected64_bright_nonPos (sum64_nonPos (by linarith) (by linarith) (by linarith)), ?_,
    h1, h2, h3, ⟨r, hr, hlo⟩, closed_form_huge (8 / 10)⟩
  rw [h2]
  exact hge

/-- C4, amended. Result past the early exits: for every eigenvalue triple that
is not polarity-rejected and whose second-smallest absolute value is at least
`eps`, with `l1 ≤ l2 ≤ l3` the minimum, median and maximum of the three absolute
values, `Evaluate64` returns the product of the four gates
`exp(-Ra²/(2 alpha²))`, `exp(-Rb²/(2 beta²))`, `1 - exp(-S²/(2 c²))` and
`exp(-kappa g / l3)` with every operation made in binary64 in the order of the
code, where `Ra = l2/l3`, `Rb = l1/sqrt(l2 l3)` and `S = sqrt(l1² + l2² + l3²)`;
the edge term is divided by `l3`. -/
theorem C4_closed_form (self : FrangiXiaoSheetnessFunctor ℝ) (gMag e0 e1 e2 : ℝ)
    (hrej : rejected64 self.m_BrightObject (sum64 e0 e1 e2) = false)
    (hl2 : eps ≤ absMed e0 e1 e2) :
    let l1 : RealType ℝ := fin (absMin e0 e1 e2)
    let l2 : RealType ℝ := fin (absMed e0 e1 e2)
    let l3 : RealType ℝ := fin (absMax e0 e1 e2)
    let Ra := div64 l2 l3
    let Rb := div64 l1 (sqrt64 Real.sqrt (mul64 l2 l3))
    let S := sqrt64 Real.sqrt (add64 (add64 (mul64 l1 l1) (mul64 l2 l2)) (mul64 l3 l3))
    absMin e0 e1 e2 ≤ absMed e0 e1 e2 ∧ absMed e0 e1 e2 ≤ absMax e0 e1 e2 ∧
      Evaluate64 Real.exp Real.sqrt self gMag [e0, e1, e2] =
        mul64 (mul64 (mul64
            (exp64 Real.exp (div64 (neg (mul64 Ra Ra))
              (mul64 (mul64 (fin 2) (fin self.m_Alpha)) (fin self.m_Alpha))))
            (exp64 Real.exp (div64 (neg (mul64 Rb Rb))
              (mul64 (mul64 (fin 2) (fin self.m_Beta)) (fin self.m_Beta)))))
            (sub64 (fin 1) (exp64 Real.exp (div64 (neg (mul64 S S))
              (mul64 (mul64 (fin 2) (fin self.m_C)) (fin self.m_C))))))
          (exp64 Real.exp (mul64 (mul64 (fin (-1)) (fin self.m_Kappa)) (div64 (fin gMag) l3))) := by
  intro l1 l2 l3 Ra Rb S
  refine ⟨absMin_le_absMed e0 e1 e2, absMed_le_absMax e0 e1 e2, ?_⟩
  rw [Evaluate64_pass Real.exp Real.sqrt self gMag e0 e1 e2 hrej hl2]
  rfl

/-- C4, witness of the amended statement: the eigenvalues (0, -1, -1) with
gradient magnitude 2 on a freshly constructed functor. -/
theorem C4_closed_form_witness :
    rejected64 true (sum64 (0 : ℝ) (-1) (-1)) = false ∧
      (eps : ℝ) ≤ absMed 0 (-1) (-1) ∧
      absMin (0 : ℝ) (-1) (-1) ≤ absMed (0 : ℝ) (-1) (-1) :=
  have hrej : rejected64 true (sum64 (0 : ℝ) (-1) (-1)) = false :=
    rejected64_bright_nonPos (sum64_nonPos (le_refl 0) (by norm_num) (by norm_num))
  have hl2 : (eps : ℝ) ≤ absMed 0 (-1) (-1) := by
    rw [(abs_flat zero_le_one (le_refl (1 : ℝ))).2.1]
    exact eps_le_one
  ⟨hrej, hl2, (C4_closed_form FrangiXiaoSheetnessFunctor.New 2 0 (-1) (-1) hrej hl2).1⟩

end FrangiXiaoSheetness
